import Mathlib

/-!
Verification of the paintbrush bootloader against its specification.

This file contains a shallow embedding, in Lean 4, of the components of the
repository that the specification's claims are about:

* `src/shared/rangeset/src/lib.rs` — the `RangeSet` physical-memory range algebra
* `src/shared/page_table/src/x86.rs` — the 4-level page-table walker/mapper
* `src/bootloader/src/intel/apic.rs` — the ICR encoding
* `src/shared/core_arg/src/lib.rs` and `src/bootloader/src/main.rs` — the
  per-AP `CoreArg` staging loop
* `src/shared/pe/src/lib.rs` — the PE parser

Machine integers (`u64`, `u32`, `u16`) are modelled as `Nat` with explicit
wrap-around (`% 2^w`) at the operations where the Rust source performs a plain
(release-mode, wrapping) arithmetic operation, and with explicit checks where
the source uses `checked_add`/`saturating_add` (the `add!`/`sub!` macros of
`errchain` and the `saturating_*` calls).  Rust `panic!`/`unreachable!`/failed
`assert!` outcomes are modelled as distinguished constructors (`panicked`,
`fuelOut`, `Option.none`) so that crash behaviour is distinguishable from
surfaced `Err` results.
-/

/-- `2^64`, the modulus of `u64` arithmetic. -/
def U64 : Nat := 2 ^ 64

/-- Wrapping `u64` arithmetic (release-mode Rust `+` on `u64`). -/
def w64 (n : Nat) : Nat := n % U64

/-- Wrapping `u32` arithmetic. -/
def w32 (n : Nat) : Nat := n % 2 ^ 32

/-- Wrapping `u16` arithmetic. -/
def w16 (n : Nat) : Nat := n % 2 ^ 16

namespace Rangeset

/-- Number of slots in a `RangeSet` (`MAX_MEMORY_RANGES` in the source). -/
def MAX_MEMORY_RANGES : Nat := 130

/-- The error enum `RangeSetError` of the source, together with the
`NumericalError` variants of `errchain` that the `add!`/`sub!` macros can
produce inside `RangeSet` functions (the source carries them in one
`ErrorChain` channel; we flatten both into a single error type). -/
inductive RSError where
  | Full
  | InvalidRange
  | ZeroSizedAllocation
  | UnalignedAllocation
  | DeleteOutOfBounds
  | AddOverflow
  | SubUnderflow
  -- Marker for the provably unreachable fuel-exhaustion branches of the loop
  -- embeddings below; never produced on a reachable code path.
  | Unreachable
deriving DecidableEq, Repr

/-- `InclusiveRange { start, end }`: a `u64` range inclusive of both ends. -/
structure InclusiveRange where
  start : Nat
  «end» : Nat
deriving DecidableEq, Repr, Inhabited

namespace InclusiveRange

/-- `InclusiveRange::new`. -/
def new (s e : Nat) : InclusiveRange := ⟨s, e⟩

/-- `InclusiveRange::is_valid`: `start <= end`. -/
def is_valid (r : InclusiveRange) : Bool := r.start ≤ r.«end»

/-- `InclusiveRange::contains`: `self` fully encapsulates `rhs`
(`self.start <= rhs.start && self.end >= rhs.end`), with the validity
`ensure!`s of the source. -/
def contains (self rhs : InclusiveRange) : Except RSError Bool :=
  if ¬ self.is_valid then .error .InvalidRange
  else if ¬ rhs.is_valid then .error .InvalidRange
  else .ok (decide (self.start ≤ rhs.start ∧ self.«end» ≥ rhs.«end»))

/-- `InclusiveRange::overlaps`.  The source computes `rhs.end + 1` and
`self.end + 1` with plain `u64` addition, which wraps on overflow in a release
build; hence the `w64`. -/
def overlaps (self rhs : InclusiveRange) : Except RSError (Option InclusiveRange) :=
  if ¬ self.is_valid then .error .InvalidRange
  else if ¬ rhs.is_valid then .error .InvalidRange
  else if self.start ≤ w64 (rhs.«end» + 1) ∧ rhs.start ≤ w64 (self.«end» + 1) then
    .ok (some ⟨max self.start rhs.start, min (w64 (self.«end» + 1)) (w64 (rhs.«end» + 1))⟩)
  else
    .ok none

/-- `InclusiveRange::len`. -/
def len (r : InclusiveRange) : Nat :=
  if r.«end» = 0 ∧ r.start = 0 then 0 else r.«end» - r.start + 1

end InclusiveRange

/-- `RangeSet`: the source stores a fixed `[InclusiveRange; 130]` array plus a
live count `length`, and only ever reads slots `< length` (dead slots are
written by `delete`'s swap but never observed).  We model exactly the live
prefix as a list; `MAX_MEMORY_RANGES` bounds its length. -/
structure RangeSet where
  ranges : List InclusiveRange
deriving DecidableEq, Repr

namespace RangeSet

/-- `RangeSet::new`. -/
def new : RangeSet := ⟨[]⟩

/-- `RangeSet::delete` body: swap the index with the last live element and
drop the last slot. -/
def deleteIdx (l : List InclusiveRange) (i : Nat) : List InclusiveRange :=
  (l.set i (l.getLastD default)).dropLast

/-- `RangeSet::delete`, with its `ensure!(index < self.len())`. -/
def delete (rs : RangeSet) (i : Nat) : Except RSError RangeSet :=
  if i < rs.ranges.length then .ok ⟨deleteIdx rs.ranges i⟩
  else .error .DeleteOutOfBounds

/-- The scan of `insert`'s merging loop: find the first index whose range
satisfies `curr_range.overlaps(&range).is_some()`, propagating `overlaps`
errors.  The index is returned with its bound so that the merging loop is
visibly terminating. -/
def findOverlap (range : InclusiveRange) :
    (l : List InclusiveRange) → Except RSError (Option (Fin l.length))
  | [] => .ok none
  | c :: rest =>
    match c.overlaps range with
    | .error e => .error e
    | .ok (some _) => .ok (some ⟨0, by simp⟩)
    | .ok none =>
      match findOverlap range rest with
      | .error e => .error e
      | .ok (some i) => .ok (some i.succ)
      | .ok none => .ok none

/-- The fixed-point "merging loop" of `RangeSet::insert`: while some stored
range overlaps (or abuts) the one being inserted, expand the inserted range to
their hull and delete the stored one (swap-with-last), then rescan.  Each
iteration deletes one stored range, so `l.length + 1` fuel always suffices;
the fuel-exhaustion branch is unreachable (kept structural so that concrete
executions reduce in the kernel). -/
def mergeLoopAux (fuel : Nat) (range : InclusiveRange) (l : List InclusiveRange) :
    Except RSError (InclusiveRange × List InclusiveRange) :=
  match fuel with
  | 0 => .error .Unreachable
  | fuel + 1 =>
    match findOverlap range l with
    | .error e => .error e
    | .ok none => .ok (range, l)
    | .ok (some i) =>
      let curr := l.get i
      mergeLoopAux fuel ⟨min range.start curr.start, max range.«end» curr.«end»⟩ (deleteIdx l i)

/-- The merging loop entered with sufficient fuel. -/
def mergeLoop (range : InclusiveRange) (l : List InclusiveRange) :
    Except RSError (InclusiveRange × List InclusiveRange) :=
  mergeLoopAux (l.length + 1) range l

/-- `RangeSet::insert`. -/
def insert (rs : RangeSet) (range : InclusiveRange) : Except RSError RangeSet :=
  if ¬ range.is_valid then .error .InvalidRange
  else if ¬ (rs.ranges.length < MAX_MEMORY_RANGES) then .error .Full
  else
    match mergeLoop range rs.ranges with
    | .error e => .error e
    | .ok (r, l) => .ok ⟨l ++ [r]⟩

/-- `u64::saturating_add(x, 1)` as used by `remove` on range endpoints. -/
def satAddOne (x : Nat) : Nat := min (x + 1) (U64 - 1)

/-- Result of one pass of `remove`'s `'removing` loop. -/
inductive PassResult where
  | restart (l : List InclusiveRange)
  | done (l : List InclusiveRange)
  | fail (e : RSError)
deriving Repr

/-- One pass of the `'removing` loop of `RangeSet::remove`, scanning from
index `i`.  Skips non-overlapping ranges; deletes ranges contained in the one
being removed (restarting the loop, mirroring `continue 'removing`); clips
ranges overlapping on one side in place (continuing the pass); splits a range
strictly containing the removed one, requiring a free slot (restarting). -/
def removePassAux (range : InclusiveRange) :
    Nat → List InclusiveRange → Nat → PassResult
  | 0, l, _ => .done l
  | fuel + 1, l, i =>
    if h : i < l.length then
      let curr := l.get ⟨i, h⟩
      match range.overlaps curr with
      | .error e => .fail e
      | .ok none => removePassAux range fuel l (i + 1)
      | .ok (some _) =>
        match range.contains curr with
        | .error e => .fail e
        | .ok true => .restart (deleteIdx l i)
        | .ok false =>
          if range.start ≤ curr.start then
            removePassAux range fuel (l.set i ⟨satAddOne range.«end», curr.«end»⟩) (i + 1)
          else if range.«end» ≥ curr.«end» then
            removePassAux range fuel (l.set i ⟨curr.start, range.start - 1⟩) (i + 1)
          else if l.length < MAX_MEMORY_RANGES then
            .restart ((l.set i ⟨curr.start, range.start - 1⟩) ++
                      [⟨satAddOne range.«end», curr.«end»⟩])
          else .fail .Full
    else .done l

/-- One pass from index `i`; the in-place clips preserve the list length, so
`l.length - i` fuel makes the structural recursion exact. -/
def removePass (range : InclusiveRange) (l : List InclusiveRange) (i : Nat) : PassResult :=
  removePassAux range (l.length - i) l i

/-- Ranges that cause `remove`'s loop to restart: ranges contained in the
removed range (deleted) or strictly containing it in their interior (split).
Used as the termination measure of the loop. -/
def isBadFor (range c : InclusiveRange) : Bool :=
  decide ((range.start ≤ c.start ∧ c.«end» ≤ range.«end») ∨
          (c.start < range.start ∧ range.«end» < c.«end»))

/-- Number of ranges that can still cause a restart; each restart of the
`'removing` loop strictly decreases this count. -/
def badCount (range : InclusiveRange) (l : List InclusiveRange) : Nat :=
  (l.filter (isBadFor range)).length

/-- A stored range that strictly contains the removed range in its interior
(the configuration that forces `remove` to split, consuming a slot). -/
def interiorFor (range c : InclusiveRange) : Prop :=
  c.start < range.start ∧ range.«end» < c.«end»

instance : ∀ range c, Decidable (interiorFor range c) := fun r c => by
  unfold interiorFor; infer_instance

/-- Outcome of the `'removing` loop, with fuel exhaustion distinguished. -/
inductive RemoveOut where
  | ok (l : List InclusiveRange)
  | fail (e : RSError)
  | fuelOut
deriving Repr

/-- The `'removing` loop, iterated with fuel.  `badCount range l + 1` fuel is
always sufficient (each restart strictly decreases `badCount`). -/
def removeLoopAux : Nat → InclusiveRange → List InclusiveRange → RemoveOut
  | 0, _, _ => .fuelOut
  | fuel + 1, range, l =>
    match removePass range l 0 with
    | .fail e => .fail e
    | .done l' => .ok l'
    | .restart l' => removeLoopAux fuel range l'

/-- `RangeSet::remove`.  The `.fuelOut` branch is unreachable (see
`removeLoopAux_fuel`); it is mapped to an error constructor never produced by
the reachable code paths. -/
def remove (rs : RangeSet) (range : InclusiveRange) : Except RSError RangeSet :=
  if ¬ range.is_valid then .error .InvalidRange
  else
    match removeLoopAux (badCount range rs.ranges + 1) range rs.ranges with
    | .ok l => .ok ⟨l⟩
    | .fail e => .error e
    | .fuelOut => .error .Unreachable

/-- `u32::count_ones` of the `align` check in `allocate` (the value is `u64`;
`count_ones` is bit-population count). -/
def countOnesAux : Nat → Nat → Nat
  | 0, _ => 0
  | fuel + 1, n => if n = 0 then 0 else n % 2 + countOnesAux fuel (n / 2)

/-- Population count of a `u64` value (64 halvings always reach zero). -/
def countOnes (n : Nat) : Nat := countOnesAux 64 n

/-- Outcome of `RangeSet::allocate`: a returned address together with the
mutated set, a surfaced error, or the `unreachable!()` panic of the final
`match` (hit whenever no stored range fits). -/
inductive AllocResult where
  | ok (addr : Nat) (rs : RangeSet)
  | error (e : RSError)
  | panicked
deriving DecidableEq, Repr

/-- The scan loop of `RangeSet::allocate`: for each stored range compute the
padding to the requested alignment, propagate `add!` overflow as an error,
skip ranges that do not fit, short-circuit on a zero-padding fit, otherwise
keep the earliest stored range of strictly smallest padding.  After the scan,
remove the chosen block, or hit `unreachable!()` when nothing fit. -/
def allocScan (rs : RangeSet) (size align mask : Nat) :
    List InclusiveRange → Nat → Option (Nat × Nat) → AllocResult
  | [], _, allocation =>
    match allocation with
    | some (return_addr, e) =>
      match rs.remove ⟨return_addr, e⟩ with
      | .ok rs' => .ok return_addr rs'
      | .error err => .error err
    | none => .panicked
  | r :: rest, best_padding, allocation =>
    let padding := (align - (r.start &&& mask)) &&& mask
    -- `add!(range.start, padding)`: checked `u64` addition
    if r.start + padding ≥ U64 then .error .AddOverflow
    else
      let aligned_start := r.start + padding
      -- `add!(aligned_start, size - 1)`
      if aligned_start + (size - 1) ≥ U64 then .error .AddOverflow
      else
        let e := aligned_start + (size - 1)
        -- `range.start > usize::MAX as u64 || end > usize::MAX as u64`
        -- (vacuous on the 64-bit target, kept for fidelity)
        if r.start > U64 - 1 ∨ e > U64 - 1 then
          allocScan rs size align mask rest best_padding allocation
        else if e > r.«end» then
          allocScan rs size align mask rest best_padding allocation
        else if allocation = none ∨ best_padding > padding then
          if padding = 0 then
            match rs.remove ⟨r.start, e⟩ with
            | .ok rs' => .ok aligned_start rs'
            | .error err => .error err
          else
            allocScan rs size align mask rest padding (some (aligned_start, e))
        else
          allocScan rs size align mask rest best_padding allocation

/-- `RangeSet::allocate`. -/
def allocate (rs : RangeSet) (size align : Nat) : AllocResult :=
  if ¬ (size > 0) then .error .ZeroSizedAllocation
  else if ¬ (countOnes align = 1) then .error .UnalignedAllocation
  else
    allocScan rs size align (align - 1) rs.ranges (U64 - 1) none

/-- The fold of `RangeSet::size`: `ensure!` validity of each stored range, add
`add!((end - start), 1)` (checked), and accumulate with a plain (wrapping)
`u64` `+=`. -/
def sizeFold : List InclusiveRange → Nat → Except RSError Nat
  | [], acc => .ok acc
  | r :: rest, acc =>
    if ¬ r.is_valid then .error .InvalidRange
    else if (r.«end» - r.start) + 1 ≥ U64 then .error .AddOverflow
    else sizeFold rest (w64 (acc + ((r.«end» - r.start) + 1)))

/-- `RangeSet::size`: total number of addresses covered. -/
def size (rs : RangeSet) : Except RSError Nat :=
  sizeFold rs.ranges 0

/-- The set of addresses covered by the stored ranges, as a `Finset`. -/
def coveredF (rs : RangeSet) : Finset Nat :=
  rs.ranges.foldr (fun r acc => Finset.Icc r.start r.«end» ∪ acc) ∅

/-- Covered set of a bare range list. -/
def coveredL (l : List InclusiveRange) : Finset Nat :=
  l.foldr (fun r acc => Finset.Icc r.start r.«end» ∪ acc) ∅

/-- Well-formedness of a stored range: valid, and its end leaves the `+ 1`
computations of `overlaps` exact (`end ≤ 2^64 - 2`). -/
def good (c : InclusiveRange) : Prop :=
  c.start ≤ c.«end» ∧ c.«end» ≤ U64 - 2

instance : DecidablePred good := fun c => by unfold good; infer_instance

/-- The claimed pair invariant: two live ranges neither overlap nor abut. -/
def sepa (x y : InclusiveRange) : Prop :=
  x.«end» + 1 < y.start ∨ y.«end» + 1 < x.start

instance : ∀ x y, Decidable (sepa x y) := fun x y => by unfold sepa; infer_instance

/-- The `RangeSet` invariant claimed by the specification, amended with the
`end ≤ 2^64 - 2` bound that the wrapping `overlaps` test requires. -/
def invariant (rs : RangeSet) : Prop :=
  (∀ c ∈ rs.ranges, good c) ∧ rs.ranges.Pairwise sepa

/-- States reachable from the empty `RangeSet` by successful `insert` and
`remove` operations whose argument ranges end strictly below `u64::MAX`
(the amendment forced by the wrap-around counterexample). -/
inductive Reachable : RangeSet → Prop where
  | empty : Reachable RangeSet.new
  | insert {rs rs' : RangeSet} {r : InclusiveRange} :
      Reachable rs → r.«end» ≤ U64 - 2 → RangeSet.insert rs r = .ok rs' → Reachable rs'
  | remove {rs rs' : RangeSet} {r : InclusiveRange} :
      Reachable rs → r.«end» ≤ U64 - 2 → RangeSet.remove rs r = .ok rs' → Reachable rs'

/-- The padding `allocate` computes for a range start (`(align - (start & mask)) & mask`). -/
def pad (align s : Nat) : Nat := (align - (s &&& (align - 1))) &&& (align - 1)

/-- A stored range can hold an aligned block of `size` bytes after its padding. -/
def fitsIn (size align : Nat) (c : InclusiveRange) : Prop :=
  c.start + pad align c.start + (size - 1) ≤ c.«end»

instance : ∀ size align c, Decidable (fitsIn size align c) := fun s a c => by
  unfold fitsIn; infer_instance

end RangeSet

end Rangeset

namespace PageTableX86

/-- Physical memory as a map from (8-byte aligned) byte addresses to the
`u64` word stored there.  `PhysAddr::read_u64`/`write_u64` act on it. -/
def Mem : Type := Nat → Nat

/-- `PhysAddr::write_u64`. -/
def writeU64 (m : Mem) (a v : Nat) : Mem := fun x => if x = a then v else m x

/-- The effect of `alloc_page_zeroed`'s `copy_from_slice(&[0; 0x1000])`: the
4 KiB page at `p` reads as zero afterwards. -/
def zeroPage (m : Mem) (p : Nat) : Mem := fun x => if p ≤ x ∧ x < p + 4096 then 0 else m x

/-- `VirtAddr::table_indexes`: `(virt >> shift) & 0x1ff` for shifts
39/30/21/12 at depths 0/1/2/3. -/
def tableIndex (virt : Nat) : Nat → Nat
  | 0 => (virt >>> 39) &&& 0x1ff
  | 1 => (virt >>> 30) &&& 0x1ff
  | 2 => (virt >>> 21) &&& 0x1ff
  | _ => (virt >>> 12) &&& 0x1ff

/-- The address mask of `Entry::address`: bits 12..51. -/
def ADDR_MASK : Nat := 0xffffffffff000

/-- `Entry::address`. -/
def entryAddress (e : Nat) : Nat := e &&& ADDR_MASK

/-- Test bit `b` of an entry word (`entry.0 & (1 << b) > 0`). -/
def bitSet (e b : Nat) : Bool := e &&& (1 <<< b) != 0

/-- `PageSize`. -/
inductive PageSize where
  | Size512G
  | Size2M
  | Size4K
deriving DecidableEq, Repr

/-- The page-size bit `EntryBuilder::finish` encodes for a leaf of the given
size (`page_size != PageSize::Size4K`). -/
def psBit : PageSize → Bool
  | .Size4K => false
  | _ => true

/-- Number of bytes of a page of the given size. -/
def pageBytes : PageSize → Nat
  | .Size512G => 512 * 1024 * 1024 * 1024
  | .Size2M => 2 * 1024 * 1024
  | .Size4K => 4 * 1024

/-- `Permissions`. -/
structure Permissions where
  readable : Bool
  writable : Bool
  executable : Bool
deriving DecidableEq, Repr

/-- `Translated`: the result record of `_translate`.  `entries` records the
physical address of the slot read at each depth. -/
structure Translated where
  virt_addr : Nat
  phys_addr : Option Nat
  size : Option PageSize
  entries : List (Option Nat)
  perms : Permissions
deriving DecidableEq, Repr

/-- `Translated::new_not_present`. -/
def Translated.new_not_present (virt : Nat) (entries : List (Option Nat)) : Translated :=
  ⟨virt, none, none, entries, ⟨false, false, false⟩⟩

/-- The body of `_translate`'s `for (level, index)` loop, recursing over the
remaining `(level, index)` pairs.  `none` models the `panic!` arms
(`page_size` set at depth 0 or 3, and the `address.unwrap()` after an empty
loop).  On a non-present entry the walk stops with the entries recorded so
far; on a `page_size` terminal at depth 1/2 it returns the 512 GiB / 2 MiB
translation; after depth 3 it returns the 4 KiB translation. -/
def translateLevels (m : Mem) (virt : Nat) :
    List (Nat × Nat) → Nat → Option Nat → Permissions → List (Option Nat) → Option Translated
  | [], _, address, perms, entries =>
    match address with
    | some a => some ⟨virt, some (a + (virt &&& (4 * 1024 - 1))), some .Size4K, entries, perms⟩
    | none => none
  | (level, index) :: rest, table_address, _, perms, entries =>
    let entry_addr := table_address + 8 * index
    let entry := m entry_addr
    let entries := entries.set level (some entry_addr)
    if ¬ bitSet entry 0 then
      some (Translated.new_not_present virt entries)
    else
      let perms : Permissions := ⟨perms.readable, bitSet entry 1, ! bitSet entry 63⟩
      let next_table_address := entryAddress entry
      if bitSet entry 7 then
        match level with
        | 1 => some ⟨virt, some (next_table_address + (virt &&& (512 * 1024 * 1024 * 1024 - 1))),
                     some .Size512G, entries, perms⟩
        | 2 => some ⟨virt, some (next_table_address + (virt &&& (2 * 1024 * 1024 - 1))),
                     some .Size2M, entries, perms⟩
        | _ => none
      else
        translateLevels m virt rest next_table_address (some next_table_address) perms entries

/-- `PageTable::_translate` from the table rooted at physical address `root`. -/
def translate (m : Mem) (root virt : Nat) : Option Translated :=
  translateLevels m virt
    [(0, tableIndex virt 0), (1, tableIndex virt 1), (2, tableIndex virt 2),
     (3, tableIndex virt 3)]
    root none ⟨true, false, false⟩ [none, none, none, none]

/-- The intermediate-table entry `_map_raw` builds with `EntryBuilder`:
`present | writable | user_permitted`, page-size bit clear, address `p`
(the builder asserts 4 KiB alignment of `p`). -/
def intermediateEntry (p : Nat) : Nat := p ||| 1 ||| 2 ||| 4

/-- One iteration of the `for curr_depth in 1..max_depth` loop of `_map_raw`
on the state (memory, allocator, recorded entries): skip a depth whose slot is
already recorded; otherwise allocate a zeroed page for the missing level,
write the pointer entry into the slot of the previous level, and record the
new slot address.  The allocator is the list of pages `alloc_page_zeroed`
hands out in order; `none` models an allocation failure or the builder’s
alignment `assert!`.  When the previous slot is unexpectedly absent the
source’s `if let Some` silently skips the write (the page stays allocated);
this is mirrored. -/
def mapLoopStep (virt : Nat) (st : Mem × List Nat × List (Option Nat))
    (curr_depth : Nat) : Option (Mem × List Nat × List (Option Nat)) :=
  match st.2.2.getD curr_depth none with
  | some _ => some st
  | none =>
    match st.2.1 with
    | [] => none
    | p :: fresh' =>
      if ¬ (p % 4096 = 0) then none
      else
        let m := zeroPage st.1 p
        let new_entry := intermediateEntry p
        let next_table_index := tableIndex virt curr_depth
        let next_entry_address := p + 8 * next_table_index
        match st.2.2.getD (curr_depth - 1) none with
        | some entry_addr =>
          some (writeU64 m entry_addr new_entry, fresh',
            st.2.2.set curr_depth (some next_entry_address))
        | none => some (m, fresh', st.2.2)

/-- The `for curr_depth in 1..max_depth` loop of `_map_raw`, iterated over
the depth indexes with the early exit of error propagation. -/
def mapLoop (virt : Nat) (m : Mem) (fresh : List Nat) (entries : List (Option Nat))
    (depths : List Nat) : Option (Mem × List Nat × List (Option Nat)) :=
  depths.foldl (fun st d => st.bind (fun s => mapLoopStep virt s d))
    (some (m, fresh, entries))

/-- Errors of `_map_raw`. -/
inductive PtError where
  | CannotMapNonPageAligned
  | VirtAddrAlreadyMapped
  | AllocOrPanic
deriving DecidableEq, Repr

/-- `PageTable::_map_raw`: check leaf alignment, translate, refuse an already
mapped address, build missing intermediate levels for the walk depth of the
requested page size, then write the caller's leaf entry word at the final
level's slot. -/
def mapRaw (m : Mem) (root : Nat) (entry : Nat) (virt : Nat) (entry_size : PageSize)
    (fresh : List Nat) : Except PtError (Mem × List Nat) :=
  if ¬ (entryAddress entry &&& 0xfff = 0) then .error .CannotMapNonPageAligned
  else
    match translate m root virt with
    | none => .error .AllocOrPanic
    | some translation =>
      if translation.phys_addr.isSome then .error .VirtAddrAlreadyMapped
      else
        let max_depth : Nat :=
          match entry_size with
          | .Size512G => 2
          | .Size2M => 3
          | .Size4K => 4
        match mapLoop virt m fresh translation.entries (List.range' 1 (max_depth - 1)) with
        | none => .error .AllocOrPanic
        | some (m, fresh, entries) =>
          match entries.getD (max_depth - 1) none with
          | some entry_addr => .ok (writeU64 m entry_addr entry, fresh)
          | none => .ok (m, fresh)

/-- The per-entry body of `_update_perms`: read the entry word, OR in the
writable bit / clear the execute-disable bit on the local copy — which the
source never writes back to memory (`curr_entry` is dropped). -/
def updatePermsLoop (m : Mem) (perms : Permissions) : List (Option Nat) → Mem
  | [] => m
  | none :: rest => updatePermsLoop m perms rest
  | some entry :: rest =>
    let curr_entry := m entry
    let curr_entry := if perms.writable then curr_entry ||| (1 <<< 1) else curr_entry
    let curr_entry :=
      if perms.executable then curr_entry &&& (U64 - 1 - (1 <<< 63)) else curr_entry
    -- `curr_entry` is discarded here, mirroring the missing write-back in the source
    let _ := curr_entry
    updatePermsLoop m perms rest

/-- `PageTable::_update_perms`: translate, then run the per-entry loop over
the recorded slots.  Returns the resulting memory. -/
def updatePerms (m : Mem) (root virt : Nat) (perms : Permissions) : Option Mem :=
  match translate m root virt with
  | none => none
  | some translation => some (updatePermsLoop m perms translation.entries)

/-- The slot of the last level the walk recorded (the terminal entry read). -/
def lastSlot (t : Translated) : Option Nat := (t.entries.filterMap id).getLast?

end PageTableX86

namespace Apic

/-- `DeliveryMode` with its `repr(u8)` discriminants. -/
inductive DeliveryMode where
  | Fixed
  | LowestPriority
  | SystemManagementInterrupt
  | Reserved0
  | NonMaskableInterrupt
  | Init
  | StartUp
  | Reserved1
deriving DecidableEq, Repr

/-- Numeric value of a `DeliveryMode` (`Fixed = 0b000`, …, `Init = 0b101`,
`StartUp = 0b110`; the unvalued reserved variants take the successor values
Rust assigns them). -/
def DeliveryMode.val : DeliveryMode → Nat
  | .Fixed => 0
  | .LowestPriority => 1
  | .SystemManagementInterrupt => 2
  | .Reserved0 => 3
  | .NonMaskableInterrupt => 4
  | .Init => 5
  | .StartUp => 6
  | .Reserved1 => 7

/-- `DestinationMode`. -/
inductive DestinationMode where
  | Physical
  | Logical
deriving DecidableEq, Repr

def DestinationMode.val : DestinationMode → Nat
  | .Physical => 0
  | .Logical => 1

/-- `DeliveryStatus`. -/
inductive DeliveryStatus where
  | Idle
  | SendPending
deriving DecidableEq, Repr

def DeliveryStatus.val : DeliveryStatus → Nat
  | .Idle => 0
  | .SendPending => 1

/-- `Level`. -/
inductive IpiLevel where
  | DeAssert
  | Assert
deriving DecidableEq, Repr

def IpiLevel.val : IpiLevel → Nat
  | .DeAssert => 0
  | .Assert => 1

/-- `TriggerMode`. -/
inductive IpiTriggerMode where
  | Edge
  | IpiLevelTrig
deriving DecidableEq, Repr

def IpiTriggerMode.val : IpiTriggerMode → Nat
  | .Edge => 0
  | .IpiLevelTrig => 1

/-- `DestinationShorthand`. -/
inductive DestinationShorthand where
  | None
  | Self_
  | AllIncludingSelf
  | AllExcludingSelf
deriving DecidableEq, Repr

def DestinationShorthand.val : DestinationShorthand → Nat
  | .None => 0
  | .Self_ => 1
  | .AllIncludingSelf => 2
  | .AllExcludingSelf => 3

/-- The APIC mode; in the source `Mode::Apic` carries the MMIO mapping, which
the ICR encoding never consults. -/
inductive Mode where
  | Apic
  | X2Apic
deriving DecidableEq, Repr

/-- `InterruptCommand`. -/
structure InterruptCommand where
  delivery_mode : DeliveryMode
  destination_mode : DestinationMode
  delivery_status : DeliveryStatus
  level : IpiLevel
  trigger_mode : IpiTriggerMode
  destination_shorthand : DestinationShorthand
  vector : Option Nat
  apic_id : Option Nat
deriving DecidableEq, Repr

/-- `InterruptCommand::default()`. -/
def InterruptCommand.default : InterruptCommand :=
  ⟨.Fixed, .Physical, .Idle, .DeAssert, .Edge, .None, none, none⟩

/-- `InterruptCommand::raw`: encode the command as the 64-bit ICR value.
`none` models a failed `assert!` (a panic).  The source's three `assert!`s
are reproduced verbatim: note that the second demands
`destination_shorthand == AllIncludingSelf && apic_id.is_none()` and the
third demands `destination_shorthand == AllExcludingSelf && apic_id.is_none()`,
conditions that cannot hold simultaneously. -/
def InterruptCommand.raw (self : InterruptCommand) (mode : Mode) : Option Nat :=
  if ¬ (self.vector.isSome
        ∨ self.delivery_mode = .NonMaskableInterrupt
        ∨ self.delivery_mode = .Init) then none
  else if ¬ (self.destination_shorthand = .AllIncludingSelf ∧ self.apic_id = none) then none
  else if ¬ (self.destination_shorthand = .AllExcludingSelf ∧ self.apic_id = none) then none
  else
    let apic_id := self.apic_id.getD 0
    match mode with
    | .Apic =>
      if ¬ (apic_id ≤ 0xf) then none
      else
        some (w64 ((apic_id <<< 24) <<< 32
          ||| self.destination_shorthand.val <<< 18
          ||| self.trigger_mode.val <<< 15
          ||| self.level.val <<< 14
          ||| self.delivery_status.val <<< 12
          ||| self.destination_mode.val <<< 11
          ||| self.delivery_mode.val <<< 8
          ||| self.vector.getD 0))
    | .X2Apic =>
      some (w64 (apic_id <<< 32
        ||| self.destination_shorthand.val <<< 18
        ||| self.trigger_mode.val <<< 15
        ||| self.level.val <<< 14
        ||| self.delivery_status.val <<< 12
        ||| self.destination_mode.val <<< 11
        ||| self.delivery_mode.val <<< 8
        ||| self.vector.getD 0))

end Apic

namespace CoreArgMod

open Rangeset PageTableX86

/-- `CoreArg`: the per-AP argument block. The `alive_address` pointer is
modelled as the byte address of the AP's slot in the BSP's `bool` array. -/
structure CoreArg where
  core : Option Nat
  memory : RangeSet
  alive_address : Option Nat
  page_table : Nat
  stats_start_time : Nat
deriving DecidableEq, Repr

/-- `CoreArg::new`. -/
def CoreArg.new : CoreArg := ⟨none, RangeSet.new, none, 0, 0⟩

/-- `CoreArg::reset`: clears `core` and the per-core `RangeSet` only. -/
def CoreArg.reset (self : CoreArg) : CoreArg :=
  { self with core := none, memory := RangeSet.new }

/-- `CoreArg::set_core`. -/
def CoreArg.set_core (self : CoreArg) (core : Nat) : CoreArg :=
  { self with core := some core }

/-- `CoreArg::set_alive_address`. -/
def CoreArg.set_alive_address (self : CoreArg) (addr : Nat) : CoreArg :=
  { self with alive_address := some addr }

/-- `CoreArg::insert_memory`: checked `memory_start + (memory_size - 1)`,
then `self.memory.insert(..)` whose `Result` the source drops (an insert
error leaves `memory` unchanged but `insert_memory` still returns `Ok`). -/
def CoreArg.insert_memory (self : CoreArg) (memory_start memory_size : Nat) :
    Except RSError CoreArg :=
  if memory_size = 0 then .error .SubUnderflow
  else if memory_start + (memory_size - 1) ≥ U64 then .error .AddOverflow
  else
    let memory_end := memory_start + (memory_size - 1)
    let memory :=
      match self.memory.insert (InclusiveRange.new memory_start memory_end) with
      | .ok rs => rs
      | .error _ => self.memory
    .ok { self with memory := memory }

/-- Errors of the per-AP loop body of `try_main`. -/
inductive BootError where
  | AllocFailed (e : RSError)
  | TranslateFailed
  | EntryPointNotMapped
  | InsertMemoryFailed (e : RSError)
  | Panicked
deriving DecidableEq, Repr

/-- What `StartupThisAP` receives: the processor number, the physical entry
point, and the contents of the `CoreArg` block at `core_arg_addr` at the
moment of the call. -/
structure ApStart where
  core_id : Nat
  entry_addr : Nat
  arg : CoreArg
deriving DecidableEq, Repr

/-- The body of `try_main`'s `for core_id in 0..NUM_CPUS` loop for one AP
(`core_id ≥ 1`), from `src/bootloader/src/main.rs` lines 163-201.

`let mut core_arg = core_args[core_id];` copies the (`Copy`) array element
into a local; the subsequent `reset`/`set_core`/`set_alive_address`/
`insert_memory` calls mutate that local copy.  `core_arg_addr` is taken from
`&mut core_args[core_id]` — the array element itself — so the block handed to
`StartupThisAP` is the array element, which this body never writes back to.
The returned state carries both the `ApStart` record and the (unchanged)
array plus the mutated allocator. -/
def apIteration (core_args : List CoreArg) (alive_base : Nat) (avail : RangeSet)
    (core_id : Nat) (mem : Mem) (root : Nat) (entry_point : Nat) :
    Except BootError (ApStart × List CoreArg × RangeSet) :=
  -- let mut core_arg = core_args[core_id];
  let core_arg := core_args.getD core_id CoreArg.new
  -- core_arg.reset(); core_arg.set_core(core_id);
  let core_arg := core_arg.reset
  let core_arg := core_arg.set_core core_id
  -- let alive_addr = &mut alive_cores[core_id] as *mut bool;
  let alive_addr := alive_base + core_id
  let core_arg := core_arg.set_alive_address alive_addr
  -- let memory_size = 1024 * 1024 * 1024;
  let memory_size : Nat := 1024 * 1024 * 1024
  -- let memory_start = available_memory.allocate(memory_size, 0x1000)?;
  match avail.allocate memory_size 0x1000 with
  | .error e => .error (.AllocFailed e)
  | .panicked => .error .Panicked
  | .ok memory_start avail' =>
    -- core_arg.insert_memory(memory_start, memory_size);  (Result dropped)
    let core_arg :=
      match core_arg.insert_memory memory_start memory_size with
      | .ok c => c
      | .error _ => core_arg
    -- keep the configured local alive to the end of the body, as the source does
    let _configured := core_arg
    -- let entry_point_phys = curr_page_table.translate(VirtAddr(parsed.entry_point), ..)?;
    match translate mem root entry_point with
    | none => .error .TranslateFailed
    | some entry_point_phys =>
      -- let entry_point_func = entry_point_phys.phys_addr().unwrap().0 as *const fn(usize);
      match entry_point_phys.phys_addr with
      | none => .error .EntryPointNotMapped
      | some entry_point_func =>
        -- let core_arg_addr = &mut core_args[core_id] as *mut _ as usize;
        -- uefi::startup_this_ap(core_id, entry_point_func, core_arg_addr);
        .ok (⟨core_id, entry_point_func, core_args.getD core_id CoreArg.new⟩,
             core_args, avail')

end CoreArgMod

namespace Pe

/-- `pe::Error`. -/
inductive PeError where
  | InvalidMZHeader
  | InvalidPEHEader
  | TooManySections
deriving DecidableEq, Repr

/-- `SectionPermissions`. -/
structure SectionPermissions where
  executable : Bool
  readable : Bool
  writable : Bool
deriving DecidableEq, Repr

/-- A parsed section: the slice of file bytes, the section RVA, and its
permissions. -/
structure ParsedSection where
  data : List Nat
  virt_addr : Nat
  perms : SectionPermissions
deriving DecidableEq, Repr

/-- `pe::Parsed`. -/
structure Parsed where
  sections : List (Option ParsedSection)
  image_base : Nat
  entry_point : Nat
deriving DecidableEq, Repr

/-- Outcome of `pe::parse`: success, a surfaced error, or a Rust panic
(out-of-bounds slice index or slice range). -/
inductive ParseOut where
  | ok (p : Parsed)
  | error (e : PeError)
  | panicked
deriving DecidableEq, Repr

/-- Little-endian read of `n` bytes of `data` starting at `off` (bounds are
checked by the callers before use, as the corresponding Rust slices are). -/
def readLE (data : List Nat) (off n : Nat) : Nat :=
  match n with
  | 0 => 0
  | k + 1 => data.getD off 0 + 256 * readLE data (off + 1) k

/-- `NUM_SECTIONS`. -/
def NUM_SECTIONS : Nat := 6

/-- Size in bytes of the `repr(C)` `PeHeader` struct (56) and of a `Section`
header (40), and the field offsets the parser consumes. -/
def PE_HEADER_SIZE : Nat := 56

def SECTION_HEADER_SIZE : Nat := 40

/-- The `for section_num in 0..header.number_of_sections` loop of `parse`.
`pe_header` is the suffix of the file starting at `e_lfanew`;
`section_start_offset` is `(opt_header_size + 0x18) as usize` (a wrapping
`u16` sum).  Each iteration slices the section header
(`section_ptr[section_start..section_end]`, panicking when out of bounds),
reads the fields, computes the data slice bounds with wrapping `u32`
addition, and slices `data` (panicking when out of bounds). -/
def parseSections (data pe_header : List Nat) (section_start_offset : Nat)
    (sections : List (Option ParsedSection)) : List Nat → Option (List (Option ParsedSection))
  | [] => some sections
  | section_num :: rest =>
    -- let section_ptr = &pe_header[section_start_offset..];
    if section_start_offset > pe_header.length then none
    else
      let section_ptr := pe_header.drop section_start_offset
      let section_start := SECTION_HEADER_SIZE * section_num
      let section_end := section_start + SECTION_HEADER_SIZE
      -- &section_ptr[section_start..section_end]
      if section_end > section_ptr.length then none
      else
        let sec := section_ptr.drop section_start
        let virt_addr := readLE sec 12 4
        let raw_data_size := readLE sec 16 4
        let raw_data_ptr := readLE sec 20 4
        let characteristics := readLE sec 36 4
        let section_data_start := raw_data_ptr
        let section_data_end := w32 (raw_data_ptr + raw_data_size)
        -- &data[section_data_start..section_data_end]
        if section_data_start > section_data_end ∨ section_data_end > data.length then none
        else
          let slice := (data.drop section_data_start).take (section_data_end - section_data_start)
          let perms : SectionPermissions :=
            ⟨decide (characteristics &&& 0x20 > 0),
             decide (characteristics &&& 0x40000000 > 0),
             decide (characteristics &&& 0x80000000 > 0)⟩
          parseSections data pe_header section_start_offset
            (sections.set section_num (some ⟨slice, virt_addr, perms⟩)) rest

/-- `pe::parse`. -/
def parse (data : List Nat) : ParseOut :=
  -- ensure!(&data[..2] == b"MZ", ..): the slice itself panics when len < 2
  if data.length < 2 then .panicked
  else if ¬ (data.take 2 = [0x4d, 0x5a]) then .error .InvalidMZHeader
  else
    -- u32::from_le_bytes(data[0x3c..0x40] ..)
    if data.length < 0x40 then .panicked
    else
      let pe_offset := readLE data 0x3c 4
      -- let pe_header = &data[pe_offset..];
      if pe_offset > data.length then .panicked
      else
        let pe_header := data.drop pe_offset
        -- ensure!(&pe_header[..2] == b"PE", ..)
        if pe_header.length < 2 then .panicked
        else if ¬ (pe_header.take 2 = [0x50, 0x45]) then .error .InvalidPEHEader
        else
          -- &pe_header[..size_of::<PeHeader>()]
          if pe_header.length < PE_HEADER_SIZE then .panicked
          else
            let number_of_sections := readLE pe_header 6 2
            let opt_header_size := readLE pe_header 20 2
            let entry_point_rva := readLE pe_header 40 4
            let image_base := readLE pe_header 48 8
            if ¬ (number_of_sections ≤ NUM_SECTIONS) then .error .TooManySections
            else
              let section_start_offset := w16 (opt_header_size + 0x18)
              match parseSections data pe_header section_start_offset
                  (List.replicate 6 none) (List.range number_of_sections) with
              | none => .panicked
              | some sections =>
                .ok ⟨sections, image_base, w64 (entry_point_rva + image_base)⟩

end Pe

namespace PageTableX86

/-- The frame visited at each depth of a translation walk (frame 0 is the
root; frame `j+1` is the address field of the entry read at depth `j`). -/
def walkFrame (m : Mem) (root virt : Nat) : Nat → Nat
  | 0 => root
  | j + 1 => entryAddress (m (walkFrame m root virt j + 8 * tableIndex virt j))

/-- The slot address read at depth `j` of a translation walk. -/
def walkSlot (m : Mem) (root virt : Nat) (j : Nat) : Nat :=
  walkFrame m root virt j + 8 * tableIndex virt j

/-- A concrete page-table memory used as a test vehicle: a three-level walk
of virtual address `0` ending in a 2 MiB leaf.  The level-0 and level-1
entries are present but not writable; the leaf entry at `0x3000` is
present, writable, and `page_size` (word `0x4083`, address `0x4000`). -/
def exMem2M : Mem := fun a =>
  if a = 0x1000 then 0x2001
  else if a = 0x2000 then 0x3001
  else if a = 0x3000 then 0x4083
  else 0

/-- A concrete page-table memory mapping virtual address `0x140001000`
(4 KiB leaf at physical `0x567000`) from root `0x1000`, used by the boot
orchestrator test vehicle. -/
def bootMem : Mem := fun a =>
  if a = 0x1000 then 0x2003
  else if a = 0x2028 then 0x3003
  else if a = 0x3000 then 0x4003
  else if a = 0x4008 then 0x567003
  else 0

end PageTableX86

/-! ## Theorems -/

section Theorems

open Rangeset Rangeset.RangeSet Rangeset.InclusiveRange
open PageTableX86 CoreArgMod Apic Pe

/-- Helper for C3: the per-entry loop of `_update_perms` never writes to
memory (the modified entry value is dropped). -/
theorem updatePermsLoop_eq (m : Mem) (perms : Permissions) :
    ∀ l : List (Option Nat), updatePermsLoop m perms l = m := by
  intro l
  induction l with
  | nil => rfl
  | cons o rest ih => cases o <;> simpa [updatePermsLoop] using ih

/-- Helper for C3: `_update_perms` leaves physical memory unchanged whenever
it returns at all. -/
theorem updatePerms_preserves_mem (m : Mem) (root virt : Nat) (perms : Permissions)
    (m' : Mem) (h : updatePerms m root virt perms = some m') : m' = m := by
  unfold updatePerms at h
  cases htr : PageTableX86.translate m root virt with
  | none => rw [htr] at h; cases h
  | some t =>
    rw [htr] at h
    simp only [Option.some.injEq] at h
    rw [← h, updatePermsLoop_eq]

/-- C3: the permission updater `_update_perms` is claimed to OR the writable
bit into / clear the execute-disable bit of each recorded live entry *in
memory*.  The code reads each entry into a local `curr_entry`, modifies the
local, and never writes it back: memory is returned unchanged, so after
requesting `{r,w,x}` on a translated address the level-1 entry of `exMem2M`
(slot `0x2000`) still has its writable bit clear. -/
theorem claim_C3_update_perms_no_writeback :
    updatePerms exMem2M 0x1000 0 ⟨true, true, true⟩ = some exMem2M ∧
    bitSet (exMem2M 0x2000) 1 = false ∧
    bitSet (exMem2M 0x3000) 1 = true := by
  exact ⟨rfl, by decide, by decide⟩

/-- C9: `InterruptCommand::raw` panics on every input: its second `assert!`
demands `destination_shorthand == AllIncludingSelf && apic_id.is_none()` and
its third demands `destination_shorthand == AllExcludingSelf &&
apic_id.is_none()`, which cannot hold simultaneously, so one of them always
fails.  In particular the specified INIT/Assert encodings are never produced. -/
theorem claim_C9_icr_raw_always_panics (cmd : InterruptCommand) (mode : Apic.Mode) :
    cmd.raw mode = none := by
  unfold Apic.InterruptCommand.raw
  by_cases h2 : cmd.destination_shorthand = DestinationShorthand.AllIncludingSelf ∧
      cmd.apic_id = none
  · have h3 : ¬ (cmd.destination_shorthand = DestinationShorthand.AllExcludingSelf ∧
        cmd.apic_id = none) := by
      rintro ⟨h3a, -⟩
      exact absurd (h2.1.symm.trans h3a) (by decide)
    by_cases h1 : (cmd.vector.isSome ∨ cmd.delivery_mode = DeliveryMode.NonMaskableInterrupt
        ∨ cmd.delivery_mode = DeliveryMode.Init)
    · rw [if_neg (not_not_intro h1), if_neg (not_not_intro h2), if_pos h3]
    · rw [if_pos h1]
  · by_cases h1 : (cmd.vector.isSome ∨ cmd.delivery_mode = DeliveryMode.NonMaskableInterrupt
        ∨ cmd.delivery_mode = DeliveryMode.Init)
    · rw [if_neg (not_not_intro h1), if_pos h2]
    · rw [if_pos h1]

/-- C10 counterexample: `pe::parse` is not total — on the empty input the
very first check `&data[..2] == b"MZ"` indexes out of bounds and panics
before any `Result` can be returned. -/
theorem claim_C10_counterexample : Pe.parse [] = .panicked := rfl

/-- C10 (amended): `parse` only surfaces errors once its slice accesses are
in bounds: every input of length at least 2 that does not begin with `MZ`
yields `Err(InvalidMZHeader)` (while shorter inputs panic, per the
counterexample). -/
theorem claim_C10_parse_mz_error (data : List Nat) (hlen : 2 ≤ data.length)
    (hmz : ¬ data.take 2 = [0x4d, 0x5a]) :
    Pe.parse data = .error .InvalidMZHeader := by
  unfold Pe.parse
  rw [if_neg (by omega), if_pos hmz]

/-- Witness for the amended C10 statement at the concrete input `[0, 0]`. -/
theorem claim_C10_parse_mz_error_witness :
    2 ≤ ([0, 0] : List Nat).length ∧ Pe.parse [0, 0] = .error .InvalidMZHeader :=
  ⟨by decide, claim_C10_parse_mz_error [0, 0] (by decide) (by decide)⟩

/-- C4: the boot orchestrator is claimed to hand `StartupThisAP` a `CoreArg`
block that has been reset, stamped with the AP's core id, given the
alive-flag pointer, and given its 1 GiB arena.  But `let mut core_arg =
core_args[core_id];` copies the (`Copy`) element, all four mutations land on
that local copy, and `core_arg_addr` is taken from the untouched array
element: the block passed to the firmware is still `CoreArg::new()` —
unstamped, with no alive pointer and an empty per-core `RangeSet`. -/
theorem claim_C4_corearg_passed_unconfigured :
    apIteration (List.replicate 36 CoreArg.new) 0x9000 ⟨[⟨0, 2 ^ 31⟩]⟩ 1 bootMem 0x1000
        0x140001000 =
      .ok (⟨1, 0x567000, CoreArg.new⟩, List.replicate 36 CoreArg.new,
           ⟨[⟨0x40000000, 0x80000000⟩]⟩) ∧
    CoreArg.new.core = none ∧ CoreArg.new.alive_address = none ∧
    CoreArg.new.memory.ranges = [] :=
  ⟨rfl, rfl, rfl, rfl⟩

/-- C6: `allocate` surfaces `ZeroSizedAllocation` for `size = 0` and
`UnalignedAllocation` for a non-power-of-two `align`, but on range
exhaustion it does not surface an error: the `match allocation { None =>
unreachable!() }` arm panics (the repository's own `test_fail_allocate`
expects a failure value here). -/
theorem claim_C6_allocate_exhaustion_panics :
    RangeSet.allocate ⟨[⟨0, 32⟩]⟩ 0 0x100 = .error .ZeroSizedAllocation ∧
    RangeSet.allocate ⟨[⟨0, 32⟩]⟩ 64 3 = .error .UnalignedAllocation ∧
    RangeSet.allocate ⟨[⟨0, 32⟩]⟩ 64 0x100 = .panicked :=
  ⟨rfl, rfl, rfl⟩

/-- C2 counterexample: permissions are not accumulated as an AND across the
levels walked.  In `exMem2M` the walk of virtual address 0 passes the level-0
entry (word `0x2001`, writable bit clear) and the level-1 entry (word
`0x3001`, writable bit clear) before the writable 2 MiB leaf; `_translate`
reports `writable = true` — the leaf's bit — where the claimed AND over all
walked levels would be false. -/
theorem claim_C2_counterexample :
    PageTableX86.translate exMem2M 0x1000 0 =
      some ⟨0, some 0x4000, some .Size2M,
            [some 0x1000, some 0x2000, some 0x3000, none], ⟨true, true, true⟩⟩ ∧
    bitSet (exMem2M 0x1000) 1 = false ∧ bitSet (exMem2M 0x2000) 1 = false :=
  ⟨rfl, rfl, rfl⟩

/-- C7 counterexample: the non-overlap/non-abutment invariant is not
maintained by successful operations once a range ends at `u64::MAX`.
`insert([0, MAX])` into the empty set succeeds; `insert([5, 10])` then also
succeeds because `overlaps` computes `self.end + 1`, which wraps to 0, so no
merge is detected — leaving two stored ranges that overlap outright. -/
theorem claim_C7_counterexample :
    RangeSet.insert RangeSet.new ⟨0, U64 - 1⟩ = .ok ⟨[⟨0, U64 - 1⟩]⟩ ∧
    RangeSet.insert ⟨[⟨0, U64 - 1⟩]⟩ ⟨5, 10⟩ = .ok ⟨[⟨0, U64 - 1⟩, ⟨5, 10⟩]⟩ ∧
    ¬ ([(⟨0, U64 - 1⟩ : InclusiveRange), ⟨5, 10⟩].Pairwise sepa) := by
  refine ⟨rfl, rfl, ?_⟩
  intro h
  rcases List.pairwise_cons.mp h with ⟨h1, -⟩
  rcases h1 ⟨5, 10⟩ (by simp) with h2 | h2 <;> revert h2 <;> decide

/-- C8 counterexample: `insert(r); remove(r)` does not leave the covered set
unchanged when `r` overlaps existing coverage.  From the reachable state
`{[0,10]}`, inserting `[5,20]` merges to `[0,20]` and removing `[5,20]`
clips to `[0,4]`: address 10 was covered before and is not afterwards. -/
theorem claim_C8_counterexample :
    RangeSet.insert RangeSet.new ⟨0, 10⟩ = .ok ⟨[⟨0, 10⟩]⟩ ∧
    RangeSet.insert ⟨[⟨0, 10⟩]⟩ ⟨5, 20⟩ = .ok ⟨[⟨0, 20⟩]⟩ ∧
    RangeSet.remove ⟨[⟨0, 20⟩]⟩ ⟨5, 20⟩ = .ok ⟨[⟨0, 4⟩]⟩ ∧
    10 ∈ coveredF ⟨[⟨0, 10⟩]⟩ ∧ 10 ∉ coveredF ⟨[⟨0, 4⟩]⟩ := by
  refine ⟨rfl, rfl, rfl, ?_, ?_⟩ <;> simp [coveredF]

/-- C5 counterexample: a fitting stored range does not guarantee that
`allocate` returns an address.  The scan computes `add!(range.start,
padding)` for *every* stored range in order; on `[2^64-2, 2^64-2]` with
alignment `0x1000` this checked addition overflows and the error aborts
`allocate` before the scan reaches `[0, 100]`, which holds an aligned
8-byte block at 0. -/
theorem claim_C5_counterexample :
    fitsIn 8 0x1000 ⟨0, 100⟩ ∧
    RangeSet.allocate ⟨[⟨U64 - 2, U64 - 2⟩, ⟨0, 100⟩]⟩ 8 0x1000 =
      .error .AddOverflow :=
  ⟨by decide, rfl⟩

/-- C2 (amended): whenever `_translate` returns a translation with a
physical address, `perms.readable` is `true` and `perms.writable` /
`perms.executable` are the writable bit and the negated execute-disable bit
of the terminal entry — the entry at the last recorded slot — alone (each
level's assignment overwrites the previous one). -/
theorem claim_C2_last_level_perms (m : Mem) (root virt : Nat) (t : Translated)
    (p s : Nat) (ht : PageTableX86.translate m root virt = some t)
    (hp : t.phys_addr = some p) (hs : lastSlot t = some s) :
    t.perms = ⟨true, bitSet (m s) 1, ! bitSet (m s) 63⟩ := by
  simp only [PageTableX86.translate, translateLevels] at ht
  by_cases h0 : bitSet (m (root + 8 * tableIndex virt 0)) 0 = true
  case neg =>
    simp only [h0, if_neg, if_pos, Bool.not_eq_true, not_false_eq_true, if_true] at ht
    injection ht with ht
    subst ht
    simp [Translated.new_not_present] at hp
  case pos =>
    simp only [h0, not_true_eq_false, if_false] at ht
    by_cases g0 : bitSet (m (root + 8 * tableIndex virt 0)) 7 = true
    case pos =>
      simp only [g0, if_true] at ht
      cases ht
    case neg =>
      simp only [g0, if_false, Bool.false_eq_true] at ht
      by_cases h1 : bitSet (m (entryAddress (m (root + 8 * tableIndex virt 0)) +
          8 * tableIndex virt 1)) 0 = true
      case neg =>
        simp only [h1, not_false_eq_true, if_true, Bool.not_eq_true] at ht
        injection ht with ht
        subst ht
        simp [Translated.new_not_present] at hp
      case pos =>
        simp only [h1, not_true_eq_false, if_false] at ht
        by_cases g1 : bitSet (m (entryAddress (m (root + 8 * tableIndex virt 0)) +
            8 * tableIndex virt 1)) 7 = true
        case pos =>
          simp only [g1, if_true] at ht
          injection ht with ht
          subst ht
          simp [lastSlot, List.getLast?] at hs
          subst hs
          rfl
        case neg =>
          simp only [g1, if_false, Bool.false_eq_true] at ht
          by_cases h2 : bitSet (m (entryAddress (m (entryAddress
              (m (root + 8 * tableIndex virt 0)) + 8 * tableIndex virt 1)) +
              8 * tableIndex virt 2)) 0 = true
          case neg =>
            simp only [h2, not_false_eq_true, if_true, Bool.not_eq_true] at ht
            injection ht with ht
            subst ht
            simp [Translated.new_not_present] at hp
          case pos =>
            simp only [h2, not_true_eq_false, if_false] at ht
            by_cases g2 : bitSet (m (entryAddress (m (entryAddress
                (m (root + 8 * tableIndex virt 0)) + 8 * tableIndex virt 1)) +
                8 * tableIndex virt 2)) 7 = true
            case pos =>
              simp only [g2, if_true] at ht
              injection ht with ht
              subst ht
              simp [lastSlot, List.getLast?] at hs
              subst hs
              rfl
            case neg =>
              simp only [g2, if_false, Bool.false_eq_true] at ht
              by_cases h3 : bitSet (m (entryAddress (m (entryAddress (m (entryAddress
                  (m (root + 8 * tableIndex virt 0)) + 8 * tableIndex virt 1)) +
                  8 * tableIndex virt 2)) + 8 * tableIndex virt 3)) 0 = true
              case neg =>
                simp only [h3, not_false_eq_true, if_true, Bool.not_eq_true] at ht
                injection ht with ht
                subst ht
                simp [Translated.new_not_present] at hp
              case pos =>
                simp only [h3, not_true_eq_false, if_false] at ht
                by_cases g3 : bitSet (m (entryAddress (m (entryAddress (m (entryAddress
                    (m (root + 8 * tableIndex virt 0)) + 8 * tableIndex virt 1)) +
                    8 * tableIndex virt 2)) + 8 * tableIndex virt 3)) 7 = true
                case pos =>
                  simp only [g3, if_true] at ht
                  cases ht
                case neg =>
                  simp only [g3, if_false, Bool.false_eq_true] at ht
                  injection ht with ht
                  subst ht
                  simp [lastSlot, List.getLast?] at hs
                  subst hs
                  rfl

/-- Witness for the amended C2 statement: the concrete 2 MiB walk of
`exMem2M`, whose terminal entry sits at slot `0x3000`. -/
theorem claim_C2_last_level_perms_witness :
    PageTableX86.translate exMem2M 0x1000 0 =
      some ⟨0, some 0x4000, some .Size2M,
            [some 0x1000, some 0x2000, some 0x3000, none], ⟨true, true, true⟩⟩ ∧
    (⟨0, some 0x4000, some .Size2M, [some 0x1000, some 0x2000, some 0x3000, none],
      (⟨true, true, true⟩ : Permissions)⟩ : Translated).perms =
      ⟨true, bitSet (exMem2M 0x3000) 1, ! bitSet (exMem2M 0x3000) 63⟩ :=
  ⟨rfl, claim_C2_last_level_perms exMem2M 0x1000 0 _ 0x4000 0x3000 rfl rfl rfl⟩

/-! ### RangeSet helper lemmas -/

theorem w64_small {n : Nat} (h : n < U64) : w64 n = n := Nat.mod_eq_of_lt h

theorem U64_pos : 0 < U64 := by unfold U64; positivity

/-- `overlaps` evaluated on valid operands whose `+ 1`s do not wrap. -/
theorem overlaps_eval {c r : InclusiveRange} (hc : c.start ≤ c.«end»)
    (hce : c.«end» ≤ U64 - 2) (hr : r.start ≤ r.«end») (hre : r.«end» ≤ U64 - 2) :
    c.overlaps r =
      if c.start ≤ r.«end» + 1 ∧ r.start ≤ c.«end» + 1 then
        .ok (some ⟨max c.start r.start, min (c.«end» + 1) (r.«end» + 1)⟩)
      else .ok none := by
  have h1 : w64 (c.«end» + 1) = c.«end» + 1 := w64_small (by unfold U64 at *; omega)
  have h2 : w64 (r.«end» + 1) = r.«end» + 1 := w64_small (by unfold U64 at *; omega)
  unfold InclusiveRange.overlaps
  rw [h1, h2]
  rw [if_neg (by simp [InclusiveRange.is_valid, hc]),
      if_neg (by simp [InclusiveRange.is_valid, hr])]

/-- `contains` evaluated on valid operands. -/
theorem contains_eval {c r : InclusiveRange} (hc : c.start ≤ c.«end»)
    (hr : r.start ≤ r.«end») :
    c.contains r = .ok (decide (c.start ≤ r.start ∧ c.«end» ≥ r.«end»)) := by
  unfold InclusiveRange.contains
  rw [if_neg (by simp [InclusiveRange.is_valid, hc]),
      if_neg (by simp [InclusiveRange.is_valid, hr])]

/-- Hull of two overlapping-or-abutting ranges covers exactly their union. -/
theorem Icc_hull {a b : InclusiveRange}
    (h1 : a.start ≤ b.«end» + 1) (h2 : b.start ≤ a.«end» + 1) :
    Finset.Icc (min a.start b.start) (max a.«end» b.«end») =
      Finset.Icc a.start a.«end» ∪ Finset.Icc b.start b.«end» := by
  ext x
  simp only [Finset.mem_Icc, Finset.mem_union, le_min_iff, min_le_iff, le_max_iff,
    max_le_iff]
  omega

theorem coveredL_nil : coveredL [] = ∅ := rfl

theorem coveredL_cons (r : InclusiveRange) (l : List InclusiveRange) :
    coveredL (r :: l) = Finset.Icc r.start r.«end» ∪ coveredL l := rfl

theorem coveredL_append (a b : List InclusiveRange) :
    coveredL (a ++ b) = coveredL a ∪ coveredL b := by
  induction a with
  | nil => simp [coveredL_nil, coveredL]
  | cons r rest ih =>
    rw [List.cons_append, coveredL_cons, coveredL_cons, ih, Finset.union_assoc]

theorem mem_coveredL {x : Nat} {l : List InclusiveRange} :
    x ∈ coveredL l ↔ ∃ c ∈ l, c.start ≤ x ∧ x ≤ c.«end» := by
  induction l with
  | nil => simp [coveredL_nil]
  | cons r rest ih =>
    rw [coveredL_cons]
    simp only [Finset.mem_union, Finset.mem_Icc, ih, List.mem_cons]
    constructor
    · rintro (h | ⟨c, hc, hcx⟩)
      · exact ⟨r, Or.inl rfl, h⟩
      · exact ⟨c, Or.inr hc, hcx⟩
    · rintro ⟨c, (rfl | hc), hcx⟩
      · exact Or.inl hcx
      · exact Or.inr ⟨c, hc, hcx⟩

theorem coveredL_perm {l l' : List InclusiveRange} (h : l.Perm l') :
    coveredL l = coveredL l' := by
  ext x
  simp only [mem_coveredL]
  constructor <;> rintro ⟨c, hc, hx⟩
  · exact ⟨c, h.mem_iff.mp hc, hx⟩
  · exact ⟨c, h.mem_iff.mpr hc, hx⟩

theorem coveredF_eq (rs : RangeSet) : coveredF rs = coveredL rs.ranges := rfl

/-- `deleteIdx` (swap with last, pop) is a permutation of erasing index `i`. -/
theorem deleteIdx_perm (l : List InclusiveRange) (i : Nat) (h : i < l.length) :
    (deleteIdx l i).Perm (l.eraseIdx i) := by
  induction l generalizing i with
  | nil => simp at h
  | cons x rest ih =>
    cases rest with
    | nil =>
      have hi : i = 0 := by simpa using h
      subst hi
      simp [deleteIdx]
    | cons y ys =>
      cases i with
      | zero =>
        have hne : (y :: ys) ≠ [] := by simp
        have hL : (x :: y :: ys).getLastD default = (y :: ys).getLast hne := by
          rw [List.getLastD_eq_getLast?, List.getLast?_cons_cons,
            List.getLast?_eq_getLast _ hne]
          rfl
        show List.Perm (((x :: y :: ys).set 0 ((x :: y :: ys).getLastD default)).dropLast) _
        rw [hL]
        show List.Perm (((y :: ys).getLast hne :: y :: ys).dropLast) (y :: ys)
        rw [List.dropLast_cons_of_ne_nil hne]
        have heq : (y :: ys).dropLast ++ [(y :: ys).getLast hne] = y :: ys :=
          List.dropLast_concat_getLast hne
        exact (List.perm_append_singleton _ _).symm.trans (by rw [heq])
      | succ j =>
        have hj : j < (y :: ys).length := by simpa using h
        have hne : ((y :: ys).set j ((y :: ys).getLastD default)) ≠ [] := by
          intro he
          have := congrArg List.length he
          simp at this
        have hL : (x :: y :: ys).getLastD default = (y :: ys).getLastD default := by
          rw [List.getLastD_eq_getLast?, List.getLastD_eq_getLast?,
            List.getLast?_cons_cons]
        show List.Perm
          (((x :: y :: ys).set (j + 1) ((x :: y :: ys).getLastD default)).dropLast) _
        rw [hL]
        show List.Perm ((x :: (y :: ys).set j ((y :: ys).getLastD default)).dropLast)
          (x :: (y :: ys).eraseIdx j)
        rw [List.dropLast_cons_of_ne_nil hne]
        exact (ih j hj).cons x

theorem deleteIdx_length (l : List InclusiveRange) (i : Nat) :
    (deleteIdx l i).length = l.length - 1 := by
  simp [deleteIdx]

theorem deleteIdx_subset {l : List InclusiveRange} {i : Nat} (h : i < l.length) :
    ∀ c ∈ deleteIdx l i, c ∈ l := by
  intro c hc
  have := (deleteIdx_perm l i h).mem_iff.mp hc
  exact List.mem_of_mem_eraseIdx this

theorem sepa_symm : Symmetric sepa := by
  intro x y h
  unfold sepa at *
  tauto

theorem pairwise_deleteIdx {l : List InclusiveRange} {i : Nat} (h : i < l.length)
    (hp : l.Pairwise sepa) : (deleteIdx l i).Pairwise sepa := by
  have h1 : (l.eraseIdx i).Pairwise sepa :=
    hp.sublist (List.eraseIdx_sublist l i)
  exact ((deleteIdx_perm l i h).pairwise_iff fun {_ _} hxy => sepa_symm hxy).mpr h1

theorem coveredL_eraseIdx {l : List InclusiveRange} {i : Nat} (h : i < l.length) :
    coveredL l =
      Finset.Icc (l.get ⟨i, h⟩).start (l.get ⟨i, h⟩).«end» ∪ coveredL (l.eraseIdx i) := by
  induction l generalizing i with
  | nil => simp at h
  | cons x rest ih =>
    cases i with
    | zero => simp [coveredL_cons, List.eraseIdx]
    | succ j =>
      have hj : j < rest.length := by simpa using h
      show coveredL (x :: rest) = _ ∪ coveredL (x :: rest.eraseIdx j)
      rw [coveredL_cons, coveredL_cons, ih hj]
      simp only [List.get_cons_succ]
      rw [Finset.union_left_comm]

theorem findOverlap_none {range : InclusiveRange} :
    ∀ {l : List InclusiveRange}, findOverlap range l = .ok none →
      ∀ c ∈ l, c.overlaps range = .ok none := by
  intro l
  induction l with
  | nil => intro _ c hc; simp at hc
  | cons x rest ih =>
    intro h c hc
    unfold findOverlap at h
    rcases hov : x.overlaps range with e | o
    · rw [hov] at h; cases h
    · rw [hov] at h
      cases o with
      | some o => simp at h
      | none =>
        rcases hfo : findOverlap range rest with e | o2
        · rw [hfo] at h; cases h
        · rw [hfo] at h
          cases o2 with
          | some i2 => simp at h
          | none =>
            rcases List.mem_cons.mp hc with rfl | hc2
            · exact hov
            · exact ih hfo c hc2

theorem findOverlap_some {range : InclusiveRange} :
    ∀ {l : List InclusiveRange} {i : Fin l.length}, findOverlap range l = .ok (some i) →
      ∃ o, (l.get i).overlaps range = .ok (some o) := by
  intro l
  induction l with
  | nil => intro i; exact absurd i.isLt (by simp)
  | cons x rest ih =>
    intro i h
    unfold findOverlap at h
    rcases hov : x.overlaps range with e | o
    · rw [hov] at h; cases h
    · rw [hov] at h
      cases o with
      | some o =>
        simp only [Except.ok.injEq, Option.some.injEq] at h
        rw [← h]
        exact ⟨o, hov⟩
      | none =>
        rcases hfo : findOverlap range rest with e | o2
        · rw [hfo] at h; cases h
        · rw [hfo] at h
          cases o2 with
          | none => simp at h
          | some i2 =>
            simp only [Except.ok.injEq, Option.some.injEq] at h
            rw [← h]
            exact ih hfo

/-- The exit condition of the merging loop means the final range is
separated (by at least one address) from every remaining stored range. -/
theorem overlaps_none_sepa {c r : InclusiveRange} (hc : c.start ≤ c.«end»)
    (hce : c.«end» ≤ U64 - 2) (hr : r.start ≤ r.«end») (hre : r.«end» ≤ U64 - 2)
    (h : c.overlaps r = .ok none) : sepa c r := by
  rw [overlaps_eval hc hce hr hre] at h
  unfold sepa
  by_cases hcond : c.start ≤ r.«end» + 1 ∧ r.start ≤ c.«end» + 1
  · rw [if_pos hcond] at h; cases h
  · omega

/-- Main lemma about the merging loop of `insert`. -/
theorem mergeLoopAux_spec :
    ∀ (fuel : Nat) (range : InclusiveRange) (l : List InclusiveRange)
      (r' : InclusiveRange) (l' : List InclusiveRange),
      mergeLoopAux fuel range l = .ok (r', l') →
      (∀ c ∈ l, good c) → range.start ≤ range.«end» → range.«end» ≤ U64 - 2 →
      (coveredL l' ∪ Finset.Icc r'.start r'.«end» =
        coveredL l ∪ Finset.Icc range.start range.«end») ∧
      (∀ c ∈ l', good c) ∧
      (r'.start ≤ r'.«end» ∧ r'.«end» ≤ U64 - 2) ∧
      findOverlap r' l' = .ok none ∧
      (l.Pairwise sepa → l'.Pairwise sepa) ∧
      l'.length ≤ l.length := by
  intro fuel
  induction fuel with
  | zero => intro range l r' l' h; cases h
  | succ fuel ih =>
    intro range l r' l' h hgood hr hre
    unfold mergeLoopAux at h
    rcases hfo : findOverlap range l with e | o
    · rw [hfo] at h; cases h
    · rw [hfo] at h
      cases o with
      | none =>
        simp only [Except.ok.injEq, Prod.mk.injEq] at h
        obtain ⟨rfl, rfl⟩ := h
        exact ⟨rfl, hgood, ⟨hr, hre⟩, hfo, id, le_refl _⟩
      | some i =>
        set curr := l.get i with hcurr
        have hcmem : curr ∈ l := List.get_mem l i.1 i.2
        have hcgood : good curr := hgood curr hcmem
        obtain ⟨o, hov⟩ := findOverlap_some hfo
        rw [← hcurr] at hov
        rw [overlaps_eval hcgood.1 hcgood.2 hr hre] at hov
        have hcond : curr.start ≤ range.«end» + 1 ∧ range.start ≤ curr.«end» + 1 := by
          by_cases hcond : curr.start ≤ range.«end» + 1 ∧ range.start ≤ curr.«end» + 1
          · exact hcond
          · rw [if_neg hcond] at hov; cases hov
        have hgood2 : ∀ c ∈ deleteIdx l i, good c :=
          fun c hc => hgood c (deleteIdx_subset i.isLt c hc)
        have hhullv : (min range.start curr.start) ≤ (max range.«end» curr.«end») :=
          le_trans (min_le_left _ _) (le_trans hr (le_max_left _ _))
        have hhulle : (max range.«end» curr.«end») ≤ U64 - 2 :=
          max_le hre hcgood.2
        obtain ⟨ih1, ih2, ih3, ih4, ih5, ih6⟩ :=
          ih _ _ _ _ h hgood2 hhullv hhulle
        refine ⟨?_, ih2, ih3, ih4, ?_, ?_⟩
        · rw [ih1]
          have hhull : Finset.Icc (min range.start curr.start) (max range.«end» curr.«end») =
              Finset.Icc range.start range.«end» ∪ Finset.Icc curr.start curr.«end» :=
            Icc_hull hcond.2 hcond.1
          have herase : coveredL l =
              Finset.Icc curr.start curr.«end» ∪ coveredL (l.eraseIdx i) :=
            coveredL_eraseIdx i.isLt
          rw [coveredL_perm (deleteIdx_perm l i i.isLt)]
          simp only [InclusiveRange.mk.injEq] at hhull ⊢
          rw [hhull, herase]
          ext x
          simp only [Finset.mem_union]
          tauto
        · intro hp
          exact ih5 (pairwise_deleteIdx i.isLt hp)
        · calc l'.length ≤ (deleteIdx l i).length := ih6
            _ ≤ l.length := by rw [deleteIdx_length]; omega

/-- Specification of `RangeSet::insert`: covered-set semantics, preservation
of well-formed endpoints, and preservation of the pair invariant. -/
theorem insert_spec {rs rs' : RangeSet} {r : InclusiveRange}
    (h : RangeSet.insert rs r = .ok rs')
    (hgood : ∀ c ∈ rs.ranges, good c) (hre : r.«end» ≤ U64 - 2) :
    coveredF rs' = coveredF rs ∪ Finset.Icc r.start r.«end» ∧
    (∀ c ∈ rs'.ranges, good c) ∧
    (rs.ranges.Pairwise sepa → rs'.ranges.Pairwise sepa) := by
  unfold RangeSet.insert at h
  by_cases hv : r.is_valid = true
  case neg => rw [if_pos (by simpa using hv)] at h; cases h
  case pos =>
    rw [if_neg (by simpa using hv)] at h
    have hrv : r.start ≤ r.«end» := by simpa [InclusiveRange.is_valid] using hv
    by_cases hlen : rs.ranges.length < MAX_MEMORY_RANGES
    case neg => rw [if_pos hlen] at h; cases h
    case pos =>
      rw [if_neg (not_not_intro hlen)] at h
      rcases hml : mergeLoop r rs.ranges with e | p
      · rw [hml] at h; cases h
      · rw [hml] at h
        obtain ⟨r', l'⟩ := p
        simp only [Except.ok.injEq] at h
        obtain ⟨h1, h2, h3, h4, h5, _⟩ :=
          mergeLoopAux_spec _ _ _ _ _ hml hgood hrv hre
        subst h
        refine ⟨?_, ?_, ?_⟩
        · show coveredL (l' ++ [r']) = _
          rw [coveredL_append, coveredL_cons, coveredL_nil, Finset.union_empty]
          exact h1
        · intro c hc
          rcases List.mem_append.mp hc with hc | hc
          · exact h2 c hc
          · rw [List.mem_singleton.mp hc]; exact ⟨h3.1, h3.2⟩
        · intro hp
          rw [List.pairwise_append]
          refine ⟨h5 hp, List.pairwise_singleton _ _, ?_⟩
          intro x hx y hy
          rw [List.mem_singleton.mp hy]
          have hxg := h2 x hx
          exact overlaps_none_sepa hxg.1 hxg.2 h3.1 h3.2 (findOverlap_none h4 x hx)

theorem list_decomp {l : List InclusiveRange} {i : Nat} (h : i < l.length) :
    l = l.take i ++ l.get ⟨i, h⟩ :: l.drop (i + 1) := by
  conv_lhs => rw [← List.take_append_drop i l]
  rw [List.drop_eq_get_cons h]

theorem coveredL_set_decomp {l : List InclusiveRange} {i : Nat} (h : i < l.length)
    (c' : InclusiveRange) :
    coveredL (l.set i c') =
      Finset.Icc c'.start c'.«end» ∪ coveredL (l.eraseIdx i) := by
  rw [List.set_eq_take_cons_drop c' h, List.eraseIdx_eq_take_drop_succ,
    coveredL_append, coveredL_append, coveredL_cons]
  ext x
  simp only [Finset.mem_union]
  tauto

theorem coveredL_get_decomp {l : List InclusiveRange} {i : Nat} (h : i < l.length) :
    coveredL l =
      Finset.Icc (l.get ⟨i, h⟩).start (l.get ⟨i, h⟩).«end» ∪ coveredL (l.eraseIdx i) :=
  coveredL_eraseIdx h

theorem badCount_append (range : InclusiveRange) (a b : List InclusiveRange) :
    badCount range (a ++ b) = badCount range a + badCount range b := by
  unfold badCount
  rw [List.filter_append, List.length_append]

theorem badCount_cons (range c : InclusiveRange) (l : List InclusiveRange) :
    badCount range (c :: l) =
      (if isBadFor range c then 1 else 0) + badCount range l := by
  unfold badCount
  rw [List.filter_cons]
  split <;> simp [Nat.add_comm]

theorem badCount_decomp (range : InclusiveRange) {l : List InclusiveRange} {i : Nat}
    (h : i < l.length) :
    badCount range l =
      badCount range (l.take i) + (if isBadFor range (l.get ⟨i, h⟩) then 1 else 0) +
        badCount range (l.drop (i + 1)) := by
  conv_lhs => rw [list_decomp h]
  rw [badCount_append, badCount_cons]
  omega

theorem badCount_set (range : InclusiveRange) {l : List InclusiveRange} {i : Nat}
    (h : i < l.length) (c' : InclusiveRange) :
    badCount range (l.set i c') =
      badCount range (l.take i) + (if isBadFor range c' then 1 else 0) +
        badCount range (l.drop (i + 1)) := by
  rw [List.set_eq_take_cons_drop c' h, badCount_append, badCount_cons]
  omega

theorem badCount_eraseIdx (range : InclusiveRange) {l : List InclusiveRange} {i : Nat}
    (h : i < l.length) :
    badCount range (l.eraseIdx i) =
      badCount range (l.take i) + badCount range (l.drop (i + 1)) := by
  rw [List.eraseIdx_eq_take_drop_succ, badCount_append]

theorem badCount_deleteIdx (range : InclusiveRange) {l : List InclusiveRange} {i : Nat}
    (h : i < l.length) :
    badCount range (deleteIdx l i) =
      badCount range (l.take i) + badCount range (l.drop (i + 1)) := by
  have hperm := (deleteIdx_perm l i h).filter (fun c => isBadFor range c)
  unfold badCount
  rw [hperm.length_eq]
  exact badCount_eraseIdx range h

/-- `sepa` is antitone in the second range (shrinking preserves separation). -/
theorem sepa_shrink {x curr c' : InclusiveRange} (h : sepa x curr)
    (h1 : curr.start ≤ c'.start) (h2 : c'.«end» ≤ curr.«end») : sepa x c' := by
  unfold sepa at *
  omega

theorem pairwise_set {l : List InclusiveRange} {i : Nat} (h : i < l.length)
    {c' : InclusiveRange} (hp : l.Pairwise sepa)
    (h1 : (l.get ⟨i, h⟩).start ≤ c'.start) (h2 : c'.«end» ≤ (l.get ⟨i, h⟩).«end») :
    (l.set i c').Pairwise sepa := by
  set curr := l.get ⟨i, h⟩ with hc
  rw [List.set_eq_take_cons_drop c' h]
  rw [list_decomp h, ← hc, List.pairwise_append, List.pairwise_cons] at hp
  obtain ⟨hA, ⟨hcB, hB⟩, hAy⟩ := hp
  rw [List.pairwise_append, List.pairwise_cons]
  refine ⟨hA, ⟨?_, hB⟩, ?_⟩
  · intro b hb
    exact sepa_symm (sepa_shrink (sepa_symm (hcB b hb)) h1 h2)
  · intro a ha y hy
    rcases List.mem_cons.mp hy with rfl | hy
    · exact sepa_shrink (hAy a ha curr (by simp)) h1 h2
    · exact hAy a ha y (by simp [hy])

theorem overlaps_ok {c r : InclusiveRange} (hc : c.start ≤ c.«end»)
    (hr : r.start ≤ r.«end») : ∃ res, c.overlaps r = .ok res := by
  unfold InclusiveRange.overlaps
  rw [if_neg (by simp [InclusiveRange.is_valid, hc]),
      if_neg (by simp [InclusiveRange.is_valid, hr])]
  split
  · exact ⟨_, rfl⟩
  · exact ⟨_, rfl⟩

theorem satAddOne_eq {x : Nat} (h : x ≤ U64 - 2) : satAddOne x = x + 1 := by
  unfold satAddOne U64 at *
  omega

/-- Facts about the left-clip `[range.end+1, curr.end]` performed by `remove`
when `range.start ≤ curr.start` but `curr` is not contained in `range`. -/
theorem clip1_spec {range curr : InclusiveRange} (hrv : range.start ≤ range.«end»)
    (hre : range.«end» ≤ U64 - 2) (hcg : good curr)
    (hov2 : curr.start ≤ range.«end» + 1)
    (hnc : ¬ (range.start ≤ curr.start ∧ range.«end» ≥ curr.«end»))
    (hb1 : range.start ≤ curr.start) :
    (range.«end» + 1 ≤ curr.«end» ∧ curr.«end» ≤ U64 - 2) ∧
    curr.start ≤ range.«end» + 1 ∧
    Finset.Icc (range.«end» + 1) curr.«end» =
      Finset.Icc curr.start curr.«end» \ Finset.Icc range.start range.«end» ∧
    ¬ isBadFor range ⟨range.«end» + 1, curr.«end»⟩ ∧
    ¬ interiorFor range ⟨range.«end» + 1, curr.«end»⟩ := by
  obtain ⟨hcv, hce⟩ := hcg
  refine ⟨⟨by omega, hce⟩, hov2, ?_, ?_, ?_⟩
  · ext x
    simp only [Finset.mem_Icc, Finset.mem_sdiff, not_and, not_le]
    omega
  · unfold isBadFor
    simp only [decide_eq_true_eq, not_or, not_and, not_lt, not_le]
    constructor <;> intro <;> omega
  · unfold interiorFor
    simp only [not_and, not_lt]
    intro
    omega

/-- Facts about the right-clip `[curr.start, range.start-1]` performed by
`remove` when `range.«end» ≥ curr.«end»` and `range.start > curr.start`. -/
theorem clip2_spec {range curr : InclusiveRange} (hrv : range.start ≤ range.«end»)
    (hre : range.«end» ≤ U64 - 2) (hcg : good curr)
    (hov1 : range.start ≤ curr.«end» + 1)
    (hb2 : range.«end» ≥ curr.«end») (hnb1 : ¬ range.start ≤ curr.start) :
    (curr.start ≤ range.start - 1 ∧ range.start - 1 ≤ U64 - 2) ∧
    range.start - 1 ≤ curr.«end» ∧
    Finset.Icc curr.start (range.start - 1) =
      Finset.Icc curr.start curr.«end» \ Finset.Icc range.start range.«end» ∧
    ¬ isBadFor range ⟨curr.start, range.start - 1⟩ ∧
    ¬ interiorFor range ⟨curr.start, range.start - 1⟩ := by
  obtain ⟨hcv, hce⟩ := hcg
  refine ⟨⟨by omega, by omega⟩, by omega, ?_, ?_, ?_⟩
  · ext x
    simp only [Finset.mem_Icc, Finset.mem_sdiff, not_and, not_le]
    omega
  · unfold isBadFor
    simp only [decide_eq_true_eq, not_or, not_and, not_lt, not_le]
    constructor <;> intro <;> omega
  · unfold interiorFor
    simp only [not_and, not_lt]
    intro
    omega

/-- Facts about the split `[curr.start, range.start-1]` / `[range.end+1,
curr.end]` performed by `remove` when `curr` strictly contains `range`. -/
theorem split_spec {range curr : InclusiveRange} (hrv : range.start ≤ range.«end»)
    (hre : range.«end» ≤ U64 - 2) (hcg : good curr)
    (hnb1 : ¬ range.start ≤ curr.start) (hnb2 : ¬ range.«end» ≥ curr.«end») :
    (curr.start ≤ range.start - 1 ∧ range.start - 1 ≤ U64 - 2) ∧
    (range.«end» + 1 ≤ curr.«end» ∧ curr.«end» ≤ U64 - 2) ∧
    (Finset.Icc curr.start (range.start - 1) ∪
      Finset.Icc (range.«end» + 1) curr.«end») =
      Finset.Icc curr.start curr.«end» \ Finset.Icc range.start range.«end» ∧
    sepa ⟨curr.start, range.start - 1⟩ ⟨range.«end» + 1, curr.«end»⟩ ∧
    ¬ isBadFor range ⟨curr.start, range.start - 1⟩ ∧
    ¬ isBadFor range ⟨range.«end» + 1, curr.«end»⟩ ∧
    ¬ interiorFor range ⟨curr.start, range.start - 1⟩ ∧
    ¬ interiorFor range ⟨range.«end» + 1, curr.«end»⟩ := by
  obtain ⟨hcv, hce⟩ := hcg
  refine ⟨⟨by omega, by omega⟩, ⟨by omega, hce⟩, ?_, ?_, ?_, ?_, ?_, ?_⟩
  · ext x
    simp only [Finset.mem_Icc, Finset.mem_sdiff, Finset.mem_union, not_and, not_le]
    omega
  · unfold sepa
    simp only
    omega
  · unfold isBadFor
    simp only [decide_eq_true_eq, not_or, not_and, not_lt, not_le]
    constructor <;> intro <;> omega
  · unfold isBadFor
    simp only [decide_eq_true_eq, not_or, not_and, not_lt, not_le]
    constructor <;> intro <;> omega
  · unfold interiorFor
    simp only [not_and, not_lt]
    intro
    omega
  · unfold interiorFor
    simp only [not_and, not_lt]
    intro
    omega

theorem mem_of_mem_set {l : List InclusiveRange} {i : Nat} {x c : InclusiveRange}
    (h : x ∈ l.set i c) : x ∈ l ∨ x = c := by
  rcases List.mem_or_eq_of_mem_set h with h1 | h1
  · exact Or.inl h1
  · exact Or.inr h1

/-- The `'removing` pass can only fail with `Full`, at full capacity, and
only when some stored range strictly contains the removed one. -/
theorem removePassAux_fail {range : InclusiveRange} (hrv : range.start ≤ range.«end»)
    (hre : range.«end» ≤ U64 - 2) :
    ∀ (fuel : Nat) (l : List InclusiveRange) (i : Nat) (e : RSError),
      (∀ c ∈ l, good c) →
      removePassAux range fuel l i = .fail e →
      e = .Full ∧ MAX_MEMORY_RANGES ≤ l.length ∧ ∃ c ∈ l, interiorFor range c := by
  intro fuel
  induction fuel with
  | zero => intro l i e _ h; cases h
  | succ fuel ih =>
    intro l i e hgood h
    rw [removePassAux] at h
    split at h
    case isFalse => cases h
    case isTrue hi =>
      simp only [] at h
      set curr := l.get ⟨i, hi⟩ with hcurr
      have hcg : good curr := hgood curr (List.get_mem l i hi)
      rcases hovr : range.overlaps curr with e' | o
      · obtain ⟨res, hok⟩ := overlaps_ok hrv hcg.1
        rw [hok] at hovr
        cases hovr
      · rw [hovr] at h
        rcases o with _ | u
        · exact ih l (i + 1) e hgood h
        · simp only [] at h
          have hov : range.start ≤ curr.«end» + 1 ∧ curr.start ≤ range.«end» + 1 := by
            rw [overlaps_eval hrv hre hcg.1 hcg.2] at hovr
            by_cases hc : range.start ≤ curr.«end» + 1 ∧ curr.start ≤ range.«end» + 1
            · exact hc
            · rw [if_neg hc] at hovr; simp at hovr
          rcases hcor : range.contains curr with e2 | b
          · rw [contains_eval hrv hcg.1] at hcor
            cases hcor
          · rw [hcor] at h
            rcases b with _ | _
            · -- contains returned false
              simp only [] at h
              have hnc : ¬ (range.start ≤ curr.start ∧ range.«end» ≥ curr.«end») := by
                rw [contains_eval hrv hcg.1] at hcor
                injection hcor with hcor
                intro hcc
                rw [decide_eq_true hcc] at hcor
                cases hcor
              split at h
              case isTrue hb1 =>
                have hc1 := clip1_spec hrv hre hcg hov.2 hnc hb1
                have hsat := satAddOne_eq hre
                have hgood2 : ∀ c ∈ l.set i ⟨satAddOne range.«end», curr.«end»⟩, good c := by
                  intro c hc
                  rcases mem_of_mem_set hc with hc | rfl
                  · exact hgood c hc
                  · rw [hsat]
                    exact ⟨hc1.1.1, hc1.1.2⟩
                obtain ⟨he, hlen, c, hc, hint⟩ := ih _ _ _ hgood2 h
                refine ⟨he, by simpa using hlen, ?_⟩
                rcases mem_of_mem_set hc with hc | rfl
                · exact ⟨c, hc, hint⟩
                · rw [hsat] at hint
                  exact absurd hint hc1.2.2.2.2
              case isFalse hb1 =>
                split at h
                case isTrue hb2 =>
                  have hc2 := clip2_spec hrv hre hcg hov.1 hb2 hb1
                  have hgood2 : ∀ c ∈ l.set i ⟨curr.start, range.start - 1⟩, good c := by
                    intro c hc
                    rcases mem_of_mem_set hc with hc | rfl
                    · exact hgood c hc
                    · exact ⟨hc2.1.1, hc2.1.2⟩
                  obtain ⟨he, hlen, c, hc, hint⟩ := ih _ _ _ hgood2 h
                  refine ⟨he, by simpa using hlen, ?_⟩
                  rcases mem_of_mem_set hc with hc | rfl
                  · exact ⟨c, hc, hint⟩
                  · exact absurd hint hc2.2.2.2.2
                case isFalse hb2 =>
                  split at h
                  case isTrue hlen => cases h
                  case isFalse hlen =>
                    injection h with h
                    subst h
                    exact ⟨rfl, by omega, curr, List.get_mem l i hi, by
                      unfold interiorFor; omega⟩
            · simp only [] at h
              cases h

/-- If every stored range is disjoint from the removed one, subtracting the
removed range leaves the covered set unchanged. -/
theorem coveredL_sdiff_self {range : InclusiveRange} {l : List InclusiveRange}
    (h : ∀ j (hj : j < l.length),
      Disjoint (Finset.Icc (l.get ⟨j, hj⟩).start (l.get ⟨j, hj⟩).«end»)
               (Finset.Icc range.start range.«end»)) :
    coveredL l \ Finset.Icc range.start range.«end» = coveredL l := by
  ext x
  simp only [Finset.mem_sdiff]
  constructor
  · exact fun hx => hx.1
  · intro hx
    refine ⟨hx, ?_⟩
    obtain ⟨c, hc, hxc⟩ := mem_coveredL.mp hx
    obtain ⟨j, hj⟩ := List.mem_iff_get.mp hc
    intro hxr
    have := Finset.disjoint_left.mp (h j.1 j.2)
    exact this (by rw [hj]; exact Finset.mem_Icc.mpr hxc) hxr

/-- The `'removing` pass, entered with a processed prefix already disjoint
from the removed range and enough fuel, finishes (`done`) with exactly the
removed addresses subtracted, preserving goodness, pairwise separation, and
the list length. -/
theorem removePassAux_done {range : InclusiveRange} (hrv : range.start ≤ range.«end»)
    (hre : range.«end» ≤ U64 - 2) :
    ∀ (fuel : Nat) (l : List InclusiveRange) (i : Nat) (l' : List InclusiveRange),
      (∀ c ∈ l, good c) →
      l.length ≤ fuel + i →
      (∀ j (hj : j < l.length), j < i →
        Disjoint (Finset.Icc (l.get ⟨j, hj⟩).start (l.get ⟨j, hj⟩).«end»)
                 (Finset.Icc range.start range.«end»)) →
      removePassAux range fuel l i = .done l' →
      coveredL l' = coveredL l \ Finset.Icc range.start range.«end» ∧
      (∀ c ∈ l', good c) ∧
      (l.Pairwise sepa → l'.Pairwise sepa) ∧
      l'.length = l.length := by
  intro fuel
  induction fuel with
  | zero =>
    intro l i l' hgood hfuel hpre h
    rw [removePassAux] at h
    injection h with h
    subst h
    refine ⟨(coveredL_sdiff_self fun j hj => hpre j hj (by omega)).symm, hgood,
      fun hp => hp, rfl⟩
  | succ fuel ih =>
    intro l i l' hgood hfuel hpre h
    rw [removePassAux] at h
    split at h
    case isFalse hi =>
      injection h with h
      subst h
      refine ⟨(coveredL_sdiff_self fun j hj => hpre j hj (by omega)).symm, hgood,
        fun hp => hp, rfl⟩
    case isTrue hi =>
      simp only [] at h
      set curr := l.get ⟨i, hi⟩ with hcurr
      have hcg : good curr := hgood curr (List.get_mem l i hi)
      rcases hovr : range.overlaps curr with e' | o
      · obtain ⟨res, hok⟩ := overlaps_ok hrv hcg.1
        rw [hok] at hovr
        cases hovr
      · rw [hovr] at h
        rcases o with _ | u
        · -- no overlap: `curr` is disjoint from the removed range
          have hdis : Disjoint (Finset.Icc curr.start curr.«end»)
              (Finset.Icc range.start range.«end») := by
            rw [overlaps_eval hrv hre hcg.1 hcg.2] at hovr
            by_cases hc : range.start ≤ curr.«end» + 1 ∧ curr.start ≤ range.«end» + 1
            · rw [if_pos hc] at hovr; cases hovr
            · rw [Finset.disjoint_left]
              intro x hx1 hx2
              simp only [Finset.mem_Icc] at hx1 hx2
              omega
          refine ih l (i + 1) l' hgood (by omega) ?_ h
          intro j hj hji
          rcases Nat.lt_or_ge j i with hji' | hji'
          · exact hpre j hj hji'
          · have : j = i := by omega
            subst this
            exact hdis
        · simp only [] at h
          have hov : range.start ≤ curr.«end» + 1 ∧ curr.start ≤ range.«end» + 1 := by
            rw [overlaps_eval hrv hre hcg.1 hcg.2] at hovr
            by_cases hc : range.start ≤ curr.«end» + 1 ∧ curr.start ≤ range.«end» + 1
            · exact hc
            · rw [if_neg hc] at hovr; simp at hovr
          rcases hcor : range.contains curr with e2 | b
          · rw [contains_eval hrv hcg.1] at hcor
            cases hcor
          · rw [hcor] at h
            rcases b with _ | _
            · -- contains returned false: one of the clip/split branches
              simp only [] at h
              have hnc : ¬ (range.start ≤ curr.start ∧ range.«end» ≥ curr.«end») := by
                rw [contains_eval hrv hcg.1] at hcor
                injection hcor with hcor
                intro hcc
                rw [decide_eq_true hcc] at hcor
                cases hcor
              split at h
              case isTrue hb1 =>
                have hc1 := clip1_spec hrv hre hcg hov.2 hnc hb1
                have hsat := satAddOne_eq hre
                rw [hsat] at h
                set c' : InclusiveRange := ⟨range.«end» + 1, curr.«end»⟩ with hc'
                have hgood2 : ∀ c ∈ l.set i c', good c := by
                  intro c hc
                  rcases mem_of_mem_set hc with hc | rfl
                  · exact hgood c hc
                  · exact ⟨hc1.1.1, hc1.1.2⟩
                have hget2 : ∀ j (hj : j < (l.set i c').length),
                    (l.set i c').get ⟨j, hj⟩ = if i = j then c' else l.get ⟨j, by
                      rw [List.length_set] at hj; exact hj⟩ := by
                  intro j hj
                  simp [List.getElem_set]
                have hpre2 : ∀ j (hj : j < (l.set i c').length), j < i + 1 →
                    Disjoint (Finset.Icc ((l.set i c').get ⟨j, hj⟩).start
                        ((l.set i c').get ⟨j, hj⟩).«end»)
                      (Finset.Icc range.start range.«end») := by
                  intro j hj hji
                  rw [hget2 j hj]
                  rcases Nat.lt_or_ge j i with hji' | hji'
                  · rw [if_neg (by omega)]
                    exact hpre j (by rw [List.length_set] at hj; exact hj) hji'
                  · have : i = j := by omega
                    rw [if_pos this]
                    rw [hc']
                    simp only []
                    rw [hc1.2.2.1]
                    exact Finset.sdiff_disjoint
                obtain ⟨hcov, hg', hpw', hlen'⟩ := ih (l.set i c') (i + 1) l' hgood2
                  (by rw [List.length_set]; omega) hpre2 h
                refine ⟨?_, hg', ?_, by rw [hlen', List.length_set]⟩
                · rw [hcov, coveredL_set_decomp hi c', coveredL_get_decomp hi, ← hcurr,
                    Finset.union_sdiff_distrib, Finset.union_sdiff_distrib]
                  have : Finset.Icc c'.start c'.«end» \
                      Finset.Icc range.start range.«end» =
                      Finset.Icc curr.start curr.«end» \
                      Finset.Icc range.start range.«end» := by
                    rw [hc']
                    simp only []
                    rw [hc1.2.2.1]
                    rw [sdiff_idem]
                  rw [this]
                · intro hp
                  exact hpw' (pairwise_set hi hp (by rw [← hcurr, hc']; exact hov.2)
                    (by rw [← hcurr, hc']))
              case isFalse hb1 =>
                split at h
                case isTrue hb2 =>
                  have hc2 := clip2_spec hrv hre hcg hov.1 hb2 hb1
                  set c' : InclusiveRange := ⟨curr.start, range.start - 1⟩ with hc'
                  have hgood2 : ∀ c ∈ l.set i c', good c := by
                    intro c hc
                    rcases mem_of_mem_set hc with hc | rfl
                    · exact hgood c hc
                    · exact ⟨hc2.1.1, hc2.1.2⟩
                  have hget2 : ∀ j (hj : j < (l.set i c').length),
                      (l.set i c').get ⟨j, hj⟩ = if i = j then c' else l.get ⟨j, by
                        rw [List.length_set] at hj; exact hj⟩ := by
                    intro j hj
                    simp [List.getElem_set]
                  have hpre2 : ∀ j (hj : j < (l.set i c').length), j < i + 1 →
                      Disjoint (Finset.Icc ((l.set i c').get ⟨j, hj⟩).start
                          ((l.set i c').get ⟨j, hj⟩).«end»)
                        (Finset.Icc range.start range.«end») := by
                    intro j hj hji
                    rw [hget2 j hj]
                    rcases Nat.lt_or_ge j i with hji' | hji'
                    · rw [if_neg (by omega)]
                      exact hpre j (by rw [List.length_set] at hj; exact hj) hji'
                    · have : i = j := by omega
                      rw [if_pos this]
                      rw [hc']
                      simp only []
                      rw [hc2.2.2.1]
                      exact Finset.sdiff_disjoint
                  obtain ⟨hcov, hg', hpw', hlen'⟩ := ih (l.set i c') (i + 1) l' hgood2
                    (by rw [List.length_set]; omega) hpre2 h
                  refine ⟨?_, hg', ?_, by rw [hlen', List.length_set]⟩
                  · rw [hcov, coveredL_set_decomp hi c', coveredL_get_decomp hi, ← hcurr,
                      Finset.union_sdiff_distrib, Finset.union_sdiff_distrib]
                    have : Finset.Icc c'.start c'.«end» \
                        Finset.Icc range.start range.«end» =
                        Finset.Icc curr.start curr.«end» \
                        Finset.Icc range.start range.«end» := by
                      rw [hc']
                      simp only []
                      rw [hc2.2.2.1]
                      rw [sdiff_idem]
                    rw [this]
                  · intro hp
                    exact hpw' (pairwise_set hi hp (by rw [← hcurr, hc'])
                      (by rw [← hcurr, hc']; simp only []; exact hc2.2.1))
                case isFalse hb2 =>
                  split at h
                  case isTrue hlen => cases h
                  case isFalse hlen => cases h
            · simp only [] at h
              cases h

/-- When the `'removing` pass restarts (`continue 'removing` in the source),
the covered set loses only addresses of the removed range, goodness and
pairwise separation are preserved, the restart measure strictly decreases,
and the capacity/no-split disjunction is maintained. -/
theorem removePassAux_restart {range : InclusiveRange} (hrv : range.start ≤ range.«end»)
    (hre : range.«end» ≤ U64 - 2) :
    ∀ (fuel : Nat) (l : List InclusiveRange) (i : Nat) (l' : List InclusiveRange),
      (∀ c ∈ l, good c) →
      l.Pairwise sepa →
      removePassAux range fuel l i = .restart l' →
      (coveredL l \ Finset.Icc range.start range.«end» ⊆ coveredL l' ∧
       coveredL l' ⊆ coveredL l) ∧
      (∀ c ∈ l', good c) ∧
      l'.Pairwise sepa ∧
      badCount range l' < badCount range l ∧
      ((l.length < MAX_MEMORY_RANGES ∨ ∀ c ∈ l, ¬ interiorFor range c) →
       (l'.length < MAX_MEMORY_RANGES ∨ ∀ c ∈ l', ¬ interiorFor range c)) := by
  intro fuel
  induction fuel with
  | zero => intro l i l' _ _ h; cases h
  | succ fuel ih =>
    intro l i l' hgood hp h
    rw [removePassAux] at h
    split at h
    case isFalse hi => cases h
    case isTrue hi =>
      simp only [] at h
      set curr := l.get ⟨i, hi⟩ with hcurr
      have hcg : good curr := hgood curr (List.get_mem l i hi)
      rcases hovr : range.overlaps curr with e' | o
      · obtain ⟨res, hok⟩ := overlaps_ok hrv hcg.1
        rw [hok] at hovr
        cases hovr
      · rw [hovr] at h
        rcases o with _ | u
        · exact ih l (i + 1) l' hgood hp h
        · simp only [] at h
          have hov : range.start ≤ curr.«end» + 1 ∧ curr.start ≤ range.«end» + 1 := by
            rw [overlaps_eval hrv hre hcg.1 hcg.2] at hovr
            by_cases hc : range.start ≤ curr.«end» + 1 ∧ curr.start ≤ range.«end» + 1
            · exact hc
            · rw [if_neg hc] at hovr; simp at hovr
          rcases hcor : range.contains curr with e2 | b
          · rw [contains_eval hrv hcg.1] at hcor
            cases hcor
          · rw [hcor] at h
            rcases b with _ | _
            · -- contains returned false: skip to the clip/split branches
              simp only [] at h
              have hnc : ¬ (range.start ≤ curr.start ∧ range.«end» ≥ curr.«end») := by
                rw [contains_eval hrv hcg.1] at hcor
                injection hcor with hcor
                intro hcc
                rw [decide_eq_true hcc] at hcor
                cases hcor
              split at h
              case isTrue hb1 =>
                -- left clip, continue the pass on the updated list
                have hc1 := clip1_spec hrv hre hcg hov.2 hnc hb1
                have hsat := satAddOne_eq hre
                rw [hsat] at h
                set c' : InclusiveRange := ⟨range.«end» + 1, curr.«end»⟩ with hc'
                have hIcc : Finset.Icc c'.start c'.«end» =
                    Finset.Icc curr.start curr.«end» \
                    Finset.Icc range.start range.«end» := by
                  rw [hc']; simp only []; exact hc1.2.2.1
                have hgood2 : ∀ c ∈ l.set i c', good c := by
                  intro c hc
                  rcases mem_of_mem_set hc with hc | rfl
                  · exact hgood c hc
                  · exact ⟨hc1.1.1, hc1.1.2⟩
                have hp2 : (l.set i c').Pairwise sepa :=
                  pairwise_set hi hp (by rw [← hcurr, hc']; exact hov.2)
                    (by rw [← hcurr, hc'])
                obtain ⟨⟨hs1, hs2⟩, hg', hpw', hbc', hdisj'⟩ :=
                  ih (l.set i c') (i + 1) l' hgood2 hp2 h
                have hcovset : coveredL (l.set i c') =
                    (Finset.Icc curr.start curr.«end» \
                      Finset.Icc range.start range.«end») ∪
                    coveredL (l.eraseIdx i) := by
                  rw [coveredL_set_decomp hi c', hIcc]
                have hcovl : coveredL l =
                    Finset.Icc curr.start curr.«end» ∪ coveredL (l.eraseIdx i) := by
                  rw [coveredL_get_decomp hi, ← hcurr]
                refine ⟨⟨?_, ?_⟩, hg', hpw', ?_, ?_⟩
                · intro x hx
                  apply hs1
                  rw [hcovset]
                  rw [hcovl] at hx
                  simp only [Finset.mem_sdiff, Finset.mem_union] at hx ⊢
                  tauto
                · intro x hx
                  have := hs2 hx
                  rw [hcovset] at this
                  rw [hcovl]
                  simp only [Finset.mem_sdiff, Finset.mem_union] at this ⊢
                  tauto
                · have h1 := badCount_set range hi c'
                  have h2 := badCount_decomp range hi
                  rw [← hcurr] at h2
                  rw [h1] at hbc'
                  rw [h2]
                  have : ¬ isBadFor range c' = true := hc1.2.2.2.1
                  rw [if_neg this] at hbc'
                  split <;> omega
                · intro hd
                  apply hdisj'
                  rcases hd with hd | hd
                  · left; rw [List.length_set]; exact hd
                  · right
                    intro c hc
                    rcases mem_of_mem_set hc with hc | rfl
                    · exact hd c hc
                    · exact hc1.2.2.2.2
              case isFalse hb1 =>
                split at h
                case isTrue hb2 =>
                  -- right clip, continue the pass on the updated list
                  have hc2 := clip2_spec hrv hre hcg hov.1 hb2 hb1
                  set c' : InclusiveRange := ⟨curr.start, range.start - 1⟩ with hc'
                  have hIcc : Finset.Icc c'.start c'.«end» =
                      Finset.Icc curr.start curr.«end» \
                      Finset.Icc range.start range.«end» := by
                    rw [hc']; simp only []; exact hc2.2.2.1
                  have hgood2 : ∀ c ∈ l.set i c', good c := by
                    intro c hc
                    rcases mem_of_mem_set hc with hc | rfl
                    · exact hgood c hc
                    · exact ⟨hc2.1.1, hc2.1.2⟩
                  have hp2 : (l.set i c').Pairwise sepa :=
                    pairwise_set hi hp (by rw [← hcurr, hc'])
                      (by rw [← hcurr, hc']; simp only []; exact hc2.2.1)
                  obtain ⟨⟨hs1, hs2⟩, hg', hpw', hbc', hdisj'⟩ :=
                    ih (l.set i c') (i + 1) l' hgood2 hp2 h
                  have hcovset : coveredL (l.set i c') =
                      (Finset.Icc curr.start curr.«end» \
                        Finset.Icc range.start range.«end») ∪
                      coveredL (l.eraseIdx i) := by
                    rw [coveredL_set_decomp hi c', hIcc]
                  have hcovl : coveredL l =
                      Finset.Icc curr.start curr.«end» ∪ coveredL (l.eraseIdx i) := by
                    rw [coveredL_get_decomp hi, ← hcurr]
                  refine ⟨⟨?_, ?_⟩, hg', hpw', ?_, ?_⟩
                  · intro x hx
                    apply hs1
                    rw [hcovset]
                    rw [hcovl] at hx
                    simp only [Finset.mem_sdiff, Finset.mem_union] at hx ⊢
                    tauto
                  · intro x hx
                    have := hs2 hx
                    rw [hcovset] at this
                    rw [hcovl]
                    simp only [Finset.mem_sdiff, Finset.mem_union] at this ⊢
                    tauto
                  · have h1 := badCount_set range hi c'
                    have h2 := badCount_decomp range hi
                    rw [← hcurr] at h2
                    rw [h1] at hbc'
                    rw [h2]
                    have : ¬ isBadFor range c' = true := hc2.2.2.2.1
                    rw [if_neg this] at hbc'
                    split <;> omega
                  · intro hd
                    apply hdisj'
                    rcases hd with hd | hd
                    · left; rw [List.length_set]; exact hd
                    · right
                      intro c hc
                      rcases mem_of_mem_set hc with hc | rfl
                      · exact hd c hc
                      · exact hc2.2.2.2.2
                case isFalse hb2 =>
                  split at h
                  case isTrue hlen =>
                    -- split: the restart that consumes a slot
                    injection h with h
                    subst h
                    have hsat := satAddOne_eq hre
                    rw [hsat]
                    have hsp := split_spec hrv hre hcg hb1 hb2
                    set c1 : InclusiveRange := ⟨curr.start, range.start - 1⟩ with hc1'
                    set c2 : InclusiveRange := ⟨range.«end» + 1, curr.«end»⟩ with hc2'
                    obtain ⟨hv1, hv2, hunion, hsep12, hnb1, hnb2, hni1, hni2⟩ := hsp
                    have hcurr_int : curr.start < range.start ∧ range.«end» < curr.«end» := by
                      constructor <;> omega
                    have hget2 : ∀ j (hj : j < (l.set i c1).length),
                        (l.set i c1).get ⟨j, hj⟩ = if i = j then c1 else l.get ⟨j, by
                          rw [List.length_set] at hj; exact hj⟩ := by
                      intro j hj
                      simp [List.getElem_set]
                    have hpg := List.pairwise_iff_get.mp hp
                    -- every stored range other than `curr` is separated from `curr`
                    have hsepcurr : ∀ j (hj : j < l.length), j ≠ i →
                        sepa (l.get ⟨j, hj⟩) curr := by
                      intro j hj hji
                      rcases Nat.lt_or_ge j i with hlt | hge
                      · exact hpg ⟨j, hj⟩ ⟨i, hi⟩ hlt
                      · have : i < j := by omega
                        exact sepa_symm (hpg ⟨i, hi⟩ ⟨j, hj⟩ this)
                    have hcovl : coveredL l =
                        Finset.Icc curr.start curr.«end» ∪ coveredL (l.eraseIdx i) := by
                      rw [coveredL_get_decomp hi, ← hcurr]
                    have hcovl' : coveredL ((l.set i c1) ++ [c2]) =
                        (Finset.Icc curr.start curr.«end» \
                          Finset.Icc range.start range.«end») ∪
                        coveredL (l.eraseIdx i) := by
                      rw [coveredL_append, coveredL_set_decomp hi c1, coveredL_cons,
                        coveredL_nil, Finset.union_empty, ← hunion]
                      ext x
                      simp only [Finset.mem_union]
                      tauto
                    refine ⟨⟨?_, ?_⟩, ?_, ?_, ?_, ?_⟩
                    · intro x hx
                      rw [hcovl']
                      rw [hcovl] at hx
                      simp only [Finset.mem_sdiff, Finset.mem_union] at hx ⊢
                      tauto
                    · intro x hx
                      rw [hcovl'] at hx
                      rw [hcovl]
                      simp only [Finset.mem_sdiff, Finset.mem_union] at hx ⊢
                      tauto
                    · -- goodness of the split result
                      intro c hc
                      rcases List.mem_append.mp hc with hc | hc
                      · rcases mem_of_mem_set hc with hc | rfl
                        · exact hgood c hc
                        · exact ⟨hv1.1, hv1.2⟩
                      · rw [List.mem_singleton.mp hc]
                        exact ⟨hv2.1, hv2.2⟩
                    · -- pairwise separation of the split result
                      rw [List.pairwise_append]
                      refine ⟨?_, List.pairwise_singleton _ _, ?_⟩
                      · exact pairwise_set hi hp (by rw [← hcurr, hc1'])
                          (by rw [← hcurr, hc1']; simp only []; omega)
                      · intro a ha b hb
                        rw [List.mem_singleton.mp hb]
                        obtain ⟨⟨j, hj⟩, hja⟩ := List.mem_iff_get.mp ha
                        rw [hget2 j hj] at hja
                        by_cases hij : i = j
                        · rw [if_pos hij] at hja
                          rw [← hja]
                          exact hsep12
                        · rw [if_neg hij] at hja
                          rw [← hja]
                          refine sepa_shrink
                            (hsepcurr j (by rw [List.length_set] at hj; exact hj)
                              (fun hc => hij hc.symm)) ?_ ?_
                          · rw [hc2']; exact hov.2
                          · rw [hc2']
                    · -- the restart measure strictly decreases
                      have h1 := badCount_decomp range hi
                      rw [← hcurr] at h1
                      have hbadcurr : isBadFor range curr = true := by
                        unfold isBadFor
                        exact decide_eq_true (Or.inr hcurr_int)
                      rw [hbadcurr, if_pos rfl] at h1
                      have h2 : badCount range ((l.set i c1) ++ [c2]) =
                          badCount range (l.take i) + badCount range (l.drop (i + 1)) := by
                        rw [badCount_append, badCount_set range hi c1, badCount_cons]
                        rw [if_neg hnb1, if_neg hnb2]
                        have : badCount range [] = 0 := rfl
                        omega
                      omega
                    · -- after a split no interior-containing range remains
                      intro _
                      right
                      intro c hc
                      rcases List.mem_append.mp hc with hc | hc
                      · obtain ⟨⟨j, hj⟩, hja⟩ := List.mem_iff_get.mp hc
                        rw [hget2 j hj] at hja
                        by_cases hij : i = j
                        · rw [if_pos hij] at hja
                          rw [← hja]
                          exact hni1
                        · rw [if_neg hij] at hja
                          have hsc := hsepcurr j (by rw [List.length_set] at hj; exact hj)
                            (fun hc => hij hc.symm)
                          rw [hja] at hsc
                          intro hint
                          unfold interiorFor at hint
                          unfold sepa at hsc
                          omega
                      · rw [List.mem_singleton.mp hc]
                        exact hni2
                  case isFalse hlen => cases h
            · simp only [] at h
              -- contains returned true: delete the contained range and restart
              injection h with h
              subst h
              have hct : range.start ≤ curr.start ∧ curr.«end» ≤ range.«end» := by
                rw [contains_eval hrv hcg.1] at hcor
                injection hcor with hcor
                exact of_decide_eq_true hcor
              have hcovl : coveredL l =
                  Finset.Icc curr.start curr.«end» ∪ coveredL (l.eraseIdx i) := by
                rw [coveredL_get_decomp hi, ← hcurr]
              have hcovd : coveredL (deleteIdx l i) = coveredL (l.eraseIdx i) :=
                coveredL_perm (deleteIdx_perm l i hi)
              refine ⟨⟨?_, ?_⟩, ?_, pairwise_deleteIdx hi hp, ?_, ?_⟩
              · intro x hx
                rw [hcovd]
                rw [hcovl] at hx
                rw [Finset.mem_sdiff, Finset.mem_union] at hx
                obtain ⟨hx1 | hx1, hx2⟩ := hx
                · exfalso
                  rw [Finset.mem_Icc] at hx1
                  rw [Finset.mem_Icc] at hx2
                  exact hx2 ⟨by omega, by omega⟩
                · exact hx1
              · intro x hx
                rw [hcovd] at hx
                rw [hcovl]
                exact Finset.mem_union_right _ hx
              · exact fun c hc => hgood c (deleteIdx_subset hi c hc)
              · have h1 := badCount_decomp range hi
                rw [← hcurr] at h1
                have hbadcurr : isBadFor range curr = true := by
                  unfold isBadFor
                  exact decide_eq_true (Or.inl ⟨hct.1, hct.2⟩)
                rw [hbadcurr, if_pos rfl] at h1
                have h2 := badCount_deleteIdx range hi
                omega
              · intro hd
                rcases hd with hd | hd
                · left
                  rw [deleteIdx_length]
                  omega
                · right
                  exact fun c hc => hd c (deleteIdx_subset hi c hc)

/-- The `'removing` loop, when it terminates successfully, subtracts exactly
the removed addresses and preserves goodness and pairwise separation. -/
theorem removeLoopAux_ok {range : InclusiveRange} (hrv : range.start ≤ range.«end»)
    (hre : range.«end» ≤ U64 - 2) :
    ∀ (fuel : Nat) (l l' : List InclusiveRange),
      (∀ c ∈ l, good c) →
      l.Pairwise sepa →
      removeLoopAux fuel range l = .ok l' →
      coveredL l' = coveredL l \ Finset.Icc range.start range.«end» ∧
      (∀ c ∈ l', good c) ∧
      l'.Pairwise sepa := by
  intro fuel
  induction fuel with
  | zero => intro l l' _ _ h; cases h
  | succ fuel ih =>
    intro l l' hgood hp h
    rw [removeLoopAux] at h
    rcases hpass : removePass range l 0 with l1 | l1 | e <;> rw [hpass] at h <;>
      simp only [] at h
    · -- restart: combine the pass sandwich with the inductive hypothesis
      obtain ⟨⟨hs1, hs2⟩, hg1, hp1, _, _⟩ :=
        removePassAux_restart hrv hre _ l 0 l1 hgood hp hpass
      obtain ⟨hcov, hg', hp'⟩ := ih l1 l' hg1 hp1 h
      refine ⟨?_, hg', hp'⟩
      rw [hcov]
      apply Finset.Subset.antisymm
      · intro x hx
        rw [Finset.mem_sdiff] at hx ⊢
        exact ⟨hs2 hx.1, hx.2⟩
      · intro x hx
        rw [Finset.mem_sdiff] at hx ⊢
        exact ⟨hs1 (Finset.mem_sdiff.mpr hx), hx.2⟩
    · -- done: the pass computes the difference outright
      injection h with h
      subst h
      obtain ⟨hcov, hg', hp', _⟩ :=
        removePassAux_done hrv hre _ l 0 l1 hgood (by omega)
          (fun j hj hj0 => absurd hj0 (by omega)) hpass
      exact ⟨hcov, hg', hp' hp⟩
    · cases h

/-- With fuel exceeding the restart measure, and under the capacity/no-split
disjunction, the `'removing` loop terminates successfully. -/
theorem removeLoopAux_succeeds {range : InclusiveRange} (hrv : range.start ≤ range.«end»)
    (hre : range.«end» ≤ U64 - 2) :
    ∀ (fuel : Nat) (l : List InclusiveRange),
      (∀ c ∈ l, good c) →
      l.Pairwise sepa →
      (l.length < MAX_MEMORY_RANGES ∨ ∀ c ∈ l, ¬ interiorFor range c) →
      badCount range l < fuel →
      ∃ l', removeLoopAux fuel range l = .ok l' := by
  intro fuel
  induction fuel with
  | zero => intro l _ _ _ hbc; omega
  | succ fuel ih =>
    intro l hgood hp hcap hbc
    rcases hpass : removePass range l 0 with l1 | l1 | e
    · -- restart: the measure strictly decreased
      obtain ⟨_, hg1, hp1, hbc1, hdisj⟩ :=
        removePassAux_restart hrv hre _ l 0 l1 hgood hp hpass
      obtain ⟨l', hok⟩ := ih l1 hg1 hp1 (hdisj hcap) (by omega)
      refine ⟨l', ?_⟩
      rw [removeLoopAux, hpass]
      exact hok
    · exact ⟨l1, by rw [removeLoopAux, hpass]⟩
    · -- failure is impossible under the disjunction
      obtain ⟨_, hlen, c, hc, hint⟩ :=
        removePassAux_fail hrv hre _ l 0 e hgood hpass
      rcases hcap with hcap | hcap
      · omega
      · exact absurd hint (hcap c hc)

/-- `RangeSet::remove`, on a well-formed set, subtracts exactly the removed
addresses and preserves the invariant. -/
theorem remove_spec {rs rs' : RangeSet} {range : InclusiveRange}
    (hgood : ∀ c ∈ rs.ranges, good c) (hp : rs.ranges.Pairwise sepa)
    (hre : range.«end» ≤ U64 - 2)
    (h : RangeSet.remove rs range = .ok rs') :
    coveredF rs' = coveredF rs \ Finset.Icc range.start range.«end» ∧
    (∀ c ∈ rs'.ranges, good c) ∧
    rs'.ranges.Pairwise sepa := by
  unfold RangeSet.remove at h
  by_cases hv : range.is_valid = true
  case neg => rw [if_pos (by simpa using hv)] at h; cases h
  case pos =>
    rw [if_neg (by simpa using hv)] at h
    have hrv : range.start ≤ range.«end» := by
      simpa [InclusiveRange.is_valid] using hv
    rcases hloop : removeLoopAux (badCount range rs.ranges + 1) range rs.ranges with
      l | e
    · rw [hloop] at h
      injection h with h
      subst h
      obtain ⟨hcov, hg', hp'⟩ := removeLoopAux_ok hrv hre _ rs.ranges l hgood hp hloop
      exact ⟨hcov, hg', hp'⟩
    · rw [hloop] at h; cases h
    · rw [hloop] at h; cases h

/-- Under the invariant and the capacity/no-split disjunction, `remove` of a
valid bounded range succeeds. -/
theorem remove_succeeds {rs : RangeSet} {range : InclusiveRange}
    (hgood : ∀ c ∈ rs.ranges, good c) (hp : rs.ranges.Pairwise sepa)
    (hrv : range.start ≤ range.«end») (hre : range.«end» ≤ U64 - 2)
    (hcap : rs.ranges.length < MAX_MEMORY_RANGES ∨
      ∀ c ∈ rs.ranges, ¬ interiorFor range c) :
    ∃ rs', RangeSet.remove rs range = .ok rs' := by
  obtain ⟨l', hok⟩ := removeLoopAux_succeeds hrv hre
    (badCount range rs.ranges + 1) rs.ranges hgood hp hcap (by omega)
  refine ⟨⟨l'⟩, ?_⟩
  unfold RangeSet.remove
  rw [if_neg (by simp [InclusiveRange.is_valid, hrv]), hok]

/-- Every state reachable by successful bounded operations satisfies the
(amended) `RangeSet` invariant. -/
theorem Reachable_invariant {rs : RangeSet} (h : Reachable rs) :
    (∀ c ∈ rs.ranges, good c) ∧ rs.ranges.Pairwise sepa := by
  induction h with
  | empty => exact ⟨fun c hc => absurd hc (List.not_mem_nil c), List.Pairwise.nil⟩
  | insert hr hre hins ih =>
    obtain ⟨hg, hp⟩ := ih
    obtain ⟨_, hg', hp'⟩ := insert_spec hins hg hre
    exact ⟨hg', hp' hp⟩
  | remove hr hre hrem ih =>
    obtain ⟨hg, hp⟩ := ih
    obtain ⟨_, hg', hp'⟩ := remove_spec hg hp hre hrem
    exact ⟨hg', hp'⟩

/-- C7 (amended): after any sequence of successful `insert` and `remove`
operations from the empty set whose argument ranges end at most `2^64 - 2`,
every stored range is valid (`start ≤ end`) and every pair of distinct stored
ranges neither overlaps nor abuts (`x.end + 1 < y.start ∨ y.end + 1 < x.start`).
The bound on the argument ranges is the amendment: with a range ending at
`u64::MAX` the wrapping `end + 1` of `overlaps` breaks the invariant
(`claim_C7_counterexample`). -/
theorem claim_C7_invariant {rs : RangeSet} (h : Reachable rs) :
    (∀ c ∈ rs.ranges, c.start ≤ c.«end») ∧ rs.ranges.Pairwise sepa := by
  obtain ⟨hg, hp⟩ := Reachable_invariant h
  exact ⟨fun c hc => (hg c hc).1, hp⟩

/-- Witness: the singleton state `{[0,5]}`, reached by one `insert`, satisfies
the invariant. -/
theorem claim_C7_invariant_witness :
    (∀ c ∈ (⟨[⟨0, 5⟩]⟩ : RangeSet).ranges, c.start ≤ c.«end») ∧
    (⟨[⟨0, 5⟩]⟩ : RangeSet).ranges.Pairwise sepa :=
  claim_C7_invariant
    (Reachable.insert (r := ⟨0, 5⟩) Reachable.empty (by decide) (by rfl))

/-- C8 (amended): for a well-formed state and a valid bounded range `r`
disjoint from the covered addresses, a successful `insert(r)` followed by a
successful `remove(r)` restores the covered set exactly.  (Without the
disjointness hypothesis the sequence also removes previously covered
addresses: `claim_C8_counterexample`.) -/
theorem claim_C8_insert_remove {rs rs' rs'' : RangeSet} {r : InclusiveRange}
    (hgood : ∀ c ∈ rs.ranges, good c) (hp : rs.ranges.Pairwise sepa)
    (hre : r.«end» ≤ U64 - 2)
    (hdis : Disjoint (Finset.Icc r.start r.«end») (coveredF rs))
    (h1 : RangeSet.insert rs r = .ok rs')
    (h2 : RangeSet.remove rs' r = .ok rs'') :
    coveredF rs'' = coveredF rs := by
  obtain ⟨hcov1, hg1, hp1⟩ := insert_spec h1 hgood hre
  obtain ⟨hcov2, _, _⟩ := remove_spec hg1 (hp1 hp) hre h2
  rw [hcov2, hcov1]
  ext x
  simp only [Finset.mem_sdiff, Finset.mem_union]
  constructor
  · rintro ⟨hx | hx, hnx⟩
    · exact hx
    · exact absurd hx hnx
  · intro hx
    exact ⟨Or.inl hx, fun hxr => Finset.disjoint_left.mp hdis hxr hx⟩

/-- Witness: from `{[0,5]}`, inserting and removing `[10,20]` restores the
covered set. -/
theorem claim_C8_insert_remove_witness :
    (∀ c ∈ (⟨[⟨0, 5⟩]⟩ : RangeSet).ranges, good c) ∧
    (⟨[⟨0, 5⟩]⟩ : RangeSet).ranges.Pairwise sepa ∧
    (20 : Nat) ≤ U64 - 2 ∧
    Disjoint (Finset.Icc 10 20) (coveredF ⟨[⟨0, 5⟩]⟩) ∧
    RangeSet.insert ⟨[⟨0, 5⟩]⟩ ⟨10, 20⟩ = .ok ⟨[⟨0, 5⟩, ⟨10, 20⟩]⟩ ∧
    RangeSet.remove ⟨[⟨0, 5⟩, ⟨10, 20⟩]⟩ ⟨10, 20⟩ = .ok ⟨[⟨0, 5⟩]⟩ ∧
    coveredF ⟨[⟨0, 5⟩]⟩ = coveredF ⟨[⟨0, 5⟩]⟩ :=
  ⟨by decide, by decide, by decide, by decide, by rfl, by rfl,
    @claim_C8_insert_remove ⟨[⟨0, 5⟩]⟩ ⟨[⟨0, 5⟩, ⟨10, 20⟩]⟩ ⟨[⟨0, 5⟩]⟩ ⟨10, 20⟩
      (by decide) (by decide) (by decide) (by decide) (by rfl) (by rfl)⟩

/-- A range separated from every member of a list is disjoint from its
covered set. -/
theorem disj_covered_of_sepa {r : InclusiveRange} {rest : List InclusiveRange}
    (h : ∀ c ∈ rest, sepa r c) :
    Disjoint (Finset.Icc r.start r.«end») (coveredL rest) := by
  rw [Finset.disjoint_left]
  intro x hx1 hx2
  obtain ⟨c, hc, hxc⟩ := mem_coveredL.mp hx2
  have := h c hc
  unfold sepa at this
  rw [Finset.mem_Icc] at hx1
  omega

/-- The covered set of good ranges stays within `[0, 2^64 - 2]`, so its
cardinality is at most `2^64 - 1`. -/
theorem coveredL_card_le {l : List InclusiveRange} (hg : ∀ c ∈ l, good c) :
    (coveredL l).card ≤ U64 - 1 := by
  have hsub : coveredL l ⊆ Finset.Icc 0 (U64 - 2) := by
    intro x hx
    obtain ⟨c, hc, hxc⟩ := mem_coveredL.mp hx
    have := (hg c hc).2
    rw [Finset.mem_Icc]
    omega
  calc (coveredL l).card ≤ (Finset.Icc 0 (U64 - 2)).card := Finset.card_le_card hsub
    _ = U64 - 1 := by rw [Nat.card_Icc]; unfold U64; norm_num

/-- The fold of `RangeSet::size` on a well-formed list counts exactly the
covered addresses on top of the accumulator (no wrap occurs). -/
theorem sizeFold_eq {l : List InclusiveRange} (hg : ∀ c ∈ l, good c)
    (hp : l.Pairwise sepa) :
    ∀ acc, acc + (coveredL l).card < U64 →
      sizeFold l acc = .ok (acc + (coveredL l).card) := by
  induction l with
  | nil =>
    intro acc _
    simp [sizeFold, coveredL_nil]
  | cons r rest ih =>
    intro acc hacc
    have hgr : good r := hg r (List.mem_cons_self r rest)
    have hgrest : ∀ c ∈ rest, good c := fun c hc => hg c (List.mem_cons_of_mem r hc)
    rw [List.pairwise_cons] at hp
    have hdis : Disjoint (Finset.Icc r.start r.«end») (coveredL rest) :=
      disj_covered_of_sepa hp.1
    have hcard : (coveredL (r :: rest)).card =
        (r.«end» - r.start + 1) + (coveredL rest).card := by
      rw [coveredL_cons, Finset.card_union_of_disjoint hdis, Nat.card_Icc]
      have := hgr.1
      omega
    rw [sizeFold]
    rw [if_neg (by simp [InclusiveRange.is_valid, hgr.1])]
    have hnw : ¬ ((r.«end» - r.start) + 1 ≥ U64) := by
      have := hgr.2
      unfold U64 at *
      omega
    rw [if_neg hnw]
    have hsmall : acc + ((r.«end» - r.start) + 1) < U64 := by
      rw [hcard] at hacc
      omega
    rw [w64_small hsmall]
    rw [ih hgrest hp.2 _ (by rw [hcard] at hacc; omega)]
    rw [hcard]
    congr 1
    omega

/-- `RangeSet::size` of a well-formed set returns the cardinality of its
covered set. -/
theorem size_eq_card {rs : RangeSet} (hg : ∀ c ∈ rs.ranges, good c)
    (hp : rs.ranges.Pairwise sepa) :
    RangeSet.size rs = .ok (coveredF rs).card := by
  unfold RangeSet.size
  have h := sizeFold_eq hg hp 0 (by
    have := coveredL_card_le hg
    unfold U64 at *
    omega)
  rw [h, coveredF_eq]
  simp

theorem countOnesAux_zero : ∀ fuel, countOnesAux fuel 0 = 0 := by
  intro fuel
  cases fuel with
  | zero => rfl
  | succ n => rw [countOnesAux, if_pos rfl]

/-- `count_ones` of a power of two below `2^64` is `1`. -/
theorem countOnes_two_pow {k : Nat} (hk : k < 64) : countOnes (2 ^ k) = 1 := by
  unfold countOnes
  have main : ∀ fuel j, j < fuel → countOnesAux fuel (2 ^ j) = 1 := by
    intro fuel
    induction fuel with
    | zero => intro j hj; omega
    | succ n ih =>
      intro j hj
      rw [countOnesAux]
      rw [if_neg (by positivity)]
      cases j with
      | zero =>
        simp [countOnesAux_zero]
      | succ m =>
        have h1 : 2 ^ (m + 1) % 2 = 0 := by
          rw [pow_succ, Nat.mul_mod_left]
        have h2 : 2 ^ (m + 1) / 2 = 2 ^ m := by
          rw [pow_succ, Nat.mul_div_cancel _ (by norm_num)]
        rw [h1, h2, ih m (by omega)]
  exact main 64 k hk

/-- The padding computed by `allocate` aligns the start to the requested
power-of-two alignment. -/
theorem pad_mod {k s : Nat} : (s + pad (2 ^ k) s) % 2 ^ k = 0 := by
  unfold pad
  rw [Nat.and_pow_two_sub_one_eq_mod, Nat.and_pow_two_sub_one_eq_mod]
  have hpos : 0 < 2 ^ k := by positivity
  have h1 : s % 2 ^ k < 2 ^ k := Nat.mod_lt _ hpos
  rcases Nat.eq_zero_or_pos (s % 2 ^ k) with h0 | h0
  · rw [h0, Nat.sub_zero, Nat.mod_self, Nat.add_zero, h0]
  · have h2 : (2 ^ k - s % 2 ^ k) % 2 ^ k = 2 ^ k - s % 2 ^ k :=
      Nat.mod_eq_of_lt (by omega)
    rw [h2]
    have h3 := Nat.div_add_mod s (2 ^ k)
    have h4 : s + (2 ^ k - s % 2 ^ k) = 2 ^ k * (s / 2 ^ k + 1) := by
      rw [Nat.mul_add, Nat.mul_one]
      omega
    rw [h4, Nat.mul_mod_right]

/-- The scan loop of `allocate`: under the invariant, with capacity to spare
and no padding-computation overflow, if some remaining range fits (or a
fitting candidate is already recorded) the scan returns the aligned start of
the earliest-found fitting stored range of minimal padding (the strict
`best_padding > padding` update keeps the first minimum; a zero-padding match
short-circuits) and removes exactly its block.  The accumulator invariant
tracks the winner positionally: every fitting range scanned before it has
strictly larger padding, every fitting range scanned after it has padding at
least as large. -/
theorem allocScan_go {rs : RangeSet} {size align k : Nat}
    (halign : align = 2 ^ k) (hsz : 0 < size)
    (hg : ∀ c ∈ rs.ranges, good c) (hp : rs.ranges.Pairwise sepa)
    (hlen : rs.ranges.length < MAX_MEMORY_RANGES)
    (hno : ∀ c ∈ rs.ranges, c.start + pad align c.start + (size - 1) ≤ U64 - 1) :
    ∀ (rest pre : List InclusiveRange), rs.ranges = pre ++ rest →
      ∀ (best : Nat) (alloc : Option (Nat × Nat)),
      ((alloc = none ∧ best = U64 - 1 ∧ ∀ c ∈ pre, ¬ fitsIn size align c) ∨
       (∃ w p1 p2, pre = p1 ++ w :: p2 ∧
          alloc = some (w.start + pad align w.start,
            w.start + pad align w.start + (size - 1)) ∧
          best = pad align w.start ∧ 0 < best ∧ fitsIn size align w ∧
          (∀ c ∈ p1, fitsIn size align c → best < pad align c.start) ∧
          (∀ c ∈ p2, fitsIn size align c → best ≤ pad align c.start))) →
      ((∃ c ∈ rest, fitsIn size align c) ∨ alloc ≠ none) →
      ∃ w p1 p2, rs.ranges = p1 ++ w :: p2 ∧ ∃ rs',
        allocScan rs size align (align - 1) rest best alloc =
          .ok (w.start + pad align w.start) rs' ∧
        fitsIn size align w ∧
        (∀ c ∈ p1, fitsIn size align c →
          pad align w.start < pad align c.start) ∧
        (∀ c ∈ p2, fitsIn size align c →
          pad align w.start ≤ pad align c.start) ∧
        RangeSet.remove rs ⟨w.start + pad align w.start,
          w.start + pad align w.start + (size - 1)⟩ = .ok rs' := by
  intro rest
  induction rest with
  | nil =>
    intro pre hpre best alloc hinv hdis
    rcases hinv with ⟨hnone, _, _⟩ |
      ⟨w, p1, p2, hdecomp, halloceq, hbest, hbpos, hwfit, hstrict, hle⟩
    · rcases hdis with ⟨c, hc, _⟩ | hne
      · exact absurd hc (List.not_mem_nil c)
      · exact absurd hnone hne
    · have hwmem : w ∈ rs.ranges := by
        rw [hpre, List.append_nil, hdecomp]
        exact List.mem_append_right p1 (List.mem_cons_self w p2)
      have hwg : good w := hg w hwmem
      have hrv : w.start + pad align w.start ≤
          w.start + pad align w.start + (size - 1) := Nat.le_add_right _ _
      have hre : w.start + pad align w.start + (size - 1) ≤ U64 - 2 := by
        have h1 : w.start + pad align w.start + (size - 1) ≤ w.«end» := hwfit
        have := hwg.2
        omega
      obtain ⟨rs', hrem⟩ := @remove_succeeds rs
        ⟨w.start + pad align w.start,
          w.start + pad align w.start + (size - 1)⟩ hg hp hrv hre (Or.inl hlen)
      refine ⟨w, p1, p2, by rw [hpre, List.append_nil]; exact hdecomp, rs',
        ?_, hwfit, ?_, ?_, hrem⟩
      · rw [halloceq, allocScan]
        rw [hrem]
      · intro c hc hcfit
        rw [← hbest]
        exact hstrict c hc hcfit
      · intro c hc hcfit
        rw [← hbest]
        exact hle c hc hcfit
  | cons r rest' ih =>
    intro pre hpre best alloc hinv hdis
    have hrmem : r ∈ rs.ranges := by
      rw [hpre]; exact List.mem_append_right pre (List.mem_cons_self r rest')
    have hgr : good r := hg r hrmem
    have hnor := hno r hrmem
    have hpre' : rs.ranges = (pre ++ [r]) ++ rest' := by
      rw [hpre, List.append_assoc, List.singleton_append]
    have hpadeq : (align - (r.start &&& (align - 1))) &&& (align - 1) =
        pad align r.start := rfl
    rw [allocScan]
    simp only [hpadeq]
    rw [if_neg (by unfold U64 at *; omega)]
    rw [if_neg (by unfold U64 at *; omega)]
    rw [if_neg (by
      push_neg
      constructor <;> (unfold U64 at *; omega))]
    by_cases hfit' : fitsIn size align r
    · -- `r` fits: the scan records or takes it
      rw [if_neg (by unfold fitsIn at hfit'; omega)]
      by_cases hcond : alloc = none ∨ best > pad align r.start
      · rw [if_pos hcond]
        by_cases hpz : pad align r.start = 0
        · -- zero padding: short-circuit and remove immediately
          rw [if_pos hpz]
          have hrv : r.start + pad align r.start ≤
              r.start + pad align r.start + (size - 1) := Nat.le_add_right _ _
          have hre : r.start + pad align r.start + (size - 1) ≤ U64 - 2 := by
            have h1 : r.start + pad align r.start + (size - 1) ≤ r.«end» := hfit'
            have := hgr.2
            omega
          obtain ⟨rs', hrem⟩ := @remove_succeeds rs
            ⟨r.start + pad align r.start,
              r.start + pad align r.start + (size - 1)⟩ hg hp hrv hre (Or.inl hlen)
          refine ⟨r, pre, rest', hpre, rs', ?_, hfit', ?_, ?_, hrem⟩
          · simp only [hpz, Nat.add_zero] at hrem ⊢
            rw [hrem]
          · -- every fitting range scanned earlier has positive (hence larger) padding
            intro c hc hcfit
            rw [hpz]
            rcases hinv with ⟨_, _, hnofit⟩ |
              ⟨w, p1, p2, hdecomp, _, hbest, hbpos, _, hstrict, hle⟩
            · exact absurd hcfit (hnofit c hc)
            · rw [hdecomp] at hc
              rcases List.mem_append.mp hc with hc | hc
              · have := hstrict c hc hcfit
                omega
              · rcases List.mem_cons.mp hc with rfl | hc
                · omega
                · have := hle c hc hcfit
                  omega
          · intro c _ _
            rw [hpz]
            exact Nat.zero_le _
        · -- record `r` as the new best candidate (strict improvement)
          rw [if_neg hpz]
          refine ih (pre ++ [r]) hpre' (pad align r.start)
            (some (r.start + pad align r.start,
              r.start + pad align r.start + (size - 1))) ?_ (Or.inr (by simp))
          right
          refine ⟨r, pre, [], by simp, rfl, rfl, Nat.pos_of_ne_zero hpz, hfit',
            ?_, fun c hc => absurd hc (List.not_mem_nil c)⟩
          intro c hc hcfit
          rcases hinv with ⟨hnone, _, hnofit⟩ |
            ⟨w, p1, p2, hdecomp, halloceq, hbest, hbpos, _, hstrict, hle⟩
          · exact absurd hcfit (hnofit c hc)
          · have hlt : best > pad align r.start := by
              rcases hcond with hcnone | hlt
              · rw [halloceq] at hcnone; cases hcnone
              · exact hlt
            rw [hdecomp] at hc
            rcases List.mem_append.mp hc with hc | hc
            · have := hstrict c hc hcfit
              omega
            · rcases List.mem_cons.mp hc with rfl | hc
              · omega
              · have := hle c hc hcfit
                omega
      · -- `r` fits but is not strictly better: the earlier winner is kept
        rw [if_neg hcond]
        push_neg at hcond
        obtain ⟨hne, hble⟩ := hcond
        rcases hinv with ⟨hnone, _, _⟩ |
          ⟨w, p1, p2, hdecomp, halloceq, hbest, hbpos, hwfit, hstrict, hle⟩
        · exact absurd hnone hne
        refine ih (pre ++ [r]) hpre' best alloc ?_ (Or.inr hne)
        right
        refine ⟨w, p1, p2 ++ [r], by rw [hdecomp]; simp, halloceq, hbest, hbpos,
          hwfit, hstrict, ?_⟩
        intro c hc hcfit
        rcases List.mem_append.mp hc with hc | hc
        · exact hle c hc hcfit
        · rw [List.mem_singleton.mp hc]
          exact hble
    · -- `r` does not fit: skip it
      rw [if_pos (by unfold fitsIn at hfit'; omega)]
      refine ih (pre ++ [r]) hpre' best alloc ?_ ?_
      · rcases hinv with ⟨hnone, hbest, hnofit⟩ |
          ⟨w, p1, p2, hdecomp, halloceq, hbest, hbpos, hwfit, hstrict, hle⟩
        · left
          refine ⟨hnone, hbest, ?_⟩
          intro c hc
          rcases List.mem_append.mp hc with hc | hc
          · exact hnofit c hc
          · rw [List.mem_singleton.mp hc]
            exact hfit'
        · right
          refine ⟨w, p1, p2 ++ [r], by rw [hdecomp]; simp, halloceq, hbest, hbpos,
            hwfit, hstrict, ?_⟩
          intro c hc hcfit
          rcases List.mem_append.mp hc with hc | hc
          · exact hle c hc hcfit
          · rw [List.mem_singleton.mp hc] at hcfit
            exact absurd hcfit hfit'
      · rcases hdis with ⟨c, hc, hcfit⟩ | hne
        · rcases List.mem_cons.mp hc with rfl | hc
          · exact absurd hcfit hfit'
          · exact Or.inl ⟨c, hc, hcfit⟩
        · exact Or.inr hne

/-- C5 (amended): on a well-formed set with spare capacity, a positive size,
a power-of-two alignment, and no per-range padding-computation overflow, if
some stored range fits the padded block then `allocate` succeeds: it returns
the aligned padded start of the earliest-found fitting stored range of
minimal padding (every fitting range stored before the winner has strictly
larger padding — the strict `best_padding > padding` update wins ties for the
earliest, and a zero-padding match short-circuits), the returned block was
covered before and is exactly subtracted from the covered set, and `size()`
of the result drops by exactly `size`.  (Without the no-overflow hypothesis a
fitting range does not guarantee success — `claim_C5_counterexample`.) -/
theorem claim_C5_allocate_spec {rs : RangeSet} {size align k : Nat}
    (hg : ∀ c ∈ rs.ranges, good c) (hp : rs.ranges.Pairwise sepa)
    (hlen : rs.ranges.length < MAX_MEMORY_RANGES)
    (hsz : 0 < size) (halign : align = 2 ^ k) (hk : k < 64)
    (hno : ∀ c ∈ rs.ranges, c.start + pad align c.start + (size - 1) ≤ U64 - 1)
    (hfit : ∃ c ∈ rs.ranges, fitsIn size align c) :
    ∃ a rs', allocate rs size align = .ok a rs' ∧
      a % align = 0 ∧
      (∃ w p1 p2, rs.ranges = p1 ++ w :: p2 ∧ fitsIn size align w ∧
        a = w.start + pad align w.start ∧
        (∀ c ∈ p1, fitsIn size align c →
          pad align w.start < pad align c.start) ∧
        (∀ c ∈ rs.ranges, fitsIn size align c →
          pad align w.start ≤ pad align c.start)) ∧
      Finset.Icc a (a + (size - 1)) ⊆ coveredF rs ∧
      coveredF rs' = coveredF rs \ Finset.Icc a (a + (size - 1)) ∧
      (∀ c ∈ rs'.ranges, good c) ∧ rs'.ranges.Pairwise sepa ∧
      RangeSet.size rs' = .ok ((coveredF rs).card - size) := by
  subst halign
  obtain ⟨w, p1, p2, hdecomp, rs', hscan, hwfit, hstrict, hle, hrem⟩ :=
    allocScan_go rfl hsz hg hp hlen hno rs.ranges [] rfl (U64 - 1) none
      (Or.inl ⟨rfl, rfl, fun c hc => absurd hc (List.not_mem_nil c)⟩)
      (Or.inl hfit)
  have hwmem : w ∈ rs.ranges := by
    rw [hdecomp]
    exact List.mem_append_right p1 (List.mem_cons_self w p2)
  have hwg : good w := hg w hwmem
  have hwfit' : w.start + pad (2 ^ k) w.start + (size - 1) ≤ w.«end» := hwfit
  have hmin : ∀ c ∈ rs.ranges, fitsIn size (2 ^ k) c →
      pad (2 ^ k) w.start ≤ pad (2 ^ k) c.start := by
    intro c hc hcfit
    rw [hdecomp] at hc
    rcases List.mem_append.mp hc with hc | hc
    · exact Nat.le_of_lt (hstrict c hc hcfit)
    · rcases List.mem_cons.mp hc with rfl | hc
      · exact Nat.le_refl _
      · exact hle c hc hcfit
  refine ⟨w.start + pad (2 ^ k) w.start, rs', ?_, pad_mod,
    ⟨w, p1, p2, hdecomp, hwfit, rfl, hstrict, hmin⟩,
    ?_, ?_, ?_, ?_, ?_⟩
  · unfold allocate
    rw [if_neg (not_not_intro hsz), if_neg (not_not_intro (countOnes_two_pow hk))]
    exact hscan
  · intro x hx
    rw [Finset.mem_Icc] at hx
    rw [coveredF_eq]
    exact mem_coveredL.mpr ⟨w, hwmem, by omega, by omega⟩
  · exact (remove_spec hg hp (by
      show w.start + pad (2 ^ k) w.start + (size - 1) ≤ U64 - 2
      have := hwg.2
      omega) hrem).1
  · exact (remove_spec hg hp (by
      show w.start + pad (2 ^ k) w.start + (size - 1) ≤ U64 - 2
      have := hwg.2
      omega) hrem).2.1
  · exact (remove_spec hg hp (by
      show w.start + pad (2 ^ k) w.start + (size - 1) ≤ U64 - 2
      have := hwg.2
      omega) hrem).2.2
  · obtain ⟨hcov, hg', hp'⟩ := remove_spec hg hp (by
      show w.start + pad (2 ^ k) w.start + (size - 1) ≤ U64 - 2
      have := hwg.2
      omega) hrem
    have hcov' : coveredF rs' = coveredF rs \ Finset.Icc
        (w.start + pad (2 ^ k) w.start)
        (w.start + pad (2 ^ k) w.start + (size - 1)) := hcov
    rw [size_eq_card hg' hp', hcov']
    congr 1
    rw [Finset.card_sdiff (by
      intro x hx
      rw [Finset.mem_Icc] at hx
      rw [coveredF_eq]
      exact mem_coveredL.mpr ⟨w, hwmem, by omega, by omega⟩)]
    rw [Nat.card_Icc]
    congr 1
    omega

/-- Witness for the amended C5 statement: allocating `0x1000` bytes aligned
to `0x1000` from `{[0, 0x1ffff]}` satisfies all hypotheses, so the theorem
yields a successful aligned allocation from the earliest minimal-padding
range. -/
theorem claim_C5_allocate_spec_witness :
    (∀ c ∈ (⟨[⟨0, 0x1ffff⟩]⟩ : RangeSet).ranges, good c) ∧
    (⟨[⟨0, 0x1ffff⟩]⟩ : RangeSet).ranges.Pairwise sepa ∧
    (⟨[⟨0, 0x1ffff⟩]⟩ : RangeSet).ranges.length < MAX_MEMORY_RANGES ∧
    (0 : Nat) < 0x1000 ∧ (0x1000 : Nat) = 2 ^ 12 ∧ 12 < 64 ∧
    (∀ c ∈ (⟨[⟨0, 0x1ffff⟩]⟩ : RangeSet).ranges,
      c.start + pad 0x1000 c.start + (0x1000 - 1) ≤ U64 - 1) ∧
    (∃ c ∈ (⟨[⟨0, 0x1ffff⟩]⟩ : RangeSet).ranges, fitsIn 0x1000 0x1000 c) ∧
    (∃ a rs', allocate ⟨[⟨0, 0x1ffff⟩]⟩ 0x1000 0x1000 = .ok a rs' ∧
      a % 0x1000 = 0 ∧
      (∃ w p1 p2, (⟨[⟨0, 0x1ffff⟩]⟩ : RangeSet).ranges = p1 ++ w :: p2 ∧
        fitsIn 0x1000 0x1000 w ∧
        a = w.start + pad 0x1000 w.start ∧
        (∀ c ∈ p1, fitsIn 0x1000 0x1000 c →
          pad 0x1000 w.start < pad 0x1000 c.start) ∧
        (∀ c ∈ (⟨[⟨0, 0x1ffff⟩]⟩ : RangeSet).ranges, fitsIn 0x1000 0x1000 c →
          pad 0x1000 w.start ≤ pad 0x1000 c.start)) ∧
      Finset.Icc a (a + (0x1000 - 1)) ⊆ coveredF ⟨[⟨0, 0x1ffff⟩]⟩ ∧
      coveredF rs' = coveredF ⟨[⟨0, 0x1ffff⟩]⟩ \ Finset.Icc a (a + (0x1000 - 1)) ∧
      (∀ c ∈ rs'.ranges, good c) ∧ rs'.ranges.Pairwise sepa ∧
      RangeSet.size rs' = .ok ((coveredF ⟨[⟨0, 0x1ffff⟩]⟩).card - 0x1000)) :=
  ⟨by decide, by decide, by decide, by decide, by decide, by decide, by decide,
    ⟨⟨0, 0x1ffff⟩, by decide, by decide⟩,
    claim_C5_allocate_spec (k := 12) (by decide) (by decide) (by decide)
      (by decide) (by decide) (by decide) (by decide)
      ⟨⟨0, 0x1ffff⟩, by decide, by decide⟩⟩

theorem bitSet_eq_testBit (e b : Nat) : bitSet e b = e.testBit b := by
  unfold bitSet
  rw [Nat.shiftLeft_eq, Nat.one_mul, Nat.and_two_pow]
  cases h : e.testBit b <;> simp [h]

theorem testBit_one_c (i : Nat) : (1 : Nat).testBit i = decide (0 = i) := by
  rw [show (1 : Nat) = 2 ^ 0 from rfl, Nat.testBit_two_pow]

theorem testBit_two_c (i : Nat) : (2 : Nat).testBit i = decide (1 = i) := by
  rw [show (2 : Nat) = 2 ^ 1 by norm_num, Nat.testBit_two_pow]

theorem testBit_four_c (i : Nat) : (4 : Nat).testBit i = decide (2 = i) := by
  rw [show (4 : Nat) = 2 ^ 2 by norm_num, Nat.testBit_two_pow]

/-- Bits 0..11 of `Entry::address` are always clear, so `_map_raw`'s
alignment `ensure!` always passes. -/
theorem entryAddress_low (e : Nat) : entryAddress e &&& 0xfff = 0 := by
  unfold entryAddress ADDR_MASK
  rw [Nat.land_assoc]
  rw [show (0xffffffffff000 : Nat) &&& 0xfff = 0 by decide]
  simp

theorem testBit_aligned_low {p i : Nat} (hp : p % 4096 = 0) (hi : i < 12) :
    p.testBit i = false := by
  obtain ⟨q, rfl⟩ : ∃ q, p = 2 ^ 12 * q := ⟨p / 4096, by omega⟩
  rw [show 2 ^ 12 * q = 2 ^ 12 * q + 0 by omega,
    Nat.testBit_mul_pow_two_add q (by positivity) i, if_pos hi]
  simp

theorem testBit_high_of_lt {p i : Nat} (hp : p < 2 ^ 52) (hi : 52 ≤ i) :
    p.testBit i = false := by
  apply Nat.testBit_eq_false_of_lt
  calc p < 2 ^ 52 := hp
    _ ≤ 2 ^ i := Nat.pow_le_pow_right (by norm_num) hi

theorem mask_testBit (i : Nat) :
    (0xffffffffff000 : Nat).testBit i = decide (12 ≤ i ∧ i < 52) := by
  rw [show (0xffffffffff000 : Nat) = (2 ^ 40 - 1) <<< 12 by
    rw [Nat.shiftLeft_eq]; norm_num]
  rw [Nat.testBit_shiftLeft, Nat.testBit_two_pow_sub_one]
  rcases Nat.lt_or_ge i 12 with hi | hi
  · have h1 : ¬ (12 ≤ i) := by omega
    simp [h1]
  · simp [hi]
    omega

/-- The address field of the intermediate entry built for a fresh aligned
page below `2^52` is the page itself. -/
theorem entryAddress_intermediate {p : Nat} (hal : p % 4096 = 0)
    (hlt : p < 2 ^ 52) : entryAddress (intermediateEntry p) = p := by
  unfold entryAddress intermediateEntry ADDR_MASK
  apply Nat.eq_of_testBit_eq
  intro i
  rw [Nat.testBit_land, Nat.testBit_lor, Nat.testBit_lor, Nat.testBit_lor]
  rw [testBit_one_c, testBit_two_c, testBit_four_c, mask_testBit]
  rcases Nat.lt_or_ge i 12 with hi | hi
  · rw [testBit_aligned_low hal hi]
    have h1 : ¬ (12 ≤ i ∧ i < 52) := by omega
    simp [h1]
  · rcases Nat.lt_or_ge i 52 with hi2 | hi2
    · have h1 : (12 ≤ i ∧ i < 52) := ⟨hi, hi2⟩
      have h2 : ¬ (0 = i) := by omega
      have h3 : ¬ (1 = i) := by omega
      have h4 : ¬ (2 = i) := by omega
      simp [h1, h2, h3, h4]
    · rw [testBit_high_of_lt hlt hi2]
      have h1 : ¬ (12 ≤ i ∧ i < 52) := by omega
      simp [h1]

/-- The intermediate entry is present with the page-size bit clear. -/
theorem intermediate_bits {p : Nat} (hal : p % 4096 = 0) :
    bitSet (intermediateEntry p) 0 = true ∧ bitSet (intermediateEntry p) 7 = false := by
  unfold intermediateEntry
  rw [bitSet_eq_testBit, bitSet_eq_testBit]
  rw [Nat.testBit_lor, Nat.testBit_lor, Nat.testBit_lor,
    Nat.testBit_lor, Nat.testBit_lor, Nat.testBit_lor]
  rw [testBit_one_c, testBit_one_c, testBit_two_c, testBit_two_c,
    testBit_four_c, testBit_four_c]
  rw [testBit_aligned_low hal (by norm_num), testBit_aligned_low hal (by norm_num)]
  simp

/-- Each page-table index extracted from a virtual address is below 512. -/
theorem tableIndex_lt (virt d : Nat) : tableIndex virt d < 512 := by
  have key : ∀ x : Nat, x &&& 0x1ff < 512 := by
    intro x
    have : (0x1ff : Nat) = 2 ^ 9 - 1 := by norm_num
    rw [this, Nat.and_pow_two_sub_one_eq_mod]
    exact Nat.mod_lt _ (by norm_num)
  rcases d with _ | _ | _ | d <;> exact key _

/-- Forward evaluation of `_translate` ending in a present 512 GiB leaf at
depth 1. -/
theorem translate_chain512 {m : Mem} {root virt e0 e1 : Nat}
    (h0 : m (root + 8 * tableIndex virt 0) = e0)
    (hp0 : bitSet e0 0 = true) (hps0 : bitSet e0 7 = false)
    (h1 : m (entryAddress e0 + 8 * tableIndex virt 1) = e1)
    (hp1 : bitSet e1 0 = true) (hps1 : bitSet e1 7 = true) :
    PageTableX86.translate m root virt =
      some ⟨virt, some (entryAddress e1 + (virt &&& (512 * 1024 * 1024 * 1024 - 1))),
            some .Size512G,
            [some (root + 8 * tableIndex virt 0),
             some (entryAddress e0 + 8 * tableIndex virt 1), none, none],
            ⟨true, bitSet e1 1, ! bitSet e1 63⟩⟩ := by
  unfold PageTableX86.translate
  rw [translateLevels]
  simp only [h0, List.set]
  rw [if_neg (by rw [hp0]; simp)]
  rw [if_neg (by rw [hps0]; simp)]
  rw [translateLevels]
  simp only [h1, List.set]
  rw [if_neg (by rw [hp1]; simp)]
  rw [if_pos (by rw [hps1])]

/-- Forward evaluation of `_translate` ending in a present 2 MiB leaf at
depth 2. -/
theorem translate_chain2M {m : Mem} {root virt e0 e1 e2 : Nat}
    (h0 : m (root + 8 * tableIndex virt 0) = e0)
    (hp0 : bitSet e0 0 = true) (hps0 : bitSet e0 7 = false)
    (h1 : m (entryAddress e0 + 8 * tableIndex virt 1) = e1)
    (hp1 : bitSet e1 0 = true) (hps1 : bitSet e1 7 = false)
    (h2 : m (entryAddress e1 + 8 * tableIndex virt 2) = e2)
    (hp2 : bitSet e2 0 = true) (hps2 : bitSet e2 7 = true) :
    PageTableX86.translate m root virt =
      some ⟨virt, some (entryAddress e2 + (virt &&& (2 * 1024 * 1024 - 1))),
            some .Size2M,
            [some (root + 8 * tableIndex virt 0),
             some (entryAddress e0 + 8 * tableIndex virt 1),
             some (entryAddress e1 + 8 * tableIndex virt 2), none],
            ⟨true, bitSet e2 1, ! bitSet e2 63⟩⟩ := by
  unfold PageTableX86.translate
  rw [translateLevels]
  simp only [h0, List.set]
  rw [if_neg (by rw [hp0]; simp)]
  rw [if_neg (by rw [hps0]; simp)]
  rw [translateLevels]
  simp only [h1, List.set]
  rw [if_neg (by rw [hp1]; simp)]
  rw [if_neg (by rw [hps1]; simp)]
  rw [translateLevels]
  simp only [h2, List.set]
  rw [if_neg (by rw [hp2]; simp)]
  rw [if_pos (by rw [hps2])]

/-- Forward evaluation of `_translate` walking all four levels to a present
4 KiB leaf. -/
theorem translate_chain4K {m : Mem} {root virt e0 e1 e2 e3 : Nat}
    (h0 : m (root + 8 * tableIndex virt 0) = e0)
    (hp0 : bitSet e0 0 = true) (hps0 : bitSet e0 7 = false)
    (h1 : m (entryAddress e0 + 8 * tableIndex virt 1) = e1)
    (hp1 : bitSet e1 0 = true) (hps1 : bitSet e1 7 = false)
    (h2 : m (entryAddress e1 + 8 * tableIndex virt 2) = e2)
    (hp2 : bitSet e2 0 = true) (hps2 : bitSet e2 7 = false)
    (h3 : m (entryAddress e2 + 8 * tableIndex virt 3) = e3)
    (hp3 : bitSet e3 0 = true) (hps3 : bitSet e3 7 = false) :
    PageTableX86.translate m root virt =
      some ⟨virt, some (entryAddress e3 + (virt &&& (4 * 1024 - 1))),
            some .Size4K,
            [some (root + 8 * tableIndex virt 0),
             some (entryAddress e0 + 8 * tableIndex virt 1),
             some (entryAddress e1 + 8 * tableIndex virt 2),
             some (entryAddress e2 + 8 * tableIndex virt 3)],
            ⟨true, bitSet e3 1, ! bitSet e3 63⟩⟩ := by
  unfold PageTableX86.translate
  rw [translateLevels]
  simp only [h0, List.set]
  rw [if_neg (by rw [hp0]; simp)]
  rw [if_neg (by rw [hps0]; simp)]
  rw [translateLevels]
  simp only [h1, List.set]
  rw [if_neg (by rw [hp1]; simp)]
  rw [if_neg (by rw [hps1]; simp)]
  rw [translateLevels]
  simp only [h2, List.set]
  rw [if_neg (by rw [hp2]; simp)]
  rw [if_neg (by rw [hps2]; simp)]
  rw [translateLevels]
  simp only [h3, List.set]
  rw [if_neg (by rw [hp3]; simp)]
  rw [if_neg (by rw [hps3]; simp)]
  rw [translateLevels]

theorem writeU64_at (m : Mem) (a v : Nat) : writeU64 m a v a = v := if_pos rfl

theorem writeU64_ne (m : Mem) (a v x : Nat) (h : x ≠ a) : writeU64 m a v x = m x :=
  if_neg h

theorem zeroPage_ne (m : Mem) (p x : Nat) (h : ¬ (p ≤ x ∧ x < p + 4096)) :
    zeroPage m p x = m x := if_neg h

/-- Inversion of a translation with no physical address: the walk stopped at
the first non-present entry, at some depth `k ≤ 3`, with every earlier level
present and non-terminal, and recorded exactly the slots it visited. -/
theorem translate_none_inv {m : Mem} {root virt : Nat} {t0 : Translated}
    (h : PageTableX86.translate m root virt = some t0)
    (hphys : t0.phys_addr = none) :
    (bitSet (m (root + 8 * tableIndex virt 0)) 0 = false ∧
      t0 = ⟨virt, none, none,
        [some (root + 8 * tableIndex virt 0), none, none, none],
        ⟨false, false, false⟩⟩) ∨
    (bitSet (m (root + 8 * tableIndex virt 0)) 0 = true ∧
     bitSet (m (root + 8 * tableIndex virt 0)) 7 = false ∧
     bitSet (m (entryAddress (m (root + 8 * tableIndex virt 0)) +
       8 * tableIndex virt 1)) 0 = false ∧
      t0 = ⟨virt, none, none,
        [some (root + 8 * tableIndex virt 0),
         some (entryAddress (m (root + 8 * tableIndex virt 0)) +
           8 * tableIndex virt 1), none, none],
        ⟨false, false, false⟩⟩) ∨
    (bitSet (m (root + 8 * tableIndex virt 0)) 0 = true ∧
     bitSet (m (root + 8 * tableIndex virt 0)) 7 = false ∧
     bitSet (m (entryAddress (m (root + 8 * tableIndex virt 0)) +
       8 * tableIndex virt 1)) 0 = true ∧
     bitSet (m (entryAddress (m (root + 8 * tableIndex virt 0)) +
       8 * tableIndex virt 1)) 7 = false ∧
     bitSet (m (entryAddress (m (entryAddress (m (root + 8 * tableIndex virt 0)) +
       8 * tableIndex virt 1)) + 8 * tableIndex virt 2)) 0 = false ∧
      t0 = ⟨virt, none, none,
        [some (root + 8 * tableIndex virt 0),
         some (entryAddress (m (root + 8 * tableIndex virt 0)) +
           8 * tableIndex virt 1),
         some (entryAddress (m (entryAddress (m (root + 8 * tableIndex virt 0)) +
           8 * tableIndex virt 1)) + 8 * tableIndex virt 2), none],
        ⟨false, false, false⟩⟩) ∨
    (bitSet (m (root + 8 * tableIndex virt 0)) 0 = true ∧
     bitSet (m (root + 8 * tableIndex virt 0)) 7 = false ∧
     bitSet (m (entryAddress (m (root + 8 * tableIndex virt 0)) +
       8 * tableIndex virt 1)) 0 = true ∧
     bitSet (m (entryAddress (m (root + 8 * tableIndex virt 0)) +
       8 * tableIndex virt 1)) 7 = false ∧
     bitSet (m (entryAddress (m (entryAddress (m (root + 8 * tableIndex virt 0)) +
       8 * tableIndex virt 1)) + 8 * tableIndex virt 2)) 0 = true ∧
     bitSet (m (entryAddress (m (entryAddress (m (root + 8 * tableIndex virt 0)) +
       8 * tableIndex virt 1)) + 8 * tableIndex virt 2)) 7 = false ∧
     bitSet (m (entryAddress (m (entryAddress (m (entryAddress
       (m (root + 8 * tableIndex virt 0)) + 8 * tableIndex virt 1)) +
       8 * tableIndex virt 2)) + 8 * tableIndex virt 3)) 0 = false ∧
      t0 = ⟨virt, none, none,
        [some (root + 8 * tableIndex virt 0),
         some (entryAddress (m (root + 8 * tableIndex virt 0)) +
           8 * tableIndex virt 1),
         some (entryAddress (m (entryAddress (m (root + 8 * tableIndex virt 0)) +
           8 * tableIndex virt 1)) + 8 * tableIndex virt 2),
         some (entryAddress (m (entryAddress (m (entryAddress
           (m (root + 8 * tableIndex virt 0)) + 8 * tableIndex virt 1)) +
           8 * tableIndex virt 2)) + 8 * tableIndex virt 3)],
        ⟨false, false, false⟩⟩) := by
  unfold PageTableX86.translate at h
  rw [translateLevels] at h
  simp only [List.set] at h
  by_cases hb0 : bitSet (m (root + 8 * tableIndex virt 0)) 0 = true
  case neg =>
    rw [if_pos (by simpa using hb0)] at h
    left
    refine ⟨by simpa using hb0, ?_⟩
    injection h with h
    rw [← h]
    rfl
  case pos =>
    rw [if_neg (by simpa using hb0)] at h
    by_cases hb0s : bitSet (m (root + 8 * tableIndex virt 0)) 7 = true
    case pos =>
      rw [if_pos hb0s] at h
      cases h
    case neg =>
      rw [if_neg hb0s] at h
      rw [translateLevels] at h
      simp only [List.set] at h
      by_cases hb1 : bitSet (m (entryAddress (m (root + 8 * tableIndex virt 0)) +
          8 * tableIndex virt 1)) 0 = true
      case neg =>
        rw [if_pos (by simpa using hb1)] at h
        right; left
        refine ⟨hb0, by simpa using hb0s, by simpa using hb1, ?_⟩
        injection h with h
        rw [← h]
        rfl
      case pos =>
        rw [if_neg (by simpa using hb1)] at h
        by_cases hb1s : bitSet (m (entryAddress (m (root + 8 * tableIndex virt 0)) +
            8 * tableIndex virt 1)) 7 = true
        case pos =>
          rw [if_pos hb1s] at h
          injection h with h
          rw [← h] at hphys
          cases hphys
        case neg =>
          rw [if_neg hb1s] at h
          rw [translateLevels] at h
          simp only [List.set] at h
          by_cases hb2 : bitSet (m (entryAddress (m (entryAddress
              (m (root + 8 * tableIndex virt 0)) + 8 * tableIndex virt 1)) +
              8 * tableIndex virt 2)) 0 = true
          case neg =>
            rw [if_pos (by simpa using hb2)] at h
            right; right; left
            refine ⟨hb0, by simpa using hb0s, hb1, by simpa using hb1s,
              by simpa using hb2, ?_⟩
            injection h with h
            rw [← h]
            rfl
          case pos =>
            rw [if_neg (by simpa using hb2)] at h
            by_cases hb2s : bitSet (m (entryAddress (m (entryAddress
                (m (root + 8 * tableIndex virt 0)) + 8 * tableIndex virt 1)) +
                8 * tableIndex virt 2)) 7 = true
            case pos =>
              rw [if_pos hb2s] at h
              injection h with h
              rw [← h] at hphys
              cases hphys
            case neg =>
              rw [if_neg hb2s] at h
              rw [translateLevels] at h
              simp only [List.set] at h
              by_cases hb3 : bitSet (m (entryAddress (m (entryAddress (m (entryAddress
                  (m (root + 8 * tableIndex virt 0)) + 8 * tableIndex virt 1)) +
                  8 * tableIndex virt 2)) + 8 * tableIndex virt 3)) 0 = true
              case neg =>
                rw [if_pos (by simpa using hb3)] at h
                right; right; right
                refine ⟨hb0, by simpa using hb0s, hb1, by simpa using hb1s,
                  hb2, by simpa using hb2s, by simpa using hb3, ?_⟩
                injection h with h
                rw [← h]
                rfl
              case pos =>
                rw [if_neg (by simpa using hb3)] at h
                by_cases hb3s : bitSet (m (entryAddress (m (entryAddress (m (entryAddress
                    (m (root + 8 * tableIndex virt 0)) + 8 * tableIndex virt 1)) +
                    8 * tableIndex virt 2)) + 8 * tableIndex virt 3)) 7 = true
                case pos =>
                  rw [if_pos hb3s] at h
                  cases h
                case neg =>
                  rw [if_neg hb3s] at h
                  rw [translateLevels] at h
                  injection h with h
                  rw [← h] at hphys
                  cases hphys


/-- C1 (amended): map/translate round-trip.  For a leaf entry with the
present bit set and the page-size bit matching the requested size, a virtual
address that currently translates to no physical address, and an allocator
handing out 4 KiB-aligned fresh pages below `2^52` that are mutually distinct
and contain no recorded walk slot (the recorded slots themselves being
distinct), a successful `_map_raw(entry, v, S)` makes a subsequent
`_translate(v)` on the resulting memory return
`phys = entry.address() + (v & (S-1))`, `size = S`, and perms taken from the
supplied leaf entry's writable / execute-disable bits. -/
theorem claim_C1_map_translate_roundtrip {m : Mem} {root virt entry : Nat}
    {S : PageSize} {fresh : List Nat} {t0 : Translated} {res : Mem × List Nat}
    (htrans : PageTableX86.translate m root virt = some t0)
    (hphys : t0.phys_addr = none)
    (hpresent : bitSet entry 0 = true)
    (hps : bitSet entry 7 = psBit S)
    (hfresh : ∀ p ∈ fresh, p % 4096 = 0 ∧ p < 2 ^ 52)
    (hnodup : fresh.Nodup)
    (hdisj : ∀ p ∈ fresh, ∀ s, some s ∈ t0.entries → ¬ (p ≤ s ∧ s < p + 4096))
    (hslots : (t0.entries.filterMap id).Nodup)
    (hmap : mapRaw m root entry virt S fresh = .ok res) :
    ∃ t1, PageTableX86.translate res.1 root virt = some t1 ∧
      t1.phys_addr = some (entryAddress entry + (virt &&& (pageBytes S - 1))) ∧
      t1.size = some S ∧
      t1.perms = ⟨true, bitSet entry 1, ! bitSet entry 63⟩ := by
  have hidx1 := tableIndex_lt virt 1
  have hidx2 := tableIndex_lt virt 2
  have hidx3 := tableIndex_lt virt 3
  rcases translate_none_inv htrans hphys with
      ⟨hb0, ht⟩ | ⟨hb0, hb0s, hb1, ht⟩ | ⟨hb0, hb0s, hb1, hb1s, hb2, ht⟩ |
      ⟨hb0, hb0s, hb1, hb1s, hb2, hb2s, hb3, ht⟩
  · -- k = 0: walk stopped at the root level
    subst ht
    set s0 : Nat := root + 8 * tableIndex virt 0 with hs0
    have hd : ∀ p ∈ fresh, ¬ (p ≤ s0 ∧ s0 < p + 4096) := by
      intro p hp
      exact hdisj p hp s0 (by simp)
    unfold mapRaw at hmap
    rw [if_neg (not_not_intro (entryAddress_low entry))] at hmap
    rw [htrans] at hmap
    simp only [] at hmap
    rw [if_neg (by simp)] at hmap
    rcases S with _ | _ | _
    · -- Size512G, max_depth = 2
      simp only [] at hmap
      rw [show List.range' 1 (2 - 1) = [1] from rfl] at hmap
      rw [mapLoop] at hmap
      simp only [List.foldl_cons, List.foldl_nil] at hmap
      simp only [Option.bind] at hmap
      rw [mapLoopStep] at hmap
      rw [show ((m, fresh, [some s0, none, none, none]) :
        Mem × List Nat × List (Option Nat)).2.2.getD 1 none = none from rfl] at hmap
      simp only [] at hmap
      rcases fresh with _ | ⟨p1, fresh1⟩
      · simp only [] at hmap
        cases hmap
      · obtain ⟨hal1, hlt1⟩ := hfresh p1 (List.mem_cons_self p1 fresh1)
        have hd1 := hd p1 (List.mem_cons_self p1 fresh1)
        simp only [] at hmap
        rw [if_neg (not_not_intro hal1)] at hmap
        rw [show ([some s0, none, none, none] : List (Option Nat)).getD (1 - 1) none
          = some s0 from rfl] at hmap
        simp only [] at hmap
        rw [show ([some s0, none, none, none] : List (Option Nat)).set 1
          (some (p1 + 8 * tableIndex virt 1)) =
          [some s0, some (p1 + 8 * tableIndex virt 1), none, none] from rfl] at hmap
        rw [show ([some s0, some (p1 + 8 * tableIndex virt 1), none, none] :
          List (Option Nat)).getD (2 - 1) none
          = some (p1 + 8 * tableIndex virt 1) from rfl] at hmap
        simp only [] at hmap
        injection hmap with hmap
        rw [← hmap]
        obtain ⟨hip, hips⟩ := intermediate_bits hal1
        refine ⟨_, @translate_chain512 _ _ _ (intermediateEntry p1) entry
          ?_ hip hips ?_ hpresent hps, rfl, rfl, rfl⟩
        · show writeU64 (writeU64 (zeroPage m p1) s0 (intermediateEntry p1))
            (p1 + 8 * tableIndex virt 1) entry s0 = intermediateEntry p1
          rw [writeU64_ne _ _ _ _ (by omega), writeU64_at]
        · rw [entryAddress_intermediate hal1 hlt1]
          show writeU64 (writeU64 (zeroPage m p1) s0 (intermediateEntry p1))
            (p1 + 8 * tableIndex virt 1) entry (p1 + 8 * tableIndex virt 1) = entry
          rw [writeU64_at]
    · -- Size2M, max_depth = 3
      simp only [] at hmap
      rw [show List.range' 1 (3 - 1) = [1, 2] from rfl] at hmap
      rw [mapLoop] at hmap
      simp only [List.foldl_cons, List.foldl_nil] at hmap
      simp only [Option.bind] at hmap
      rw [mapLoopStep] at hmap
      simp only [] at hmap
      rw [show ([some s0, none, none, none] : List (Option Nat)).getD 1 none
        = none from rfl] at hmap
      simp only [] at hmap
      rcases fresh with _ | ⟨p1, fresh1⟩
      · simp only [] at hmap
        cases hmap
      · obtain ⟨hal1, hlt1⟩ := hfresh p1 (List.mem_cons_self p1 fresh1)
        have hd1 := hd p1 (List.mem_cons_self p1 fresh1)
        simp only [] at hmap
        rw [if_neg (not_not_intro hal1)] at hmap
        rw [show ([some s0, none, none, none] : List (Option Nat)).getD (1 - 1) none
          = some s0 from rfl] at hmap
        simp only [] at hmap
        rw [show ([some s0, none, none, none] : List (Option Nat)).set 1
          (some (p1 + 8 * tableIndex virt 1)) =
          [some s0, some (p1 + 8 * tableIndex virt 1), none, none] from rfl] at hmap
        rw [mapLoopStep] at hmap
        simp only [] at hmap
        rw [show ([some s0, some (p1 + 8 * tableIndex virt 1), none, none] :
          List (Option Nat)).getD 2 none = none from rfl] at hmap
        simp only [] at hmap
        rcases fresh1 with _ | ⟨p2, fresh2⟩
        · simp only [] at hmap
          cases hmap
        · obtain ⟨hal2, hlt2⟩ := hfresh p2 (by simp)
          have hd2 := hd p2 (by simp)
          have hne12 : p1 ≠ p2 := by
            intro hh
            rw [List.nodup_cons] at hnodup
            exact hnodup.1 (by rw [hh]; simp)
          simp only [] at hmap
          rw [if_neg (not_not_intro hal2)] at hmap
          rw [show ([some s0, some (p1 + 8 * tableIndex virt 1), none, none] :
            List (Option Nat)).getD (2 - 1) none
            = some (p1 + 8 * tableIndex virt 1) from rfl] at hmap
          simp only [] at hmap
          rw [show ([some s0, some (p1 + 8 * tableIndex virt 1), none, none] :
            List (Option Nat)).set 2 (some (p2 + 8 * tableIndex virt 2)) =
            [some s0, some (p1 + 8 * tableIndex virt 1),
             some (p2 + 8 * tableIndex virt 2), none] from rfl] at hmap
          rw [show ([some s0, some (p1 + 8 * tableIndex virt 1),
            some (p2 + 8 * tableIndex virt 2), none] :
            List (Option Nat)).getD (3 - 1) none
            = some (p2 + 8 * tableIndex virt 2) from rfl] at hmap
          simp only [] at hmap
          injection hmap with hmap
          rw [← hmap]
          obtain ⟨hip1, hips1⟩ := intermediate_bits hal1
          obtain ⟨hip2, hips2⟩ := intermediate_bits hal2
          refine ⟨_, @translate_chain2M _ _ _ (intermediateEntry p1)
            (intermediateEntry p2) entry
            ?_ hip1 hips1 ?_ hip2 hips2 ?_ hpresent hps, rfl, rfl, rfl⟩
          · show writeU64 (writeU64 (zeroPage (writeU64 (zeroPage m p1) s0
              (intermediateEntry p1)) p2) (p1 + 8 * tableIndex virt 1)
              (intermediateEntry p2)) (p2 + 8 * tableIndex virt 2) entry s0
              = intermediateEntry p1
            rw [writeU64_ne _ _ _ _ (by omega)]
            rw [writeU64_ne _ _ _ _ (by omega)]
            rw [zeroPage_ne _ _ _ (by omega)]
            rw [writeU64_at]
          · rw [entryAddress_intermediate hal1 hlt1]
            show writeU64 (writeU64 (zeroPage (writeU64 (zeroPage m p1) s0
              (intermediateEntry p1)) p2) (p1 + 8 * tableIndex virt 1)
              (intermediateEntry p2)) (p2 + 8 * tableIndex virt 2) entry
              (p1 + 8 * tableIndex virt 1) = intermediateEntry p2
            rw [writeU64_ne _ _ _ _ (by omega)]
            rw [writeU64_at]
          · rw [entryAddress_intermediate hal2 hlt2]
            show writeU64 (writeU64 (zeroPage (writeU64 (zeroPage m p1) s0
              (intermediateEntry p1)) p2) (p1 + 8 * tableIndex virt 1)
              (intermediateEntry p2)) (p2 + 8 * tableIndex virt 2) entry
              (p2 + 8 * tableIndex virt 2) = entry
            rw [writeU64_at]
    · -- Size4K, max_depth = 4
      simp only [] at hmap
      rw [show List.range' 1 (4 - 1) = [1, 2, 3] from rfl] at hmap
      rw [mapLoop] at hmap
      simp only [List.foldl_cons, List.foldl_nil] at hmap
      simp only [Option.bind] at hmap
      rw [mapLoopStep] at hmap
      simp only [] at hmap
      rw [show ([some s0, none, none, none] : List (Option Nat)).getD 1 none
        = none from rfl] at hmap
      simp only [] at hmap
      rcases fresh with _ | ⟨p1, fresh1⟩
      · simp only [] at hmap
        cases hmap
      · obtain ⟨hal1, hlt1⟩ := hfresh p1 (List.mem_cons_self p1 fresh1)
        have hd1 := hd p1 (List.mem_cons_self p1 fresh1)
        simp only [] at hmap
        rw [if_neg (not_not_intro hal1)] at hmap
        rw [show ([some s0, none, none, none] : List (Option Nat)).getD (1 - 1) none
          = some s0 from rfl] at hmap
        simp only [] at hmap
        rw [show ([some s0, none, none, none] : List (Option Nat)).set 1
          (some (p1 + 8 * tableIndex virt 1)) =
          [some s0, some (p1 + 8 * tableIndex virt 1), none, none] from rfl] at hmap
        rw [mapLoopStep] at hmap
        simp only [] at hmap
        rw [show ([some s0, some (p1 + 8 * tableIndex virt 1), none, none] :
          List (Option Nat)).getD 2 none = none from rfl] at hmap
        simp only [] at hmap
        rcases fresh1 with _ | ⟨p2, fresh2⟩
        · simp only [] at hmap
          cases hmap
        · obtain ⟨hal2, hlt2⟩ := hfresh p2 (by simp)
          have hd2 := hd p2 (by simp)
          have hne12 : p1 ≠ p2 := by
            intro hh
            rw [List.nodup_cons] at hnodup
            exact hnodup.1 (by rw [hh]; simp)
          simp only [] at hmap
          rw [if_neg (not_not_intro hal2)] at hmap
          rw [show ([some s0, some (p1 + 8 * tableIndex virt 1), none, none] :
            List (Option Nat)).getD (2 - 1) none
            = some (p1 + 8 * tableIndex virt 1) from rfl] at hmap
          simp only [] at hmap
          rw [show ([some s0, some (p1 + 8 * tableIndex virt 1), none, none] :
            List (Option Nat)).set 2 (some (p2 + 8 * tableIndex virt 2)) =
            [some s0, some (p1 + 8 * tableIndex virt 1),
             some (p2 + 8 * tableIndex virt 2), none] from rfl] at hmap
          rw [mapLoopStep] at hmap
          simp only [] at hmap
          rw [show ([some s0, some (p1 + 8 * tableIndex virt 1),
            some (p2 + 8 * tableIndex virt 2), none] :
            List (Option Nat)).getD 3 none = none from rfl] at hmap
          simp only [] at hmap
          rcases fresh2 with _ | ⟨p3, fresh3⟩
          · simp only [] at hmap
            cases hmap
          · obtain ⟨hal3, hlt3⟩ := hfresh p3 (by simp)
            have hd3 := hd p3 (by simp)
            have hne13 : p1 ≠ p3 := by
              intro hh
              rw [List.nodup_cons] at hnodup
              exact hnodup.1 (by rw [hh]; simp)
            have hne23 : p2 ≠ p3 := by
              intro hh
              rw [List.nodup_cons, List.nodup_cons] at hnodup
              exact hnodup.2.1 (by rw [hh]; simp)
            simp only [] at hmap
            rw [if_neg (not_not_intro hal3)] at hmap
            rw [show ([some s0, some (p1 + 8 * tableIndex virt 1),
              some (p2 + 8 * tableIndex virt 2), none] :
              List (Option Nat)).getD (3 - 1) none
              = some (p2 + 8 * tableIndex virt 2) from rfl] at hmap
            simp only [] at hmap
            rw [show ([some s0, some (p1 + 8 * tableIndex virt 1),
              some (p2 + 8 * tableIndex virt 2), none] :
              List (Option Nat)).set 3 (some (p3 + 8 * tableIndex virt 3)) =
              [some s0, some (p1 + 8 * tableIndex virt 1),
               some (p2 + 8 * tableIndex virt 2),
               some (p3 + 8 * tableIndex virt 3)] from rfl] at hmap
            rw [show ([some s0, some (p1 + 8 * tableIndex virt 1),
              some (p2 + 8 * tableIndex virt 2),
              some (p3 + 8 * tableIndex virt 3)] :
              List (Option Nat)).getD (4 - 1) none
              = some (p3 + 8 * tableIndex virt 3) from rfl] at hmap
            simp only [] at hmap
            injection hmap with hmap
            rw [← hmap]
            obtain ⟨hip1, hips1⟩ := intermediate_bits hal1
            obtain ⟨hip2, hips2⟩ := intermediate_bits hal2
            obtain ⟨hip3, hips3⟩ := intermediate_bits hal3
            refine ⟨_, @translate_chain4K _ _ _ (intermediateEntry p1)
              (intermediateEntry p2) (intermediateEntry p3) entry
              ?_ hip1 hips1 ?_ hip2 hips2 ?_ hip3 hips3 ?_ hpresent hps,
              rfl, rfl, rfl⟩
            · show writeU64 (writeU64 (zeroPage (writeU64 (zeroPage (writeU64
                (zeroPage m p1) s0 (intermediateEntry p1)) p2)
                (p1 + 8 * tableIndex virt 1) (intermediateEntry p2)) p3)
                (p2 + 8 * tableIndex virt 2) (intermediateEntry p3))
                (p3 + 8 * tableIndex virt 3) entry s0 = intermediateEntry p1
              rw [writeU64_ne _ _ _ _ (by omega)]
              rw [writeU64_ne _ _ _ _ (by omega)]
              rw [zeroPage_ne _ _ _ (by omega)]
              rw [writeU64_ne _ _ _ _ (by omega)]
              rw [zeroPage_ne _ _ _ (by omega)]
              rw [writeU64_at]
            · rw [entryAddress_intermediate hal1 hlt1]
              show writeU64 (writeU64 (zeroPage (writeU64 (zeroPage (writeU64
                (zeroPage m p1) s0 (intermediateEntry p1)) p2)
                (p1 + 8 * tableIndex virt 1) (intermediateEntry p2)) p3)
                (p2 + 8 * tableIndex virt 2) (intermediateEntry p3))
                (p3 + 8 * tableIndex virt 3) entry (p1 + 8 * tableIndex virt 1)
                = intermediateEntry p2
              rw [writeU64_ne _ _ _ _ (by omega)]
              rw [writeU64_ne _ _ _ _ (by omega)]
              rw [zeroPage_ne _ _ _ (by omega)]
              rw [writeU64_at]
            · rw [entryAddress_intermediate hal2 hlt2]
              show writeU64 (writeU64 (zeroPage (writeU64 (zeroPage (writeU64
                (zeroPage m p1) s0 (intermediateEntry p1)) p2)
                (p1 + 8 * tableIndex virt 1) (intermediateEntry p2)) p3)
                (p2 + 8 * tableIndex virt 2) (intermediateEntry p3))
                (p3 + 8 * tableIndex virt 3) entry (p2 + 8 * tableIndex virt 2)
                = intermediateEntry p3
              rw [writeU64_ne _ _ _ _ (by omega)]
              rw [writeU64_at]
            · rw [entryAddress_intermediate hal3 hlt3]
              show writeU64 (writeU64 (zeroPage (writeU64 (zeroPage (writeU64
                (zeroPage m p1) s0 (intermediateEntry p1)) p2)
                (p1 + 8 * tableIndex virt 1) (intermediateEntry p2)) p3)
                (p2 + 8 * tableIndex virt 2) (intermediateEntry p3))
                (p3 + 8 * tableIndex virt 3) entry (p3 + 8 * tableIndex virt 3)
                = entry
              rw [writeU64_at]
  · -- k = 1: walk stopped at depth 1
    subst ht
    set s0 : Nat := root + 8 * tableIndex virt 0 with hs0
    set e0 : Nat := m s0 with he0
    set s1 : Nat := entryAddress e0 + 8 * tableIndex virt 1 with hs1
    have hd0 : ∀ p ∈ fresh, ¬ (p ≤ s0 ∧ s0 < p + 4096) := by
      intro p hp
      exact hdisj p hp s0 (by simp)
    have hd1s : ∀ p ∈ fresh, ¬ (p ≤ s1 ∧ s1 < p + 4096) := by
      intro p hp
      exact hdisj p hp s1 (by simp)
    have hslots2 : ([s0, s1] : List Nat).Nodup := hslots
    have h01 : s0 ≠ s1 := fun hh => (List.nodup_cons.mp hslots2).1 (by rw [hh]; simp)
    unfold mapRaw at hmap
    rw [if_neg (not_not_intro (entryAddress_low entry))] at hmap
    rw [htrans] at hmap
    simp only [] at hmap
    rw [if_neg (by simp)] at hmap
    rcases S with _ | _ | _
    · -- Size512G: the leaf is written into the recorded depth-1 slot
      simp only [] at hmap
      rw [show List.range' 1 (2 - 1) = [1] from rfl] at hmap
      rw [mapLoop] at hmap
      simp only [List.foldl_cons, List.foldl_nil] at hmap
      simp only [Option.bind] at hmap
      rw [mapLoopStep] at hmap
      simp only [] at hmap
      rw [show ([some s0, some s1, none, none] : List (Option Nat)).getD 1 none
        = some s1 from rfl] at hmap
      simp only [] at hmap
      rw [show ([some s0, some s1, none, none] : List (Option Nat)).getD (2 - 1) none
        = some s1 from rfl] at hmap
      simp only [] at hmap
      injection hmap with hmap
      rw [← hmap]
      refine ⟨_, @translate_chain512 _ _ _ e0 entry
        ?_ hb0 hb0s ?_ hpresent hps, rfl, rfl, rfl⟩
      · show writeU64 m s1 entry s0 = e0
        rw [writeU64_ne _ _ _ _ h01]
      · show writeU64 m s1 entry s1 = entry
        rw [writeU64_at]
    · -- Size2M: one fresh page fills depth 2
      simp only [] at hmap
      rw [show List.range' 1 (3 - 1) = [1, 2] from rfl] at hmap
      rw [mapLoop] at hmap
      simp only [List.foldl_cons, List.foldl_nil] at hmap
      simp only [Option.bind] at hmap
      rw [mapLoopStep] at hmap
      simp only [] at hmap
      rw [show ([some s0, some s1, none, none] : List (Option Nat)).getD 1 none
        = some s1 from rfl] at hmap
      simp only [] at hmap
      rw [mapLoopStep] at hmap
      simp only [] at hmap
      rw [show ([some s0, some s1, none, none] : List (Option Nat)).getD 2 none
        = none from rfl] at hmap
      simp only [] at hmap
      rcases fresh with _ | ⟨p1, fresh1⟩
      · simp only [] at hmap
        cases hmap
      · obtain ⟨hal1, hlt1⟩ := hfresh p1 (List.mem_cons_self p1 fresh1)
        have hd0p := hd0 p1 (List.mem_cons_self p1 fresh1)
        have hd1p := hd1s p1 (List.mem_cons_self p1 fresh1)
        simp only [] at hmap
        rw [if_neg (not_not_intro hal1)] at hmap
        rw [show ([some s0, some s1, none, none] : List (Option Nat)).getD (2 - 1) none
          = some s1 from rfl] at hmap
        simp only [] at hmap
        rw [show ([some s0, some s1, none, none] : List (Option Nat)).set 2
          (some (p1 + 8 * tableIndex virt 2)) =
          [some s0, some s1, some (p1 + 8 * tableIndex virt 2), none] from rfl] at hmap
        rw [show ([some s0, some s1, some (p1 + 8 * tableIndex virt 2), none] :
          List (Option Nat)).getD (3 - 1) none
          = some (p1 + 8 * tableIndex virt 2) from rfl] at hmap
        simp only [] at hmap
        injection hmap with hmap
        rw [← hmap]
        obtain ⟨hip1, hips1⟩ := intermediate_bits hal1
        refine ⟨_, @translate_chain2M _ _ _ e0 (intermediateEntry p1)
          entry ?_ hb0 hb0s ?_ hip1 hips1 ?_ hpresent hps, rfl, rfl, rfl⟩
        · show writeU64 (writeU64 (zeroPage m p1) s1 (intermediateEntry p1))
            (p1 + 8 * tableIndex virt 2) entry s0 = e0
          rw [writeU64_ne _ _ _ _ (by omega)]
          rw [writeU64_ne _ _ _ _ h01]
          rw [zeroPage_ne _ _ _ (by omega)]
        · show writeU64 (writeU64 (zeroPage m p1) s1 (intermediateEntry p1))
            (p1 + 8 * tableIndex virt 2) entry s1 = intermediateEntry p1
          rw [writeU64_ne _ _ _ _ (by omega)]
          rw [writeU64_at]
        · rw [entryAddress_intermediate hal1 hlt1]
          show writeU64 (writeU64 (zeroPage m p1) s1 (intermediateEntry p1))
            (p1 + 8 * tableIndex virt 2) entry (p1 + 8 * tableIndex virt 2) = entry
          rw [writeU64_at]
    · -- Size4K: two fresh pages fill depths 2 and 3
      simp only [] at hmap
      rw [show List.range' 1 (4 - 1) = [1, 2, 3] from rfl] at hmap
      rw [mapLoop] at hmap
      simp only [List.foldl_cons, List.foldl_nil] at hmap
      simp only [Option.bind] at hmap
      rw [mapLoopStep] at hmap
      simp only [] at hmap
      rw [show ([some s0, some s1, none, none] : List (Option Nat)).getD 1 none
        = some s1 from rfl] at hmap
      simp only [] at hmap
      rw [mapLoopStep] at hmap
      simp only [] at hmap
      rw [show ([some s0, some s1, none, none] : List (Option Nat)).getD 2 none
        = none from rfl] at hmap
      simp only [] at hmap
      rcases fresh with _ | ⟨p1, fresh1⟩
      · simp only [] at hmap
        cases hmap
      · obtain ⟨hal1, hlt1⟩ := hfresh p1 (List.mem_cons_self p1 fresh1)
        have hd0p := hd0 p1 (List.mem_cons_self p1 fresh1)
        have hd1p := hd1s p1 (List.mem_cons_self p1 fresh1)
        simp only [] at hmap
        rw [if_neg (not_not_intro hal1)] at hmap
        rw [show ([some s0, some s1, none, none] : List (Option Nat)).getD (2 - 1) none
          = some s1 from rfl] at hmap
        simp only [] at hmap
        rw [show ([some s0, some s1, none, none] : List (Option Nat)).set 2
          (some (p1 + 8 * tableIndex virt 2)) =
          [some s0, some s1, some (p1 + 8 * tableIndex virt 2), none] from rfl] at hmap
        rw [mapLoopStep] at hmap
        simp only [] at hmap
        rw [show ([some s0, some s1, some (p1 + 8 * tableIndex virt 2), none] :
          List (Option Nat)).getD 3 none = none from rfl] at hmap
        simp only [] at hmap
        rcases fresh1 with _ | ⟨p2, fresh2⟩
        · simp only [] at hmap
          cases hmap
        · obtain ⟨hal2, hlt2⟩ := hfresh p2 (by simp)
          have hd0q := hd0 p2 (by simp)
          have hd1q := hd1s p2 (by simp)
          have hne12 : p1 ≠ p2 := by
            intro hh
            rw [List.nodup_cons] at hnodup
            exact hnodup.1 (by rw [hh]; simp)
          simp only [] at hmap
          rw [if_neg (not_not_intro hal2)] at hmap
          rw [show ([some s0, some s1, some (p1 + 8 * tableIndex virt 2), none] :
            List (Option Nat)).getD (3 - 1) none
            = some (p1 + 8 * tableIndex virt 2) from rfl] at hmap
          simp only [] at hmap
          rw [show ([some s0, some s1, some (p1 + 8 * tableIndex virt 2), none] :
            List (Option Nat)).set 3 (some (p2 + 8 * tableIndex virt 3)) =
            [some s0, some s1, some (p1 + 8 * tableIndex virt 2),
             some (p2 + 8 * tableIndex virt 3)] from rfl] at hmap
          rw [show ([some s0, some s1, some (p1 + 8 * tableIndex virt 2),
            some (p2 + 8 * tableIndex virt 3)] :
            List (Option Nat)).getD (4 - 1) none
            = some (p2 + 8 * tableIndex virt 3) from rfl] at hmap
          simp only [] at hmap
          injection hmap with hmap
          rw [← hmap]
          obtain ⟨hip1, hips1⟩ := intermediate_bits hal1
          obtain ⟨hip2, hips2⟩ := intermediate_bits hal2
          refine ⟨_, @translate_chain4K _ _ _ e0 (intermediateEntry p1)
            (intermediateEntry p2) entry
            ?_ hb0 hb0s ?_ hip1 hips1 ?_ hip2 hips2 ?_ hpresent hps,
            rfl, rfl, rfl⟩
          · show writeU64 (writeU64 (zeroPage (writeU64 (zeroPage m p1) s1
              (intermediateEntry p1)) p2) (p1 + 8 * tableIndex virt 2)
              (intermediateEntry p2)) (p2 + 8 * tableIndex virt 3) entry s0 = e0
            rw [writeU64_ne _ _ _ _ (by omega)]
            rw [writeU64_ne _ _ _ _ (by omega)]
            rw [zeroPage_ne _ _ _ (by omega)]
            rw [writeU64_ne _ _ _ _ h01]
            rw [zeroPage_ne _ _ _ (by omega)]
          · show writeU64 (writeU64 (zeroPage (writeU64 (zeroPage m p1) s1
              (intermediateEntry p1)) p2) (p1 + 8 * tableIndex virt 2)
              (intermediateEntry p2)) (p2 + 8 * tableIndex virt 3) entry s1
              = intermediateEntry p1
            rw [writeU64_ne _ _ _ _ (by omega)]
            rw [writeU64_ne _ _ _ _ (by omega)]
            rw [zeroPage_ne _ _ _ (by omega)]
            rw [writeU64_at]
          · rw [entryAddress_intermediate hal1 hlt1]
            show writeU64 (writeU64 (zeroPage (writeU64 (zeroPage m p1) s1
              (intermediateEntry p1)) p2) (p1 + 8 * tableIndex virt 2)
              (intermediateEntry p2)) (p2 + 8 * tableIndex virt 3) entry
              (p1 + 8 * tableIndex virt 2) = intermediateEntry p2
            rw [writeU64_ne _ _ _ _ (by omega)]
            rw [writeU64_at]
          · rw [entryAddress_intermediate hal2 hlt2]
            show writeU64 (writeU64 (zeroPage (writeU64 (zeroPage m p1) s1
              (intermediateEntry p1)) p2) (p1 + 8 * tableIndex virt 2)
              (intermediateEntry p2)) (p2 + 8 * tableIndex virt 3) entry
              (p2 + 8 * tableIndex virt 3) = entry
            rw [writeU64_at]
  · -- k = 2: walk stopped at depth 2
    subst ht
    set s0 : Nat := root + 8 * tableIndex virt 0 with hs0
    set e0 : Nat := m s0 with he0
    set s1 : Nat := entryAddress e0 + 8 * tableIndex virt 1 with hs1
    set e1 : Nat := m s1 with he1
    set s2 : Nat := entryAddress e1 + 8 * tableIndex virt 2 with hs2
    have hd0 : ∀ p ∈ fresh, ¬ (p ≤ s0 ∧ s0 < p + 4096) := by
      intro p hp
      exact hdisj p hp s0 (by simp)
    have hd1s : ∀ p ∈ fresh, ¬ (p ≤ s1 ∧ s1 < p + 4096) := by
      intro p hp
      exact hdisj p hp s1 (by simp)
    have hd2s : ∀ p ∈ fresh, ¬ (p ≤ s2 ∧ s2 < p + 4096) := by
      intro p hp
      exact hdisj p hp s2 (by simp)
    have hslots3 : ([s0, s1, s2] : List Nat).Nodup := hslots
    have h01 : s0 ≠ s1 := fun hh => (List.nodup_cons.mp hslots3).1 (by rw [hh]; simp)
    have h02 : s0 ≠ s2 := fun hh => (List.nodup_cons.mp hslots3).1 (by rw [hh]; simp)
    have h12 : s1 ≠ s2 := fun hh =>
      (List.nodup_cons.mp (List.nodup_cons.mp hslots3).2).1 (by rw [hh]; simp)
    unfold mapRaw at hmap
    rw [if_neg (not_not_intro (entryAddress_low entry))] at hmap
    rw [htrans] at hmap
    simp only [] at hmap
    rw [if_neg (by simp)] at hmap
    rcases S with _ | _ | _
    · -- Size512G: leaf written into the recorded depth-1 slot
      simp only [] at hmap
      rw [show List.range' 1 (2 - 1) = [1] from rfl] at hmap
      rw [mapLoop] at hmap
      simp only [List.foldl_cons, List.foldl_nil] at hmap
      simp only [Option.bind] at hmap
      rw [mapLoopStep] at hmap
      simp only [] at hmap
      rw [show ([some s0, some s1, some s2, none] : List (Option Nat)).getD 1 none
        = some s1 from rfl] at hmap
      simp only [] at hmap
      rw [show ([some s0, some s1, some s2, none] : List (Option Nat)).getD (2 - 1)
        none = some s1 from rfl] at hmap
      simp only [] at hmap
      injection hmap with hmap
      rw [← hmap]
      refine ⟨_, @translate_chain512 _ _ _ e0 entry
        ?_ hb0 hb0s ?_ hpresent hps, rfl, rfl, rfl⟩
      · show writeU64 m s1 entry s0 = e0
        rw [writeU64_ne _ _ _ _ h01]
      · show writeU64 m s1 entry s1 = entry
        rw [writeU64_at]
    · -- Size2M: leaf written into the recorded depth-2 slot
      simp only [] at hmap
      rw [show List.range' 1 (3 - 1) = [1, 2] from rfl] at hmap
      rw [mapLoop] at hmap
      simp only [List.foldl_cons, List.foldl_nil] at hmap
      simp only [Option.bind] at hmap
      rw [mapLoopStep] at hmap
      simp only [] at hmap
      rw [show ([some s0, some s1, some s2, none] : List (Option Nat)).getD 1 none
        = some s1 from rfl] at hmap
      simp only [] at hmap
      rw [mapLoopStep] at hmap
      simp only [] at hmap
      rw [show ([some s0, some s1, some s2, none] : List (Option Nat)).getD 2 none
        = some s2 from rfl] at hmap
      simp only [] at hmap
      rw [show ([some s0, some s1, some s2, none] : List (Option Nat)).getD (3 - 1)
        none = some s2 from rfl] at hmap
      simp only [] at hmap
      injection hmap with hmap
      rw [← hmap]
      refine ⟨_, @translate_chain2M _ _ _ e0 e1 entry
        ?_ hb0 hb0s ?_ hb1 hb1s ?_ hpresent hps, rfl, rfl, rfl⟩
      · show writeU64 m s2 entry s0 = e0
        rw [writeU64_ne _ _ _ _ h02]
      · show writeU64 m s2 entry s1 = e1
        rw [writeU64_ne _ _ _ _ h12]
      · show writeU64 m s2 entry s2 = entry
        rw [writeU64_at]
    · -- Size4K: one fresh page fills depth 3
      simp only [] at hmap
      rw [show List.range' 1 (4 - 1) = [1, 2, 3] from rfl] at hmap
      rw [mapLoop] at hmap
      simp only [List.foldl_cons, List.foldl_nil] at hmap
      simp only [Option.bind] at hmap
      rw [mapLoopStep] at hmap
      simp only [] at hmap
      rw [show ([some s0, some s1, some s2, none] : List (Option Nat)).getD 1 none
        = some s1 from rfl] at hmap
      simp only [] at hmap
      rw [mapLoopStep] at hmap
      simp only [] at hmap
      rw [show ([some s0, some s1, some s2, none] : List (Option Nat)).getD 2 none
        = some s2 from rfl] at hmap
      simp only [] at hmap
      rw [mapLoopStep] at hmap
      simp only [] at hmap
      rw [show ([some s0, some s1, some s2, none] : List (Option Nat)).getD 3 none
        = none from rfl] at hmap
      simp only [] at hmap
      rcases fresh with _ | ⟨p1, fresh1⟩
      · simp only [] at hmap
        cases hmap
      · obtain ⟨hal1, hlt1⟩ := hfresh p1 (List.mem_cons_self p1 fresh1)
        have hd0p := hd0 p1 (List.mem_cons_self p1 fresh1)
        have hd1p := hd1s p1 (List.mem_cons_self p1 fresh1)
        have hd2p := hd2s p1 (List.mem_cons_self p1 fresh1)
        simp only [] at hmap
        rw [if_neg (not_not_intro hal1)] at hmap
        rw [show ([some s0, some s1, some s2, none] : List (Option Nat)).getD (3 - 1)
          none = some s2 from rfl] at hmap
        simp only [] at hmap
        rw [show ([some s0, some s1, some s2, none] : List (Option Nat)).set 3
          (some (p1 + 8 * tableIndex virt 3)) =
          [some s0, some s1, some s2, some (p1 + 8 * tableIndex virt 3)] from rfl]
          at hmap
        rw [show ([some s0, some s1, some s2, some (p1 + 8 * tableIndex virt 3)] :
          List (Option Nat)).getD (4 - 1) none
          = some (p1 + 8 * tableIndex virt 3) from rfl] at hmap
        simp only [] at hmap
        injection hmap with hmap
        rw [← hmap]
        obtain ⟨hip1, hips1⟩ := intermediate_bits hal1
        refine ⟨_, @translate_chain4K _ _ _ e0 e1
          (intermediateEntry p1) entry
          ?_ hb0 hb0s ?_ hb1 hb1s ?_ hip1 hips1 ?_ hpresent hps,
          rfl, rfl, rfl⟩
        · show writeU64 (writeU64 (zeroPage m p1) s2 (intermediateEntry p1))
            (p1 + 8 * tableIndex virt 3) entry s0 = e0
          rw [writeU64_ne _ _ _ _ (by omega)]
          rw [writeU64_ne _ _ _ _ h02]
          rw [zeroPage_ne _ _ _ (by omega)]
        · show writeU64 (writeU64 (zeroPage m p1) s2 (intermediateEntry p1))
            (p1 + 8 * tableIndex virt 3) entry s1 = e1
          rw [writeU64_ne _ _ _ _ (by omega)]
          rw [writeU64_ne _ _ _ _ h12]
          rw [zeroPage_ne _ _ _ (by omega)]
        · show writeU64 (writeU64 (zeroPage m p1) s2 (intermediateEntry p1))
            (p1 + 8 * tableIndex virt 3) entry s2 = intermediateEntry p1
          rw [writeU64_ne _ _ _ _ (by omega)]
          rw [writeU64_at]
        · rw [entryAddress_intermediate hal1 hlt1]
          show writeU64 (writeU64 (zeroPage m p1) s2 (intermediateEntry p1))
            (p1 + 8 * tableIndex virt 3) entry (p1 + 8 * tableIndex virt 3) = entry
          rw [writeU64_at]
  · -- k = 3: walk stopped at depth 3
    subst ht
    set s0 : Nat := root + 8 * tableIndex virt 0 with hs0
    set e0 : Nat := m s0 with he0
    set s1 : Nat := entryAddress e0 + 8 * tableIndex virt 1 with hs1
    set e1 : Nat := m s1 with he1
    set s2 : Nat := entryAddress e1 + 8 * tableIndex virt 2 with hs2
    set e2 : Nat := m s2 with he2
    set s3 : Nat := entryAddress e2 + 8 * tableIndex virt 3 with hs3
    have hslots4 : ([s0, s1, s2, s3] : List Nat).Nodup := hslots
    have h01 : s0 ≠ s1 := fun hh => (List.nodup_cons.mp hslots4).1 (by rw [hh]; simp)
    have h02 : s0 ≠ s2 := fun hh => (List.nodup_cons.mp hslots4).1 (by rw [hh]; simp)
    have h03 : s0 ≠ s3 := fun hh => (List.nodup_cons.mp hslots4).1 (by rw [hh]; simp)
    have h12 : s1 ≠ s2 := fun hh =>
      (List.nodup_cons.mp (List.nodup_cons.mp hslots4).2).1 (by rw [hh]; simp)
    have h13 : s1 ≠ s3 := fun hh =>
      (List.nodup_cons.mp (List.nodup_cons.mp hslots4).2).1 (by rw [hh]; simp)
    have h23 : s2 ≠ s3 := fun hh =>
      (List.nodup_cons.mp (List.nodup_cons.mp (List.nodup_cons.mp hslots4).2).2).1
        (by rw [hh]; simp)
    unfold mapRaw at hmap
    rw [if_neg (not_not_intro (entryAddress_low entry))] at hmap
    rw [htrans] at hmap
    simp only [] at hmap
    rw [if_neg (by simp)] at hmap
    rcases S with _ | _ | _
    · -- Size512G
      simp only [] at hmap
      rw [show List.range' 1 (2 - 1) = [1] from rfl] at hmap
      rw [mapLoop] at hmap
      simp only [List.foldl_cons, List.foldl_nil] at hmap
      simp only [Option.bind] at hmap
      rw [mapLoopStep] at hmap
      simp only [] at hmap
      rw [show ([some s0, some s1, some s2, some s3] : List (Option Nat)).getD 1 none
        = some s1 from rfl] at hmap
      simp only [] at hmap
      rw [show ([some s0, some s1, some s2, some s3] : List (Option Nat)).getD (2 - 1)
        none = some s1 from rfl] at hmap
      simp only [] at hmap
      injection hmap with hmap
      rw [← hmap]
      refine ⟨_, @translate_chain512 _ _ _ e0 entry
        ?_ hb0 hb0s ?_ hpresent hps, rfl, rfl, rfl⟩
      · show writeU64 m s1 entry s0 = e0
        rw [writeU64_ne _ _ _ _ h01]
      · show writeU64 m s1 entry s1 = entry
        rw [writeU64_at]
    · -- Size2M
      simp only [] at hmap
      rw [show List.range' 1 (3 - 1) = [1, 2] from rfl] at hmap
      rw [mapLoop] at hmap
      simp only [List.foldl_cons, List.foldl_nil] at hmap
      simp only [Option.bind] at hmap
      rw [mapLoopStep] at hmap
      simp only [] at hmap
      rw [show ([some s0, some s1, some s2, some s3] : List (Option Nat)).getD 1 none
        = some s1 from rfl] at hmap
      simp only [] at hmap
      rw [mapLoopStep] at hmap
      simp only [] at hmap
      rw [show ([some s0, some s1, some s2, some s3] : List (Option Nat)).getD 2 none
        = some s2 from rfl] at hmap
      simp only [] at hmap
      rw [show ([some s0, some s1, some s2, some s3] : List (Option Nat)).getD (3 - 1)
        none = some s2 from rfl] at hmap
      simp only [] at hmap
      injection hmap with hmap
      rw [← hmap]
      refine ⟨_, @translate_chain2M _ _ _ e0 e1 entry
        ?_ hb0 hb0s ?_ hb1 hb1s ?_ hpresent hps, rfl, rfl, rfl⟩
      · show writeU64 m s2 entry s0 = e0
        rw [writeU64_ne _ _ _ _ h02]
      · show writeU64 m s2 entry s1 = e1
        rw [writeU64_ne _ _ _ _ h12]
      · show writeU64 m s2 entry s2 = entry
        rw [writeU64_at]
    · -- Size4K
      simp only [] at hmap
      rw [show List.range' 1 (4 - 1) = [1, 2, 3] from rfl] at hmap
      rw [mapLoop] at hmap
      simp only [List.foldl_cons, List.foldl_nil] at hmap
      simp only [Option.bind] at hmap
      rw [mapLoopStep] at hmap
      simp only [] at hmap
      rw [show ([some s0, some s1, some s2, some s3] : List (Option Nat)).getD 1 none
        = some s1 from rfl] at hmap
      simp only [] at hmap
      rw [mapLoopStep] at hmap
      simp only [] at hmap
      rw [show ([some s0, some s1, some s2, some s3] : List (Option Nat)).getD 2 none
        = some s2 from rfl] at hmap
      simp only [] at hmap
      rw [mapLoopStep] at hmap
      simp only [] at hmap
      rw [show ([some s0, some s1, some s2, some s3] : List (Option Nat)).getD 3 none
        = some s3 from rfl] at hmap
      simp only [] at hmap
      rw [show ([some s0, some s1, some s2, some s3] : List (Option Nat)).getD (4 - 1)
        none = some s3 from rfl] at hmap
      simp only [] at hmap
      injection hmap with hmap
      rw [← hmap]
      refine ⟨_, @translate_chain4K _ _ _ e0 e1 e2 entry
        ?_ hb0 hb0s ?_ hb1 hb1s ?_ hb2 hb2s ?_ hpresent hps, rfl, rfl, rfl⟩
      · show writeU64 m s3 entry s0 = e0
        rw [writeU64_ne _ _ _ _ h03]
      · show writeU64 m s3 entry s1 = e1
        rw [writeU64_ne _ _ _ _ h13]
      · show writeU64 m s3 entry s2 = e2
        rw [writeU64_ne _ _ _ _ h23]
      · show writeU64 m s3 entry s3 = entry
        rw [writeU64_at]

/-- C1 counterexample: the round-trip fails for a degenerate "leaf entry"
without the present bit.  `_map_raw` happily writes the entry word `0`
(page-aligned address, so the alignment check passes) and returns `Ok`, yet
the subsequent translation still reports no physical address instead of
`entry.address() + (v & (S-1))`. -/
theorem claim_C1_counterexample :
    ∃ res, mapRaw (fun _ => 0) 0x1000 0 0 PageSize.Size512G [0x3000] = .ok res ∧
      ∃ t1, PageTableX86.translate res.1 0x1000 0 = some t1 ∧
        t1.phys_addr = none ∧ t1.size = none :=
  ⟨(writeU64 (writeU64 (zeroPage (fun _ => 0) 0x3000) 0x1000
      (intermediateEntry 0x3000)) 0x3000 0, []), rfl, _, rfl, rfl, rfl⟩

/-- Witness for the amended C1 statement: mapping the 512 GiB leaf `0x2081`
at virtual address `0` over a table whose depth-1 slot is recorded but not
present satisfies every hypothesis, and the theorem produces the translated
leaf. -/
theorem claim_C1_map_translate_roundtrip_witness :
    (PageTableX86.translate (fun a => if a = 0x1000 then 0x2001 else 0) 0x1000 0 =
      some ⟨0, none, none, [some 0x1000, some 0x2000, none, none],
        ⟨false, false, false⟩⟩) ∧
    bitSet 0x2081 0 = true ∧
    bitSet 0x2081 7 = psBit PageSize.Size512G ∧
    (∀ p ∈ ([] : List Nat), p % 4096 = 0 ∧ p < 2 ^ 52) ∧
    ([] : List Nat).Nodup ∧
    (([some 0x1000, some 0x2000, none, none].filterMap id : List Nat)).Nodup ∧
    mapRaw (fun a => if a = 0x1000 then 0x2001 else 0) 0x1000 0x2081 0
      PageSize.Size512G [] =
      .ok (writeU64 (fun a => if a = 0x1000 then 0x2001 else 0) 0x2000 0x2081, []) ∧
    (∃ t1, PageTableX86.translate
        (writeU64 (fun a => if a = 0x1000 then 0x2001 else 0) 0x2000 0x2081, ([] : List Nat)).1
        0x1000 0 = some t1 ∧
      t1.phys_addr = some (entryAddress 0x2081 +
        (0 &&& (pageBytes PageSize.Size512G - 1))) ∧
      t1.size = some PageSize.Size512G ∧
      t1.perms = ⟨true, bitSet 0x2081 1, ! bitSet 0x2081 63⟩) :=
  ⟨rfl, rfl, rfl, by decide, by decide, by decide, rfl,
    @claim_C1_map_translate_roundtrip
      (fun a => if a = 0x1000 then 0x2001 else 0)
      0x1000 0 0x2081 PageSize.Size512G []
      ⟨0, none, none, [some 0x1000, some 0x2000, none, none],
        ⟨false, false, false⟩⟩
      (writeU64 (fun a => if a = 0x1000 then 0x2001 else 0) 0x2000 0x2081, [])
      rfl rfl rfl rfl (by decide) (by decide)
      (fun p hp => absurd hp (List.not_mem_nil p)) (by decide) rfl⟩

end Theorems
